import Mathlib

/-!
# A fixed-region allocator with a min-heap of free blocks

Shallow embedding of `my_malloc.c` / `my_malloc.h`.

* The block list (the headers reachable from `heap_start` through `next`) is a
  Lean list in link order; every header records the address it lives at, and
  the `next` pointer of a header is the address of its successor in the list
  (`NULL` for the last one).
* `free_heap.blocks[0..size)` is a list of header addresses; the size of an
  entry is read through the pointer, that is, looked up in the block list.
* `size_t` arithmetic is arithmetic on `Nat` reduced modulo `2 ^ 64`.
* Payload bytes live in `State.bytes`; headers are not stored in `bytes`.
* `fprintf (stderr, ...)` appends to `State.stderr`.
-/

namespace MyMalloc

/-! ## Constants and data model -/

/-- The value of `sizeof(block_meta_t)` on an LP64 target: two `size_t`, an `int`
(padded to eight bytes) and a pointer. -/
def META_SIZE : Nat := 32

/-- The macro `HEAP_SIZE`: 1MB + 4KB. -/
def HEAP_SIZE : Nat := 1024 * 1024 + 4096

/-- The macro `MAX_FREE_BLOCKS` of `my_malloc.h`. -/
def MAX_FREE_BLOCKS : Nat := 1024

/-- The number of values of a `size_t`. -/
def SIZE_MODULUS : Nat := 2 ^ 64

/-- The pointer `(void*)-1`. -/
def VOID_MINUS_ONE : Nat := 2 ^ 64 - 1

/-- Addition of two `size_t` values. -/
def add64 (a b : Nat) : Nat := (a + b) % SIZE_MODULUS

/-- Subtraction of two `size_t` values. -/
def sub64 (a b : Nat) : Nat := (a % SIZE_MODULUS + SIZE_MODULUS - b % SIZE_MODULUS) % SIZE_MODULUS

/-- The expression `(size + 7) & ~7` on a `size_t`. -/
def align8 (size : Nat) : Nat := add64 size 7 / 8 * 8

/-- A block header (`block_meta_t`) together with the address it is stored at.
The `next` field is implicit: it is the address of the following header in the
block list, or `NULL` for the last header. -/
structure block_meta_t where
  addr : Nat
  size : Nat
  requested_size : Nat
  is_free : Bool
deriving DecidableEq

/-- The live part `blocks[0..size)` of the array of `free_block_heap_t`. -/
structure free_block_heap_t where
  blocks : List Nat
deriving DecidableEq

/-- The field `size` of `free_block_heap_t`. -/
def free_block_heap_t.size (h : free_block_heap_t) : Nat := h.blocks.length

/-- The three diagnostics the allocator prints to `stderr`. -/
inductive diag where
  | heap_full
  | init_failed
  | invalid_free
deriving DecidableEq

/-- What the two `sbrk` calls of `get_me_blocks` see: the current break, and
whether the extension fails. -/
structure sbrk_t where
  brk : Nat
  fails : Bool
deriving DecidableEq

/-- The globals `heap_start`, `free_heap`, `is_initialized`, the block list that
starts at `heap_start`, the payload bytes and what was printed to `stderr`. -/
structure State where
  heap_start : Nat
  free_heap : free_block_heap_t
  is_initialized : Bool
  blocks : List block_meta_t
  bytes : Nat → Nat
  stderr : List diag

/-- The state of the globals when the program starts. -/
def boot (bytes : Nat → Nat) : State :=
  { heap_start := 0, free_heap := ⟨[]⟩, is_initialized := false, blocks := [],
    bytes := bytes, stderr := [] }

/-! ## Headers -/

/-- The header stored at address `p`, if `p` is the address of a listed block. -/
def find_block (blocks : List block_meta_t) (p : Nat) : Option block_meta_t :=
  blocks.find? (fun b => decide (b.addr = p))

/-- The read `p->size`. -/
def block_size (blocks : List block_meta_t) (p : Nat) : Nat :=
  match find_block blocks p with
  | some b => b.size
  | none => 0

/-- A write to fields of the header at address `p`. -/
def update_block (blocks : List block_meta_t) (p : Nat)
    (f : block_meta_t → block_meta_t) : List block_meta_t :=
  blocks.map (fun b => if b.addr = p then f b else b)

/-- The function `get_block_meta`. -/
def get_block_meta (ptr : Nat) : Nat := ptr - META_SIZE

/-! ## The free index -/

/-- The function `swap_blocks`. -/
def swap_blocks (h : List Nat) (i j : Nat) : List Nat :=
  (h.set i (h.getD j 0)).set j (h.getD i 0)

/-- The loop of `heapify_up`; the first argument bounds the number of iterations. -/
def heapify_up_loop (blocks : List block_meta_t) : Nat → List Nat → Nat → List Nat
  | 0, h, _ => h
  | fuel + 1, h, index =>
    if index > 0 then
      let parent := (index - 1) / 2
      if block_size blocks (h.getD parent 0) > block_size blocks (h.getD index 0) then
        heapify_up_loop blocks fuel (swap_blocks h parent index) parent
      else h
    else h

/-- The function `heapify_up`: the index strictly decreases, so `index`
iterations are all the loop can make. -/
def heapify_up (blocks : List block_meta_t) (h : List Nat) (index : Nat) : List Nat :=
  heapify_up_loop blocks index h index

/-- The two comparisons of `heapify_down`: the value of `smallest` when the
last `if` is reached. -/
def smallest_child (blocks : List block_meta_t) (h : List Nat) (index : Nat) : Nat :=
  let smallest := index
  let left := 2 * index + 1
  let right := 2 * index + 2
  let smallest :=
    if left < h.length ∧
        block_size blocks (h.getD left 0) < block_size blocks (h.getD smallest 0) then left
    else smallest
  let smallest :=
    if right < h.length ∧
        block_size blocks (h.getD right 0) < block_size blocks (h.getD smallest 0) then right
    else smallest
  smallest

/-- The recursion of `heapify_down`; the first argument bounds its depth. -/
def heapify_down_rec (blocks : List block_meta_t) : Nat → List Nat → Nat → List Nat
  | 0, h, _ => h
  | fuel + 1, h, index =>
    let smallest := smallest_child blocks h index
    if smallest ≠ index then
      heapify_down_rec blocks fuel (swap_blocks h index smallest) smallest
    else h

/-- The function `heapify_down`: the index strictly increases and stays below
the heap size, so the depth is below the heap size. -/
def heapify_down (blocks : List block_meta_t) (h : List Nat) (index : Nat) : List Nat :=
  heapify_down_rec blocks h.length h index

/-- The function `insert_free_block`. -/
def insert_free_block (s : State) (block : Nat) : State :=
  if s.free_heap.size ≥ MAX_FREE_BLOCKS then
    { s with stderr := s.stderr ++ [diag.heap_full] }
  else
    { s with free_heap :=
        ⟨heapify_up s.blocks (s.free_heap.blocks ++ [block]) s.free_heap.size⟩ }

/-- The first index `i` at or after `i0` whose entry satisfies `p`. -/
def first_index (p : Nat → Bool) : List Nat → Nat → Option Nat
  | [], _ => none
  | x :: xs, i0 => if p x then some i0 else first_index p xs (i0 + 1)

/-- The three statements that take slot `i` out of the index: the last entry is
copied into slot `i`, the size is decremented, and slot `i` is sifted down. -/
def remove_slot (blocks : List block_meta_t) (h : List Nat) (i : Nat) : List Nat :=
  heapify_down blocks ((h.set i (h.getD (h.length - 1) 0)).dropLast) i

/-- The function `find_free_block`. -/
def find_free_block (s : State) (size : Nat) : Option Nat × State :=
  match first_index (fun p => decide (block_size s.blocks p ≥ size)) s.free_heap.blocks 0 with
  | some i =>
    (some (s.free_heap.blocks.getD i 0),
      { s with free_heap := ⟨remove_slot s.blocks s.free_heap.blocks i⟩ })
  | none => (none, s)

/-- The function `remove_free_block`. -/
def remove_free_block (s : State) (block : Nat) : State :=
  match first_index (fun p => decide (p = block)) s.free_heap.blocks 0 with
  | some i => { s with free_heap := ⟨remove_slot s.blocks s.free_heap.blocks i⟩ }
  | none => s

/-! ## The heap manager -/

/-- The function `get_me_blocks`. -/
def get_me_blocks (os : sbrk_t) (_how_much : Nat) : Nat :=
  let ptr := os.brk
  let request := if os.fails then VOID_MINUS_ONE else os.brk
  if request = VOID_MINUS_ONE then 0 else ptr

/-- The function `init_heap`. -/
def init_heap (os : sbrk_t) (s : State) : State :=
  if s.is_initialized = false then
    let heap_start := get_me_blocks os HEAP_SIZE
    if heap_start = VOID_MINUS_ONE then
      { s with heap_start := heap_start, stderr := s.stderr ++ [diag.init_failed] }
    else
      let initial_block : block_meta_t :=
        { addr := heap_start, size := HEAP_SIZE - META_SIZE, requested_size := 0,
          is_free := true }
      let s1 : State :=
        { s with heap_start := heap_start, blocks := [initial_block], free_heap := ⟨[]⟩ }
      let s2 := insert_free_block s1 heap_start
      { s2 with is_initialized := true }
  else s

/-- The two header writes of `split_block` on the list: the block at address
`block` gets size `size` and `new_block` is linked between it and its old
successor. -/
def link_after : List block_meta_t → Nat → Nat → block_meta_t → List block_meta_t
  | [], _, _, _ => []
  | b :: rest, block, size, new_block =>
    if b.addr = block then { b with size := size } :: new_block :: rest
    else b :: link_after rest block size new_block

/-- The function `split_block`. A `block` that is not the address of a listed
header is outside the model. -/
def split_block (s : State) (block : Nat) (size : Nat) : State :=
  match find_block s.blocks block with
  | none => s
  | some b =>
    if b.size ≥ add64 (add64 size META_SIZE) 16 then
      let new_block : block_meta_t :=
        { addr := block + META_SIZE + size,
          size := sub64 (sub64 b.size size) META_SIZE,
          requested_size := 0,
          is_free := true }
      insert_free_block { s with blocks := link_after s.blocks block size new_block }
        new_block.addr
    else s

/-- The call `memset (ptr, c, n)` on the payload bytes. The pointer is `none`
when the identifier passed has no declaration in scope at the call. -/
def memset (bytes : Nat → Nat) (ptr : Option Nat) (c n : Nat) : Nat → Nat :=
  match ptr with
  | none => bytes
  | some p => fun a => if p ≤ a ∧ a < p + n then c else bytes a

/-- The call `memcpy (dst, src, n)` on the payload bytes. -/
def memcpy (bytes : Nat → Nat) (dst src n : Nat) : Nat → Nat :=
  fun a => if dst ≤ a ∧ a < dst + n then bytes (src + (a - dst)) else bytes a

/-- The function `malloc`. The statement `memset(ptr, 0, size)` stands one line
above the declaration `void* ptr = (char*)block + META_SIZE`, so no `ptr` is in
scope where it is read. -/
def malloc (os : sbrk_t) (s : State) (size : Nat) : Nat × State :=
  if size = 0 then (0, s)
  else
    let s := if s.is_initialized = false then init_heap os s else s
    if s.is_initialized = false then (0, s)
    else
      let original_size := size
      let size := align8 size
      match find_free_block s size with
      | (some block, s1) =>
        let s2 := split_block s1 block size
        let s3 : State :=
          { s2 with blocks := (update_block s2.blocks block
              (fun b => { b with is_free := false, requested_size := original_size })) }
        let ptr : Option Nat := none
        let s4 : State := { s3 with bytes := memset s3.bytes ptr 0 size }
        let ptr := block + META_SIZE
        (ptr, s4)
      | (none, s1) => (0, s1)

/-- The header of `current` after the three assignments that merge `next` into
it: `size += META_SIZE + next->size`, `requested_size = 0`, and `next` is
unlinked. -/
def merged_block (current next : block_meta_t) : block_meta_t :=
  { current with
    size := add64 current.size (add64 META_SIZE next.size),
    requested_size := 0 }

/-- The body of the inner `if` of `coalesce`: both blocks leave the index, the
second is merged into the first, and the merged block is inserted. The headers
before `current` are `pre` (last first), the ones after `next` are `rest`. -/
def merge_step (s : State) (pre : List block_meta_t) (current next : block_meta_t)
    (rest : List block_meta_t) : State :=
  let s1 := remove_free_block s current.addr
  let s2 := remove_free_block s1 next.addr
  let s3 : State := { s2 with blocks := pre.reverse ++ merged_block current next :: rest }
  insert_free_block s3 current.addr

/-- The loop of `coalesce`. `pre` holds, last first, the headers the walk has
left behind, `current` is the header under the cursor, and the last argument is
the list that starts at `current->next`; `s.blocks` is the whole list. -/
def coalesce_loop (s : State) (pre : List block_meta_t) (current : block_meta_t) :
    List block_meta_t → State
  | [] => s
  | next :: rest =>
    if current.is_free = true ∧ next.is_free = true then
      if current.addr + META_SIZE + current.size = next.addr then
        coalesce_loop (merge_step s pre current next rest) pre (merged_block current next) rest
      else coalesce_loop s (current :: pre) next rest
    else coalesce_loop s (current :: pre) next rest

/-- The function `coalesce`; its argument `block` is not used by the C code. -/
def coalesce (s : State) : State :=
  match s.blocks with
  | [] => s
  | current :: rest => coalesce_loop s [] current rest

/-- The function `free`. -/
def free (s : State) (ptr : Nat) : State :=
  if ptr = 0 then s
  else
    let block := get_block_meta ptr
    if block < s.heap_start ∨ block ≥ s.heap_start + HEAP_SIZE then
      { s with stderr := s.stderr ++ [diag.invalid_free] }
    else
      let s1 : State :=
        { s with blocks := (update_block s.blocks block
            (fun b => { b with is_free := true, requested_size := 0 })) }
      let s2 := insert_free_block s1 block
      coalesce s2

/-- The function `realloc`. The result is `none` when `memcpy` copies more bytes
than the destination block holds: the copy then runs over the header behind the
destination payload, and the block list has no description in this model. -/
def realloc (os : sbrk_t) (s : State) (ptr : Nat) (size : Nat) : Option (Nat × State) :=
  if ptr = 0 then some (malloc os s size)
  else if size = 0 then some (0, free s ptr)
  else
    let block := get_block_meta ptr
    if block < s.heap_start ∨ block ≥ s.heap_start + HEAP_SIZE then some (0, s)
    else if block_size s.blocks block ≥ size then
      let s1 : State :=
        { s with blocks := (update_block s.blocks block
            (fun b => { b with requested_size := size })) }
      some (ptr, split_block s1 block size)
    else
      let r := malloc os s size
      let new_ptr := r.1
      if new_ptr = 0 then some (0, r.2)
      else
        let n := block_size r.2.blocks block
        if n > block_size r.2.blocks (get_block_meta new_ptr) then none
        else
          some (new_ptr, free { r.2 with bytes := memcpy r.2.bytes new_ptr ptr n } ptr)

/-- A caller's write of one byte. -/
def store (s : State) (a v : Nat) : State :=
  { s with bytes := fun x => if x = a then v else s.bytes x }

/-! ## Calls, validity and reachable states -/

/-- The heap right after a successful `init_heap` that got the region at `hs`:
one free block that spans the region, indexed at slot 0. -/
def fresh_heap (hs : Nat) (bytes : Nat → Nat) : State :=
  { heap_start := hs,
    free_heap := ⟨[hs]⟩,
    is_initialized := true,
    blocks := [{ addr := hs, size := HEAP_SIZE - META_SIZE, requested_size := 0,
                 is_free := true }],
    bytes := bytes,
    stderr := [] }

/-- A call of one of the three public functions. -/
inductive call where
  | malloc (size : Nat)
  | free (ptr : Nat)
  | realloc (ptr : Nat) (size : Nat)
deriving DecidableEq

/-- The pointer `ptr` is currently granted: it is the payload pointer of a listed
block that is in use. -/
def granted (s : State) (ptr : Nat) : Prop :=
  ∃ b ∈ s.blocks, b.is_free = false ∧ ptr = b.addr + META_SIZE

instance granted_decidable (s : State) (ptr : Nat) : Decidable (granted s ptr) := by
  unfold granted
  infer_instance

/-- Every pointer handed to `free` or `realloc` is null or currently granted. -/
def valid_call (s : State) : call → Prop
  | call.malloc _ => True
  | call.free ptr => ptr = 0 ∨ granted s ptr
  | call.realloc ptr _ => ptr = 0 ∨ granted s ptr

instance valid_call_decidable (s : State) (c : call) : Decidable (valid_call s c) := by
  cases c <;> unfold valid_call <;> infer_instance

/-- The state after a call; `none` when `realloc` has no successor state. -/
def step (os : sbrk_t) (s : State) : call → Option State
  | call.malloc size => some (malloc os s size).2
  | call.free ptr => some (free s ptr)
  | call.realloc ptr size => (realloc os s ptr size).map Prod.snd

/-- Every call is admitted. -/
def any_call : call → Bool := fun _ => true

/-- Only `malloc` and `free` are admitted. -/
def no_realloc : call → Bool
  | call.realloc _ _ => false
  | _ => true

/-- A `realloc` is admitted when rounding its size up to a multiple of 8 does not
wrap around. -/
def realloc_bounded : call → Bool
  | call.realloc _ size => decide (size ≤ SIZE_MODULUS - 8)
  | _ => true

/-- The states reachable from `s0` by calls that are admitted by `adm`, pass
null or granted pointers only, and have a successor state. -/
inductive reachable (os : sbrk_t) (adm : call → Bool) (s0 : State) : State → Prop where
  | start : reachable os adm s0 s0
  | next {s t : State} (c : call) :
      reachable os adm s0 s → adm c = true → valid_call s c → step os s c = some t →
      reachable os adm s0 t

/-- The state after a list of calls (a call without successor state ends the run). -/
def exec (os : sbrk_t) : State → List call → State
  | s, [] => s
  | s, c :: cs =>
    match step os s c with
    | some t => exec os t cs
    | none => s

/-- Every call of the list is admitted, valid where it is made, and has a
successor state. -/
def exec_ok (os : sbrk_t) (adm : call → Bool) : State → List call → Bool
  | _, [] => true
  | s, c :: cs =>
    adm c && decide (valid_call s c) &&
      match step os s c with
      | some t => exec_ok os adm t cs
      | none => false

/-- The pointers that are granted after a list of `malloc`/`free` calls made
from state `s`, where `live` are the pointers granted before: a non-null result
of `malloc` is added, a pointer passed to `free` is taken out. The result is
`none` when a `free` gets a pointer that is neither null nor granted at that
moment, or when the list holds a `realloc`. -/
def live_after (os : sbrk_t) : State → List Nat → List call → Option (List Nat)
  | _, live, [] => some live
  | s, live, call.malloc size :: cs =>
    live_after os (malloc os s size).2
      (if (malloc os s size).1 = 0 then live else (malloc os s size).1 :: live) cs
  | s, live, call.free ptr :: cs =>
    if ptr = 0 then live_after os (free s ptr) live cs
    else if ptr ∈ live then live_after os (free s ptr) (live.erase ptr) cs
    else none
  | _, _, call.realloc _ _ :: _ => none

/-! ## The properties of the specification -/

/-- The walk of the partition invariant: the first header of the list is at
`start`, every further header is `META_SIZE + size` bytes after the start of the
header before it, and the last block ends at `stop`. -/
def partition_from (stop : Nat) : Nat → List block_meta_t → Prop
  | start, [] => start = stop
  | start, b :: rest =>
    b.addr = start ∧ partition_from stop (b.addr + META_SIZE + b.size) rest

/-- The partition invariant of a state. -/
def partitioned (s : State) : Prop :=
  s.blocks ≠ [] ∧ partition_from (s.heap_start + HEAP_SIZE) s.heap_start s.blocks

/-- The heap-order invariant: every entry that is not the root is at least as
large as its parent. -/
def heap_ordered (s : State) : Prop :=
  ∀ i, 0 < i → i < s.free_heap.size →
    block_size s.blocks (s.free_heap.blocks.getD i 0) ≥
      block_size s.blocks (s.free_heap.blocks.getD ((i - 1) / 2) 0)

/-- The addresses of the listed blocks that are marked free, in list order. -/
def free_addrs (blocks : List block_meta_t) : List Nat :=
  (blocks.filter (fun b => b.is_free)).map (fun b => b.addr)

/-- The membership invariant: the index holds the free blocks of the list, each
one once. -/
def index_exact (s : State) : Prop :=
  s.free_heap.blocks.Perm (free_addrs s.blocks)

/-- The index is sound: no entry occurs twice and every entry is the address of
a listed block that is marked free. -/
def index_sound (s : State) : Prop :=
  s.free_heap.blocks.Nodup ∧ ∀ p ∈ s.free_heap.blocks, p ∈ free_addrs s.blocks

/-- The index is complete: every listed block that is marked free is an entry. -/
def index_complete (s : State) : Prop :=
  ∀ p ∈ free_addrs s.blocks, p ∈ s.free_heap.blocks

/-- The state is initialised, its block list partitions the region, and its
index is sound. -/
def well_formed (s : State) : Prop :=
  s.is_initialized = true ∧ partitioned s ∧ index_sound s

/-- No block that is free is followed by a block that is free. -/
def no_adjacent_free : List block_meta_t → Prop
  | [] => True
  | [_] => True
  | b :: c :: rest => ¬ (b.is_free = true ∧ c.is_free = true) ∧ no_adjacent_free (c :: rest)

/-- When the list is a single free block, that block is in the index. -/
def single_indexed (s : State) : Prop :=
  ∀ b, s.blocks = [b] → b.is_free = true → b.addr ∈ s.free_heap.blocks

/-- No listed block is in use: every pointer that was granted has been freed. -/
def all_freed (s : State) : Prop := ∀ b ∈ s.blocks, b.is_free = true

instance all_freed_decidable (s : State) : Decidable (all_freed s) := by
  unfold all_freed
  infer_instance

/-- The loop of `coalesce` stands at `current` in a well-formed state: `pre`
(last first) are the headers behind the cursor, `rest` the ones ahead, and the
index is within its capacity. -/
def cursor_at (s : State) (pre : List block_meta_t) (current : block_meta_t)
    (rest : List block_meta_t) : Prop :=
  well_formed s ∧ s.free_heap.blocks.length ≤ MAX_FREE_BLOCKS ∧
    s.blocks = pre.reverse ++ current :: rest

/-! ## Concrete runs used below -/

/-- An `sbrk` that succeeds with the break at 4096. -/
def sbrk_ok : sbrk_t := ⟨4096, false⟩

/-- An `sbrk` that cannot extend the data segment. -/
def sbrk_failing : sbrk_t := ⟨4096, true⟩

/-- Memory that holds zero everywhere. -/
def zero_bytes : Nat → Nat := fun _ => 0

/-- Memory that holds `0xAA` everywhere. -/
def dirty_bytes : Nat → Nat := fun _ => 170

/-- Five blocks of 8, 16, 24, 100 and 200 bytes, each followed by an 8-byte block
that stays in use; the five are freed in the order 8, 16, 100, 200, 24 and then
300 bytes are requested. -/
def heap_order_calls : List call :=
  [call.malloc 8, call.malloc 8, call.malloc 16, call.malloc 8, call.malloc 24,
   call.malloc 8, call.malloc 100, call.malloc 8, call.malloc 200, call.malloc 8,
   call.free 4128, call.free 4208, call.free 4392, call.free 4568, call.free 4296,
   call.malloc 300]

/-- Two blocks are granted, the first is moved by a growing `realloc`, and both
are freed. -/
def partition_calls : List call :=
  [call.malloc 100, call.malloc 200, call.realloc 4128 300, call.free 4264, call.free 4496]

/-- The state after `malloc(100)` on the fresh heap at 4096; the pointer granted
is 4128. -/
def after_malloc_100 : State := exec sbrk_ok (fresh_heap 4096 zero_bytes) [call.malloc 100]

/-- The scenario of `test7_heap_status`: `malloc(100)`, `malloc(200)`, free the
first, free the second. -/
def test7_calls : List call :=
  [call.malloc 100, call.malloc 200, call.free 4128, call.free 4264]

/-- Three blocks of 100, 200 and 50 bytes are granted. -/
def three_calls : List call := [call.malloc 100, call.malloc 200, call.malloc 50]

/-- The state after `three_calls` on the fresh heap at 4096: in-use blocks at
4096, 4232 and 4464, and the free remainder at 4552. -/
def three_blocks : State := exec sbrk_ok (fresh_heap 4096 zero_bytes) three_calls

/-- The block list made of `n` pairs of a free 8-byte block and an in-use 8-byte
block, the first pair at address `a`. -/
def free_used_pairs : Nat → Nat → List block_meta_t
  | 0, _ => []
  | n + 1, a => ⟨a, 8, 0, true⟩ :: ⟨a + 40, 8, 8, false⟩ :: free_used_pairs n (a + 80)

/-- The addresses of the free blocks of `free_used_pairs n a`. -/
def free_pair_addrs : Nat → Nat → List Nat
  | 0, _ => []
  | n + 1, a => a :: free_pair_addrs n (a + 80)

/-- The block list made of `n` in-use 8-byte blocks, the first at address `a`. -/
def used_run : Nat → Nat → List block_meta_t
  | 0, _ => []
  | n + 1, a => ⟨a, 8, 8, false⟩ :: used_run n (a + 40)

/-- The state after `k` calls `malloc(8)` on the fresh heap at 4096. -/
def alloc_state (k : Nat) : State :=
  { heap_start := 4096,
    free_heap := ⟨[4096 + 40 * k]⟩,
    is_initialized := true,
    blocks := used_run k 4096 ++ [⟨4096 + 40 * k, HEAP_SIZE - META_SIZE - 40 * k, 0, true⟩],
    bytes := zero_bytes,
    stderr := [] }

/-- The state in which the first `2 * j` of the 8-byte blocks are alternately free
and in use, `m` further 8-byte blocks are in use, and one in-use block takes
the rest of the region. -/
def freed_state (j m : Nat) : State :=
  { heap_start := 4096,
    free_heap := ⟨free_pair_addrs j 4096⟩,
    is_initialized := true,
    blocks := free_used_pairs j 4096 ++
      (used_run m (4096 + 80 * j) ++ [⟨86096, 970640, 970640, false⟩]),
    bytes := zero_bytes,
    stderr := [] }

/-- A state whose index is full. 2050 blocks of 8 bytes fill the start of the
region at 4096 and one in-use block takes the rest; the blocks 0, 2, ..., 2046
are free and fill the 1024 slots of the index; the blocks 2048 (at 86016) and
2049 (at 86056) are in use. It is the state after 2050 calls `malloc(8)`, one
`malloc(970640)` and `free` of every second one of the first 2048 pointers. -/
def full_index_state : State :=
  { heap_start := 4096,
    free_heap := ⟨free_pair_addrs 1024 4096⟩,
    is_initialized := true,
    blocks := free_used_pairs 1024 4096 ++
      [⟨86016, 8, 8, false⟩, ⟨86056, 8, 8, false⟩, ⟨86096, 970640, 970640, false⟩],
    bytes := zero_bytes,
    stderr := [] }

/-- A 100-byte block is shrunk in place to 5 bytes. -/
def unaligned_calls : List call := [call.malloc 100, call.realloc 4128 5]

/-- A 48-byte block between two blocks that stay in use is granted and freed. -/
def whole_grant_calls : List call :=
  [call.malloc 8, call.malloc 48, call.malloc 8, call.free 4168]

/-- The state after `whole_grant_calls` on the fresh heap at 4096. -/
def after_whole_grant_calls : State :=
  exec sbrk_ok (fresh_heap 4096 zero_bytes) whole_grant_calls

/-- Memory in which the first 50 payload bytes of the block at 4096 hold `0xCC`
and every other byte holds 0. -/
def test4_bytes : Nat → Nat := fun a => if 4128 ≤ a ∧ a < 4178 then 204 else 0

/-- The state of `test4_realloc` before its `realloc`: after `malloc(50)` on the
fresh heap at 4096 the 50 bytes at the returned pointer 4128 were filled with
`0xCC`. -/
def after_fill_50 : State :=
  { exec sbrk_ok (fresh_heap 4096 zero_bytes) [call.malloc 50] with bytes := test4_bytes }

/-- The usable ranges `[p, p + size)` of the in-use blocks lie inside the region,
are pairwise disjoint, and contain no byte of a block header. -/
def payloads_separate (s : State) : Prop :=
  (∀ b ∈ s.blocks, b.is_free = false →
    s.heap_start ≤ b.addr + META_SIZE ∧
      b.addr + META_SIZE + b.size ≤ s.heap_start + HEAP_SIZE) ∧
  (∀ b ∈ s.blocks, ∀ c ∈ s.blocks, b.is_free = false → c.is_free = false → b ≠ c →
    b.addr + META_SIZE + b.size ≤ c.addr + META_SIZE ∨
      c.addr + META_SIZE + c.size ≤ b.addr + META_SIZE) ∧
  (∀ b ∈ s.blocks, ∀ d ∈ s.blocks, b.is_free = false →
    d.addr + META_SIZE ≤ b.addr + META_SIZE ∨ b.addr + META_SIZE + b.size ≤ d.addr)

/-- The five allocations of `test2_multiple_allocations`. -/
def test2_calls : List call :=
  [call.malloc 10, call.malloc 20, call.malloc 30, call.malloc 40, call.malloc 50]

/-- The state after `test2_calls` on the fresh heap at 4096. -/
def five_live : State := exec sbrk_ok (fresh_heap 4096 zero_bytes) test2_calls

/-- The first three allocations of `test8_minheap_ordering`. -/
def test8_first_calls : List call := [call.malloc 500, call.malloc 100, call.malloc 300]

/-- The state after `test8_first_calls` on the fresh heap at 4096. -/
def after_test8_first : State := exec sbrk_ok (fresh_heap 4096 zero_bytes) test8_first_calls

/-- The `size_t` that the eight bytes at address `a` hold on a little-endian
target. -/
def le64 (bytes : Nat → Nat) (a : Nat) : Nat :=
  bytes a + 256 * (bytes (a + 1) + 256 * (bytes (a + 2) + 256 * (bytes (a + 3) +
    256 * (bytes (a + 4) + 256 * (bytes (a + 5) + 256 * (bytes (a + 6) +
      256 * bytes (a + 7)))))))

/-- Memory in which the eight bytes at 4128 hold the number 2000000 and every
other byte holds 0. -/
def sized_bytes : Nat → Nat :=
  fun a => if a = 4128 then 128 else if a = 4129 then 132 else if a = 4130 then 30 else 0

/-- The state after `test2_calls` when the first payload holds `sized_bytes`. -/
def five_live_sized : State := exec sbrk_ok (fresh_heap 4096 sized_bytes) test2_calls

/-- Memory in which the 56 bytes at 4128 hold the images of two block headers: at
offset 0 one with `size = 0`, `is_free = 1` and `next = 4248`, at offset 32 one
with `size = 0` and `is_free = 1`. Every other byte holds 0. -/
def header_bytes : Nat → Nat :=
  fun a => if a = 4144 then 1 else if a = 4152 then 152 else if a = 4153 then 16
    else if a = 4176 then 1 else 0

/-- The state of `test4_realloc` before its `realloc` when the caller has filled
the payload at 4128 with `header_bytes`. -/
def after_headers_50 : State := exec sbrk_ok (fresh_heap 4096 header_bytes) [call.malloc 50]

/-- The state inside `realloc(4128, 2^64 - 1)` on `five_live_sized` right after its
`memcpy`. The inner `malloc` has returned 4456, which is the address of a block
header; the copy of the 16 payload bytes at 4128 to 4456 has replaced the fields
`size` and `requested_size` of that header by the two numbers these bytes hold. -/
def five_live_overrun : State :=
  { (malloc sbrk_ok five_live_sized (2 ^ 64 - 1)).2 with
    blocks := (update_block (malloc sbrk_ok five_live_sized (2 ^ 64 - 1)).2.blocks 4456
      (fun x => { x with size := le64 five_live_sized.bytes 4128,
                         requested_size := le64 five_live_sized.bytes 4136 })) }

/-- The state inside `realloc(4128, 2^64 - 1)` on `after_headers_50` right after its
`memcpy`. The inner `malloc` has returned 4216, which is the address of the last
block header; the copy of the 56 payload bytes at 4128 to 4216 has replaced all
four fields of that header, whose `next` now points to 4248, where the bytes
copied from offset 32 on stand as a further header, whose `next` is `NULL`. -/
def after_headers_overrun : State :=
  { (malloc sbrk_ok after_headers_50 (2 ^ 64 - 1)).2 with
    blocks :=
      (malloc sbrk_ok after_headers_50 (2 ^ 64 - 1)).2.blocks.dropLast ++
      [⟨4216, le64 after_headers_50.bytes 4128, le64 after_headers_50.bytes 4136,
          decide (le64 after_headers_50.bytes 4144 % 2 ^ 32 ≠ 0)⟩,
       ⟨le64 after_headers_50.bytes 4152, le64 after_headers_50.bytes 4160,
          le64 after_headers_50.bytes 4168,
          decide (le64 after_headers_50.bytes 4176 % 2 ^ 32 ≠ 0)⟩] }

/-- The state inside `realloc(4128, 2^64 - 1)` on `after_malloc_100` right after its
`memcpy`. The inner `malloc` has returned 4264, which is the address of the last
block header, the only entry of the free index; the copy of the 104 payload
bytes at 4128 to 4264 has replaced all four fields of that header by what the
first 32 of these bytes hold. -/
def after_malloc_100_overrun : State :=
  { (malloc sbrk_ok after_malloc_100 (2 ^ 64 - 1)).2 with
    blocks :=
      (malloc sbrk_ok after_malloc_100 (2 ^ 64 - 1)).2.blocks.dropLast ++
      [⟨4264, le64 after_malloc_100.bytes 4128, le64 after_malloc_100.bytes 4136,
          decide (le64 after_malloc_100.bytes 4144 % 2 ^ 32 ≠ 0)⟩] }

end MyMalloc

/-! # Theorems -/

namespace MyMalloc

/-! ## Runs -/

theorem exec_reachable (os : sbrk_t) (adm : call → Bool) (s0 : State) :
    ∀ (cs : List call) (s : State), reachable os adm s0 s → exec_ok os adm s cs = true →
      reachable os adm s0 (exec os s cs) := by
  intro cs
  induction cs with
  | nil => intro s hs _; exact hs
  | cons c cs ih =>
    intro s hs hok
    simp only [exec_ok, Bool.and_eq_true, decide_eq_true_eq] at hok
    obtain ⟨⟨hadm, hval⟩, hrest⟩ := hok
    cases hstep : step os s c with
    | none => simp [hstep] at hrest
    | some t =>
      simp only [hstep] at hrest
      simp only [exec, hstep]
      exact ih t (reachable.next c hs hadm hval hstep) hrest

theorem init_heap_fresh (hs : Nat) (bytes : Nat → Nat) (h : hs ≠ VOID_MINUS_ONE) :
    init_heap ⟨hs, false⟩ (boot bytes) = fresh_heap hs bytes := by
  simp [init_heap, boot, get_me_blocks, h, insert_free_block, free_block_heap_t.size,
    MAX_FREE_BLOCKS, heapify_up, heapify_up_loop, fresh_heap]

/-! ## C9: a request of zero bytes -/

/-- C9. For every state, initialised or not, `malloc(0)` returns `NULL` and
returns the state it was given: `is_initialized`, `heap_start`, the block list,
the free index, the payload bytes and `stderr` are all unchanged. -/
theorem malloc_zero_is_noop (os : sbrk_t) (s : State) : malloc os s 0 = (0, s) := by
  simp [malloc]

/-! ## C7: failure of the one-time reservation -/

/-- C7 (evaluation at the failing input). When `sbrk` fails, `get_me_blocks`
returns `NULL`, which `init_heap` compares with `(void*)-1`: the first
`malloc(8)` writes the initial header at address 0, sets `is_initialized`,
and returns the non-null pointer 32. -/
theorem sbrk_failure_is_not_detected :
    get_me_blocks sbrk_failing HEAP_SIZE = 0 ∧
    (malloc sbrk_failing (boot zero_bytes) 8).1 = 32 ∧
    (malloc sbrk_failing (boot zero_bytes) 8).2.is_initialized = true ∧
    (malloc sbrk_failing (boot zero_bytes) 8).2.heap_start = 0 ∧
    (malloc sbrk_failing (boot zero_bytes) 8).2.blocks =
      [⟨0, 8, 8, false⟩, ⟨40, HEAP_SIZE - META_SIZE - 8 - META_SIZE, 0, true⟩] ∧
    (malloc sbrk_failing (boot zero_bytes) 8).2.stderr = [] := by
  decide

/-! ## C10: zero fill -/

theorem insert_free_block_bytes (s : State) (p : Nat) :
    (insert_free_block s p).bytes = s.bytes := by
  unfold insert_free_block
  split <;> rfl

theorem find_free_block_bytes (s : State) (n : Nat) :
    (find_free_block s n).2.bytes = s.bytes := by
  unfold find_free_block
  split <;> rfl

theorem split_block_bytes (s : State) (p n : Nat) : (split_block s p n).bytes = s.bytes := by
  unfold split_block
  split
  · rfl
  · split
    · rw [insert_free_block_bytes]
    · rfl

theorem init_heap_bytes (os : sbrk_t) (s : State) : (init_heap os s).bytes = s.bytes := by
  simp only [init_heap]
  split_ifs <;> simp [insert_free_block_bytes]

theorem malloc_of_zero (os : sbrk_t) (s : State) : malloc os s 0 = (0, s) := by
  simp [malloc]

theorem malloc_uninitialized (os : sbrk_t) (s : State) (n : Nat) (hn : n ≠ 0)
    (hi : s.is_initialized = false) :
    malloc os s n =
      if (init_heap os s).is_initialized = false then (0, init_heap os s)
      else malloc os (init_heap os s) n := by
  by_cases h2 : (init_heap os s).is_initialized = false
  · simp [malloc, hn, hi, h2]
  · simp [malloc, hn, hi, h2]

theorem malloc_none (os : sbrk_t) (s : State) (n : Nat) (hn : n ≠ 0)
    (hi : s.is_initialized = true)
    (hf : (find_free_block s (align8 n)).1 = none) :
    malloc os s n = (0, (find_free_block s (align8 n)).2) := by
  cases hff : find_free_block s (align8 n) with
  | mk o s1 =>
    rw [hff] at hf
    simp only at hf
    subst hf
    simp [malloc, hn, hi, hff]

theorem malloc_some (os : sbrk_t) (s : State) (n b : Nat) (hn : n ≠ 0)
    (hi : s.is_initialized = true)
    (hf : (find_free_block s (align8 n)).1 = some b) :
    malloc os s n =
      (b + META_SIZE,
        { split_block (find_free_block s (align8 n)).2 b (align8 n) with
          blocks := (update_block
            (split_block (find_free_block s (align8 n)).2 b (align8 n)).blocks b
            (fun x => { x with is_free := false, requested_size := n })) }) := by
  cases hff : find_free_block s (align8 n) with
  | mk o s1 =>
    rw [hff] at hf
    simp only at hf
    subst hf
    simp [malloc, hn, hi, hff, memset]

theorem malloc_bytes_initialized (os : sbrk_t) (s : State) (n : Nat)
    (hi : s.is_initialized = true) : (malloc os s n).2.bytes = s.bytes := by
  by_cases hn : n = 0
  · subst hn
    rw [malloc_of_zero]
  · cases hf : (find_free_block s (align8 n)).1 with
    | none => rw [malloc_none os s n hn hi hf, find_free_block_bytes]
    | some b =>
      rw [malloc_some os s n b hn hi hf]
      simp only [split_block_bytes, find_free_block_bytes]

theorem malloc_bytes (os : sbrk_t) (s : State) (n : Nat) : (malloc os s n).2.bytes = s.bytes := by
  cases hi : s.is_initialized with
  | true => exact malloc_bytes_initialized os s n hi
  | false =>
    by_cases hn : n = 0
    · subst hn
      rw [malloc_of_zero]
    · rw [malloc_uninitialized os s n hn hi]
      split
      · exact init_heap_bytes os s
      · rename_i h2
        rw [malloc_bytes_initialized os _ n (by simpa using h2), init_heap_bytes]

/-- C10 (evaluation at the failing input). On a region whose bytes all hold
`0xAA`, `malloc(8)` succeeds with the payload at 4128, and the first payload
byte still holds `0xAA`: the `memset` is issued before `ptr` is declared, so it
does not reach the payload that is returned. -/
theorem malloc_does_not_zero_fill :
    (malloc sbrk_ok (fresh_heap 4096 dirty_bytes) 8).1 = 4128 ∧
    (malloc sbrk_ok (fresh_heap 4096 dirty_bytes) 8).2.bytes 4128 = 170 := by
  refine ⟨by decide, ?_⟩
  rw [malloc_bytes]
  rfl

/-! ## C8: sizes are multiples of 8 -/

/-- C8 (evaluation at the failing input). `malloc(100)` followed by
`realloc(p, 5)` is a run of valid calls after which the first block of the list
has size 5, which is not a multiple of 8, and its successor starts at the
address 4133. -/
theorem realloc_split_is_unaligned :
    reachable sbrk_ok any_call (fresh_heap 4096 zero_bytes)
      (exec sbrk_ok (fresh_heap 4096 zero_bytes) unaligned_calls) ∧
    (exec sbrk_ok (fresh_heap 4096 zero_bytes) unaligned_calls).blocks =
      [⟨4096, 5, 5, false⟩, ⟨4133, 67, 0, true⟩, ⟨4232, 1052504, 0, true⟩] ∧
    ¬ (5 % 8 = 0) := by
  refine ⟨exec_reachable _ _ _ _ _ reachable.start (by decide), by decide, by decide⟩

/-! ## C3: heap order -/

/-- C3 (evaluation at the failing input). After the sixteen valid calls of
`heap_order_calls` the index holds blocks of sizes 8, 104, 16, 24, 200 and
1051592 in this order: slot 3 (size 24) is smaller than its parent, slot 1
(size 104). The last `malloc` took slot 3 out of the index, moved the entry of
the last slot there and sifted it down only. -/
theorem heap_order_broken_by_removal :
    reachable sbrk_ok any_call (fresh_heap 4096 zero_bytes)
      (exec sbrk_ok (fresh_heap 4096 zero_bytes) heap_order_calls) ∧
    (exec sbrk_ok (fresh_heap 4096 zero_bytes) heap_order_calls).free_heap.blocks.map
        (block_size (exec sbrk_ok (fresh_heap 4096 zero_bytes) heap_order_calls).blocks) =
      [8, 104, 16, 24, 200, 1051592] ∧
    ¬ heap_ordered (exec sbrk_ok (fresh_heap 4096 zero_bytes) heap_order_calls) := by
  refine ⟨exec_reachable _ _ _ _ _ reachable.start (by decide), by decide, ?_⟩
  intro h
  have h3 := h 3 (by decide) (by decide)
  revert h3
  decide

end MyMalloc

namespace MyMalloc

/-! ## Frame lemmas of the index operations -/

@[simp] theorem insert_free_block_blocks (s : State) (p : Nat) :
    (insert_free_block s p).blocks = s.blocks := by
  unfold insert_free_block
  split <;> rfl

@[simp] theorem insert_free_block_heap_start (s : State) (p : Nat) :
    (insert_free_block s p).heap_start = s.heap_start := by
  unfold insert_free_block
  split <;> rfl

@[simp] theorem insert_free_block_is_initialized (s : State) (p : Nat) :
    (insert_free_block s p).is_initialized = s.is_initialized := by
  unfold insert_free_block
  split <;> rfl

@[simp] theorem remove_free_block_blocks (s : State) (p : Nat) :
    (remove_free_block s p).blocks = s.blocks := by
  unfold remove_free_block
  split <;> rfl

@[simp] theorem remove_free_block_heap_start (s : State) (p : Nat) :
    (remove_free_block s p).heap_start = s.heap_start := by
  unfold remove_free_block
  split <;> rfl

@[simp] theorem remove_free_block_is_initialized (s : State) (p : Nat) :
    (remove_free_block s p).is_initialized = s.is_initialized := by
  unfold remove_free_block
  split <;> rfl

@[simp] theorem remove_free_block_stderr (s : State) (p : Nat) :
    (remove_free_block s p).stderr = s.stderr := by
  unfold remove_free_block
  split <;> rfl

@[simp] theorem remove_free_block_bytes (s : State) (p : Nat) :
    (remove_free_block s p).bytes = s.bytes := by
  unfold remove_free_block
  split <;> rfl

@[simp] theorem find_free_block_blocks (s : State) (n : Nat) :
    (find_free_block s n).2.blocks = s.blocks := by
  unfold find_free_block
  split <;> rfl

@[simp] theorem find_free_block_heap_start (s : State) (n : Nat) :
    (find_free_block s n).2.heap_start = s.heap_start := by
  unfold find_free_block
  split <;> rfl

@[simp] theorem find_free_block_is_initialized (s : State) (n : Nat) :
    (find_free_block s n).2.is_initialized = s.is_initialized := by
  unfold find_free_block
  split <;> rfl

@[simp] theorem find_free_block_stderr (s : State) (n : Nat) :
    (find_free_block s n).2.stderr = s.stderr := by
  unfold find_free_block
  split <;> rfl

/-! ## The scan of the index -/

theorem first_index_some (p : Nat → Bool) :
    ∀ (l : List Nat) (i0 i : Nat), first_index p l i0 = some i →
      i0 ≤ i ∧ i - i0 < l.length ∧ p (l.getD (i - i0) 0) = true ∧
        ∀ j, j < i - i0 → p (l.getD j 0) = false := by
  intro l
  induction l with
  | nil => intro i0 i h; simp [first_index] at h
  | cons x xs ih =>
    intro i0 i h
    simp only [first_index] at h
    by_cases hx : p x = true
    · simp only [hx, if_true, Option.some.injEq] at h
      subst h
      simp [hx]
    · simp only [hx] at h
      obtain ⟨h1, h2, h3, h4⟩ := ih (i0 + 1) i h
      have e : i - i0 = (i - (i0 + 1)) + 1 := by omega
      refine ⟨by omega, by simp only [List.length_cons]; omega, ?_, ?_⟩
      · rw [e]; simpa using h3
      · intro j hj
        cases j with
        | zero => simpa using hx
        | succ j =>
          have := h4 j (by omega)
          simpa using this

theorem first_index_none (p : Nat → Bool) :
    ∀ (l : List Nat) (i0 : Nat), first_index p l i0 = none → ∀ x ∈ l, p x = false := by
  intro l
  induction l with
  | nil => intro i0 _ x hx; simp at hx
  | cons y ys ih =>
    intro i0 h x hx
    simp only [first_index] at h
    by_cases hy : p y = true
    · simp [hy] at h
    · simp only [hy] at h
      rcases List.mem_cons.1 hx with rfl | hx
      · simpa using hy
      · exact ih (i0 + 1) h x hx

theorem find_free_block_some (s : State) (n b : Nat)
    (h : (find_free_block s n).1 = some b) :
    b ∈ s.free_heap.blocks ∧ n ≤ block_size s.blocks b := by
  unfold find_free_block at h
  split at h
  · rename_i i hi
    obtain ⟨_, h2, h3, _⟩ := first_index_some _ _ _ _ hi
    simp only [Nat.sub_zero] at h2 h3
    simp only [Option.some.injEq] at h
    subst h
    constructor
    · rw [List.getD_eq_getElem _ _ h2]
      exact List.getElem_mem _
    · simpa using h3
  · simp at h

theorem find_free_block_none (s : State) (n : Nat)
    (h : (find_free_block s n).1 = none) :
    (find_free_block s n).2 = s ∧ ∀ p ∈ s.free_heap.blocks, block_size s.blocks p < n := by
  unfold find_free_block at h ⊢
  split at h
  · simp at h
  · rename_i hi
    simp only [hi, true_and]
    intro p hp
    have := first_index_none _ _ _ hi p hp
    simpa using this

end MyMalloc

namespace MyMalloc

/-! ## Reads and writes of headers -/

theorem find_block_update (f : block_meta_t → block_meta_t) (hf : ∀ b, (f b).addr = b.addr)
    (p q : Nat) : ∀ bl : List block_meta_t,
    find_block (update_block bl p f) q =
      (find_block bl q).map (fun b => if b.addr = p then f b else b) := by
  have key : ∀ b : block_meta_t, (if b.addr = p then f b else b).addr = b.addr := by
    intro b
    split <;> simp [hf]
  intro bl
  induction bl with
  | nil => rfl
  | cons b rest ih =>
    unfold find_block update_block at ih ⊢
    rw [List.map_cons, List.find?_cons, List.find?_cons, key b]
    by_cases hq : b.addr = q
    · simp [hq]
    · simp only [hq, decide_False]
      exact ih

theorem block_size_update (f : block_meta_t → block_meta_t) (hf : ∀ b, (f b).addr = b.addr)
    (hs : ∀ b, (f b).size = b.size) (p q : Nat) (bl : List block_meta_t) :
    block_size (update_block bl p f) q = block_size bl q := by
  unfold block_size
  rw [find_block_update f hf]
  cases find_block bl q with
  | none => rfl
  | some b =>
    simp only [Option.map_some']
    split <;> simp [hs]

theorem block_size_link_after_self (p a : Nat) (nb : block_meta_t) :
    ∀ bl : List block_meta_t, find_block bl p ≠ none →
      block_size (link_after bl p a nb) p = a := by
  intro bl
  induction bl with
  | nil => intro h; simp [find_block] at h
  | cons b rest ih =>
    intro h
    by_cases hb : b.addr = p
    · simp [link_after, hb, block_size, find_block]
    · have h2 : find_block rest p ≠ none := by
        simpa [find_block, List.find?_cons, hb] using h
      have := ih h2
      simp only [block_size, find_block, link_after, hb, if_false, List.find?_cons,
        decide_False] at this ⊢
      exact this

theorem block_size_pos_find (bl : List block_meta_t) (p : Nat) (h : 0 < block_size bl p) :
    find_block bl p ≠ none := by
  intro hn
  simp [block_size, hn] at h

theorem split_block_size_self (s : State) (p a : Nat) (h0 : 0 < a)
    (h : a ≤ block_size s.blocks p) : a ≤ block_size (split_block s p a).blocks p := by
  have hfind := block_size_pos_find s.blocks p (by omega)
  unfold split_block
  cases hb : find_block s.blocks p with
  | none => exact absurd hb hfind
  | some b =>
    simp only
    split
    · rw [insert_free_block_blocks]
      simp only
      rw [block_size_link_after_self p a _ _ hfind]
    · exact h

/-! ## C4: the size of a granted block -/

theorem align8_spec (n : Nat) (hn : n ≤ SIZE_MODULUS - 8) :
    8 ∣ align8 n ∧ n ≤ align8 n ∧ ∀ m, 8 ∣ m → n ≤ m → align8 n ≤ m := by
  simp only [align8, add64, SIZE_MODULUS] at *
  refine ⟨⟨(n + 7) % 2 ^ 64 / 8, by omega⟩, by omega, ?_⟩
  rintro m ⟨k, rfl⟩ h
  omega

theorem malloc_initialized_size (os : sbrk_t) (s : State) (n : Nat) (h0 : 0 < n)
    (hn : n ≤ SIZE_MODULUS - 8) (hi : s.is_initialized = true)
    (hp : (malloc os s n).1 ≠ 0) :
    n ≤ block_size (malloc os s n).2.blocks (get_block_meta (malloc os s n).1) := by
  have hn0 : n ≠ 0 := by omega
  obtain ⟨_, hle, _⟩ := align8_spec n hn
  cases hf : (find_free_block s (align8 n)).1 with
  | none =>
    rw [malloc_none os s n hn0 hi hf] at hp
    exact absurd rfl hp
  | some b =>
    rw [malloc_some os s n b hn0 hi hf]
    simp only [get_block_meta, Nat.add_sub_cancel]
    rw [block_size_update (fun x => { x with is_free := false, requested_size := n })
      (fun _ => rfl) (fun _ => rfl)]
    have hb := (find_free_block_some s (align8 n) b hf).2
    have := split_block_size_self (find_free_block s (align8 n)).2 b (align8 n) (by omega)
      (by simpa using hb)
    omega

end MyMalloc

namespace MyMalloc

theorem malloc_null_of_small_index (os : sbrk_t) (s : State) (n : Nat) (h0 : 0 < n)
    (hn : n ≤ SIZE_MODULUS - 8) (hi : s.is_initialized = true)
    (hall : ∀ p ∈ s.free_heap.blocks, block_size s.blocks p < n) : (malloc os s n).1 = 0 := by
  have hn0 : n ≠ 0 := by omega
  obtain ⟨_, hle, _⟩ := align8_spec n hn
  cases hf : (find_free_block s (align8 n)).1 with
  | none => rw [malloc_none os s n hn0 hi hf]
  | some b =>
    obtain ⟨hmem, hsz⟩ := find_free_block_some s (align8 n) b hf
    have := hall b hmem
    omega

/-- C4 (as amended). For every state and every request `n` with
`0 < n ≤ 2^64 - 8`: the size used for the search is the least multiple of 8
that is at least `n`; if `malloc(n)` returns a non-null pointer, the size field
of the granted block is at least `n`; and in an initialised state in which every
entry of the free index is smaller than `n`, `malloc(n)` returns `NULL`. -/
theorem malloc_grants_enough (os : sbrk_t) (s : State) (n : Nat) (h0 : 0 < n)
    (hn : n ≤ SIZE_MODULUS - 8) :
    (8 ∣ align8 n ∧ n ≤ align8 n ∧ ∀ m, 8 ∣ m → n ≤ m → align8 n ≤ m) ∧
    ((malloc os s n).1 ≠ 0 →
      n ≤ block_size (malloc os s n).2.blocks (get_block_meta (malloc os s n).1)) ∧
    (s.is_initialized = true → (∀ p ∈ s.free_heap.blocks, block_size s.blocks p < n) →
      (malloc os s n).1 = 0) := by
  refine ⟨align8_spec n hn, ?_, malloc_null_of_small_index os s n h0 hn⟩
  cases hi : s.is_initialized with
  | true => exact malloc_initialized_size os s n h0 hn hi
  | false =>
    rw [malloc_uninitialized os s n (by omega) hi]
    split
    · intro h
      exact absurd rfl h
    · rename_i h2
      exact malloc_initialized_size os _ n h0 hn (by simpa using h2)

/-- C4, witness: a request of 100 bytes on the fresh heap. -/
theorem malloc_grants_enough_witness :
    (0 < 100 ∧ 100 ≤ SIZE_MODULUS - 8) ∧
    (malloc sbrk_ok (fresh_heap 4096 zero_bytes) 100).1 ≠ 0 ∧
    100 ≤ block_size (malloc sbrk_ok (fresh_heap 4096 zero_bytes) 100).2.blocks
      (get_block_meta (malloc sbrk_ok (fresh_heap 4096 zero_bytes) 100).1) :=
  ⟨by decide, by decide,
    (malloc_grants_enough sbrk_ok (fresh_heap 4096 zero_bytes) 100 (by decide) (by decide)).2.1
      (by decide)⟩

/-- C4 (counterexample). The request `n = 2^64 - 1` is a positive `size_t`; the
rounding `(n + 7) & ~7` wraps to 0, so on the fresh heap `malloc(n)` returns the
non-null pointer 4128 to a block whose size field is 0, although `n` exceeds the
size of the only free block. -/
theorem malloc_huge_request_counterexample :
    0 < 2 ^ 64 - 1 ∧ 2 ^ 64 - 1 < SIZE_MODULUS ∧
    align8 (2 ^ 64 - 1) = 0 ∧
    (∀ p ∈ (fresh_heap 4096 zero_bytes).free_heap.blocks,
      block_size (fresh_heap 4096 zero_bytes).blocks p < 2 ^ 64 - 1) ∧
    (malloc sbrk_ok (fresh_heap 4096 zero_bytes) (2 ^ 64 - 1)).1 = 4128 ∧
    block_size (malloc sbrk_ok (fresh_heap 4096 zero_bytes) (2 ^ 64 - 1)).2.blocks
      (get_block_meta (malloc sbrk_ok (fresh_heap 4096 zero_bytes) (2 ^ 64 - 1)).1) = 0 := by
  decide

end MyMalloc

namespace MyMalloc

/-! ## The index operations permute their entries -/

theorem swap_blocks_length (h : List Nat) (i j : Nat) : (swap_blocks h i j).length = h.length := by
  simp [swap_blocks]

theorem count_le_of_getElem (h : List Nat) (i : Nat) (hi : i < h.length) (b : Nat) :
    (if h[i] = b then 1 else 0) ≤ h.count b := by
  split
  · rename_i e
    have : h[i] ∈ h := List.getElem_mem _
    rw [e] at this
    exact List.count_pos_iff.2 this
  · exact Nat.zero_le _

theorem swap_blocks_perm (h : List Nat) (i j : Nat) (hi : i < h.length) (hj : j < h.length) :
    (swap_blocks h i j).Perm h := by
  rw [List.perm_iff_count]
  intro b
  unfold swap_blocks
  rw [List.getD_eq_getElem _ _ hi, List.getD_eq_getElem _ _ hj]
  have hj2 : j < (h.set i h[j]).length := by simpa using hj
  rw [List.count_set _ _ _ _ hj2, List.count_set _ _ _ _ hi]
  have e : (h.set i h[j])[j] = h[j] := by
    rw [List.getElem_set]
    split <;> rfl
  rw [e]
  have c1 := count_le_of_getElem h i hi b
  have c2 := count_le_of_getElem h j hj b
  simp only [beq_iff_eq]
  omega

theorem heapify_up_loop_perm (blocks : List block_meta_t) :
    ∀ (fuel : Nat) (h : List Nat) (index : Nat), index < h.length →
      (heapify_up_loop blocks fuel h index).Perm h := by
  intro fuel
  induction fuel with
  | zero => intro h index _; exact List.Perm.refl _
  | succ fuel ih =>
    intro h index hlt
    simp only [heapify_up_loop]
    split
    · split
      · have hp : (index - 1) / 2 < h.length := by omega
        have hs := swap_blocks_perm h ((index - 1) / 2) index hp hlt
        refine List.Perm.trans (ih _ _ ?_) hs
        rw [swap_blocks_length]
        exact hp
      · exact List.Perm.refl _
    · exact List.Perm.refl _

theorem smallest_child_cases (blocks : List block_meta_t) (h : List Nat) (index : Nat) :
    smallest_child blocks h index = index ∨
      (index < smallest_child blocks h index ∧ smallest_child blocks h index < h.length) := by
  unfold smallest_child
  simp only
  split_ifs <;> omega

theorem heapify_down_rec_perm (blocks : List block_meta_t) :
    ∀ (fuel : Nat) (h : List Nat) (index : Nat),
      (heapify_down_rec blocks fuel h index).Perm h := by
  intro fuel
  induction fuel with
  | zero => intro h index; exact List.Perm.refl _
  | succ fuel ih =>
    intro h index
    simp only [heapify_down_rec]
    split
    · rename_i hne
      rcases smallest_child_cases blocks h index with e | ⟨h1, h2⟩
      · exact absurd e hne
      · exact List.Perm.trans (ih _ _) (swap_blocks_perm h index _ (by omega) h2)
    · exact List.Perm.refl _

theorem remove_slot_perm (blocks : List block_meta_t) (h : List Nat) (i : Nat)
    (hi : i < h.length) : h.Perm (h[i] :: remove_slot blocks h i) := by
  unfold remove_slot heapify_down
  refine List.Perm.trans ?_ (List.Perm.cons _ (heapify_down_rec_perm _ _ _ _).symm)
  rw [List.perm_iff_count]
  intro b
  have hne : h.set i (h.getD (h.length - 1) 0) ≠ [] := by
    intro e
    have := congrArg List.length e
    rw [List.length_set] at this
    simp only [List.length_nil] at this
    omega
  have hlast : (h.set i (h.getD (h.length - 1) 0)).getLast hne = h.getD (h.length - 1) 0 := by
    rw [List.getLast_eq_getElem, List.getElem_set]
    split
    · rfl
    · simp only [List.length_set, List.getD_eq_getElem?_getD,
        List.getElem?_eq_getElem (show h.length - 1 < h.length by omega), Option.getD_some]
  have hsplit := List.dropLast_concat_getLast hne
  have hc := congrArg (List.count b) hsplit
  rw [List.count_append, hlast, List.count_set _ _ _ _ hi] at hc
  have c1 := count_le_of_getElem h i hi b
  simp only [List.count_cons, List.count_nil, beq_iff_eq] at hc ⊢
  omega

end MyMalloc

namespace MyMalloc

/-! ## What the index operations do to the set of entries -/

theorem insert_free_block_index (s : State) (p : Nat) (h : s.free_heap.size < MAX_FREE_BLOCKS) :
    (insert_free_block s p).free_heap.blocks.Perm (p :: s.free_heap.blocks) ∧
      (insert_free_block s p).stderr = s.stderr := by
  unfold insert_free_block
  rw [if_neg (by omega)]
  refine ⟨?_, rfl⟩
  simp only [heapify_up, free_block_heap_t.size]
  refine List.Perm.trans (heapify_up_loop_perm _ _ _ _ (by simp)) ?_
  exact List.perm_append_singleton p s.free_heap.blocks

theorem insert_free_block_full (s : State) (p : Nat) (h : MAX_FREE_BLOCKS ≤ s.free_heap.size) :
    (insert_free_block s p).free_heap = s.free_heap ∧
      (insert_free_block s p).stderr = s.stderr ++ [diag.heap_full] := by
  unfold insert_free_block
  rw [if_pos h]
  exact ⟨rfl, rfl⟩

theorem insert_free_block_stderr_mono (s : State) (p : Nat) (d : diag) (h : d ∈ s.stderr) :
    d ∈ (insert_free_block s p).stderr := by
  unfold insert_free_block
  split
  · simp [h]
  · exact h

theorem remove_free_block_mem (s : State) (p : Nat) (h : p ∈ s.free_heap.blocks) :
    s.free_heap.blocks.Perm (p :: (remove_free_block s p).free_heap.blocks) := by
  unfold remove_free_block
  cases hi : first_index (fun q => decide (q = p)) s.free_heap.blocks 0 with
  | none =>
    have := first_index_none _ _ _ hi p h
    simp at this
  | some i =>
    obtain ⟨_, h2, h3, _⟩ := first_index_some _ _ _ _ hi
    simp only [Nat.sub_zero] at h2 h3
    have e : s.free_heap.blocks[i] = p := by
      simpa [List.getD_eq_getElem?_getD, List.getElem?_eq_getElem h2] using h3
    have := remove_slot_perm s.blocks s.free_heap.blocks i h2
    rw [e] at this
    exact this

theorem remove_free_block_not_mem (s : State) (p : Nat) (h : p ∉ s.free_heap.blocks) :
    remove_free_block s p = s := by
  unfold remove_free_block
  cases hi : first_index (fun q => decide (q = p)) s.free_heap.blocks 0 with
  | none => rfl
  | some i =>
    obtain ⟨_, h2, h3, _⟩ := first_index_some _ _ _ _ hi
    simp only [Nat.sub_zero] at h2 h3
    have e : s.free_heap.blocks[i] = p := by
      simpa [List.getD_eq_getElem?_getD, List.getElem?_eq_getElem h2] using h3
    have : p ∈ s.free_heap.blocks := by
      rw [← e]
      exact List.getElem_mem _
    exact absurd this h

theorem find_free_block_perm (s : State) (n b : Nat) (h : (find_free_block s n).1 = some b) :
    s.free_heap.blocks.Perm (b :: (find_free_block s n).2.free_heap.blocks) := by
  unfold find_free_block at h ⊢
  cases hi : first_index (fun p => decide (block_size s.blocks p ≥ n)) s.free_heap.blocks 0 with
  | none => simp [hi] at h
  | some i =>
    obtain ⟨_, h2, _, _⟩ := first_index_some _ _ _ _ hi
    simp only [Nat.sub_zero] at h2
    simp only [hi, Option.some.injEq] at h ⊢
    rw [List.getD_eq_getElem _ _ h2] at h
    have := remove_slot_perm s.blocks s.free_heap.blocks i h2
    rw [h] at this
    exact this

end MyMalloc

namespace MyMalloc

/-! ## The partition walk -/

theorem partition_from_append (stop : Nat) :
    ∀ (l1 l2 : List block_meta_t) (a : Nat),
      partition_from stop a (l1 ++ l2) ↔
        ∃ m, partition_from m a l1 ∧ partition_from stop m l2 := by
  intro l1
  induction l1 with
  | nil =>
    intro l2 a
    simp [partition_from]
  | cons b rest ih =>
    intro l2 a
    have e : partition_from stop a (b :: rest ++ l2) ↔
        b.addr = a ∧ partition_from stop (b.addr + META_SIZE + b.size) (rest ++ l2) := Iff.rfl
    rw [e, ih]
    simp only [partition_from]
    constructor
    · rintro ⟨h1, m, h2, h3⟩
      exact ⟨m, ⟨h1, h2⟩, h3⟩
    · rintro ⟨m, ⟨h1, h2⟩, h3⟩
      exact ⟨h1, m, h2, h3⟩

theorem partition_from_bounds (stop : Nat) :
    ∀ (l : List block_meta_t) (a : Nat), partition_from stop a l →
      a ≤ stop ∧ ∀ b ∈ l, a ≤ b.addr ∧ b.addr + META_SIZE + b.size ≤ stop := by
  intro l
  induction l with
  | nil =>
    intro a h
    simp only [partition_from] at h
    simp [h]
  | cons b rest ih =>
    intro a h
    obtain ⟨h1, h2⟩ := h
    obtain ⟨h3, h4⟩ := ih _ h2
    refine ⟨by omega, ?_⟩
    intro c hc
    rcases List.mem_cons.1 hc with rfl | hc
    · omega
    · have := h4 c hc
      omega

theorem partition_from_unique (stop : Nat) :
    ∀ (l : List block_meta_t) (a : Nat), partition_from stop a l →
      ∀ b ∈ l, ∀ c ∈ l, b.addr = c.addr → b = c := by
  intro l
  induction l with
  | nil => intro a _ b hb; simp at hb
  | cons x rest ih =>
    intro a h b hb c hc e
    obtain ⟨h1, h2⟩ := h
    have hbd := (partition_from_bounds stop rest _ h2).2
    have hm : 0 < META_SIZE := by decide
    rcases List.mem_cons.1 hb with hbx | hb2
    · rcases List.mem_cons.1 hc with hcx | hc2
      · rw [hbx, hcx]
      · have := hbd c hc2
        rw [hbx] at e
        omega
    · rcases List.mem_cons.1 hc with hcx | hc2
      · have := hbd b hb2
        rw [hcx] at e
        omega
      · exact ih _ h2 b hb2 c hc2 e

theorem partition_from_update (stop : Nat) (p : Nat) (f : block_meta_t → block_meta_t)
    (hf : ∀ b, (f b).addr = b.addr) (hs : ∀ b, (f b).size = b.size) :
    ∀ (l : List block_meta_t) (a : Nat),
      partition_from stop a l → partition_from stop a (update_block l p f) := by
  intro l
  induction l with
  | nil => intro a h; exact h
  | cons b rest ih =>
    intro a h
    obtain ⟨h1, h2⟩ := h
    simp only [update_block, List.map_cons]
    by_cases hb : b.addr = p
    · simp only [hb, if_true, partition_from, hf, hs]
      exact ⟨hb ▸ h1, hb ▸ ih _ h2⟩
    · simp only [hb, if_false, partition_from]
      exact ⟨h1, ih _ h2⟩

theorem partition_from_link_after (stop p a : Nat) (nb : block_meta_t) :
    ∀ (l : List block_meta_t) (start : Nat) (b : block_meta_t),
      partition_from stop start l → find_block l p = some b →
      nb.addr = p + META_SIZE + a → a + META_SIZE + nb.size = b.size →
      partition_from stop start (link_after l p a nb) := by
  intro l
  induction l with
  | nil => intro start b _ hfind; simp [find_block] at hfind
  | cons x rest ih =>
    intro start b h hfind hn1 hn2
    obtain ⟨h1, h2⟩ := h
    by_cases hx : x.addr = p
    · have hxb : x = b := by
        simpa [find_block, List.find?_cons, hx] using hfind
      subst hxb
      simp only [link_after, hx, if_true, partition_from]
      refine ⟨hx ▸ h1, hn1, ?_⟩
      have e : nb.addr + META_SIZE + nb.size = x.addr + META_SIZE + x.size := by omega
      rw [e]
      exact h2
    · have hfind2 : find_block rest p = some b := by
        simpa [find_block, List.find?_cons, hx] using hfind
      simp only [link_after, hx, if_false, partition_from]
      exact ⟨h1, ih _ b h2 hfind2 hn1 hn2⟩

theorem find_block_mem (l : List block_meta_t) (p : Nat) (b : block_meta_t)
    (h : find_block l p = some b) : b ∈ l ∧ b.addr = p := by
  unfold find_block at h
  refine ⟨List.mem_of_find?_eq_some h, ?_⟩
  have := List.find?_some h
  simpa using this

theorem find_block_of_mem (stop a : Nat) (l : List block_meta_t) (hp : partition_from stop a l)
    (b : block_meta_t) (hb : b ∈ l) : find_block l b.addr = some b := by
  cases hf : find_block l b.addr with
  | none =>
    unfold find_block at hf
    have := List.find?_eq_none.1 hf b hb
    simp at this
  | some c =>
    obtain ⟨hc, e⟩ := find_block_mem l b.addr c hf
    rw [partition_from_unique stop l a hp c hc b hb e]

theorem block_size_of_mem (stop a : Nat) (l : List block_meta_t) (hp : partition_from stop a l)
    (b : block_meta_t) (hb : b ∈ l) : block_size l b.addr = b.size := by
  unfold block_size
  rw [find_block_of_mem stop a l hp b hb]

/-! ## The addresses of the free blocks -/

theorem mem_free_addrs (l : List block_meta_t) (q : Nat) :
    q ∈ free_addrs l ↔ ∃ b ∈ l, b.is_free = true ∧ b.addr = q := by
  unfold free_addrs
  simp only [List.mem_map, List.mem_filter]
  constructor
  · rintro ⟨b, ⟨h1, h2⟩, h3⟩
    exact ⟨b, h1, h2, h3⟩
  · rintro ⟨b, h1, h2, h3⟩
    exact ⟨b, ⟨h1, h2⟩, h3⟩

end MyMalloc

namespace MyMalloc

/-! ## Header writes on a block list that is split around one block -/

theorem partition_from_addr_ne (stop a : Nat) (l1 l2 : List block_meta_t) (b : block_meta_t)
    (h : partition_from stop a (l1 ++ b :: l2)) :
    (∀ x ∈ l1, x.addr ≠ b.addr) ∧ (∀ x ∈ l2, x.addr ≠ b.addr) := by
  obtain ⟨m, h1, h2, h3⟩ := (partition_from_append stop l1 (b :: l2) a).1 h
  have hm : 0 < META_SIZE := by decide
  constructor
  · intro x hx
    have := (partition_from_bounds m l1 a h1).2 x hx
    omega
  · intro x hx
    have := (partition_from_bounds stop l2 _ h3).2 x hx
    omega

theorem update_block_of_ne (p : Nat) (f : block_meta_t → block_meta_t) :
    ∀ l : List block_meta_t, (∀ x ∈ l, x.addr ≠ p) → update_block l p f = l := by
  intro l
  induction l with
  | nil => intro _; rfl
  | cons x rest ih =>
    intro h
    have hx : x.addr ≠ p := h x (List.mem_cons_self _ _)
    have hr := ih (fun y hy => h y (List.mem_cons_of_mem _ hy))
    simp only [update_block, List.map_cons, hx, if_false] at hr ⊢
    rw [hr]

theorem update_block_split (f : block_meta_t → block_meta_t) (l1 l2 : List block_meta_t)
    (b : block_meta_t) (h1 : ∀ x ∈ l1, x.addr ≠ b.addr) (h2 : ∀ x ∈ l2, x.addr ≠ b.addr) :
    update_block (l1 ++ b :: l2) b.addr f = l1 ++ f b :: l2 := by
  have e1 := update_block_of_ne b.addr f l1 h1
  have e2 := update_block_of_ne b.addr f l2 h2
  simp only [update_block, List.map_append, List.map_cons, if_true] at e1 e2 ⊢
  rw [e1, e2]

theorem find_block_split (l1 l2 : List block_meta_t) (b : block_meta_t)
    (h1 : ∀ x ∈ l1, x.addr ≠ b.addr) : find_block (l1 ++ b :: l2) b.addr = some b := by
  induction l1 with
  | nil => simp [find_block]
  | cons x rest ih =>
    have hx : x.addr ≠ b.addr := h1 x (List.mem_cons_self _ _)
    have hr := ih (fun y hy => h1 y (List.mem_cons_of_mem _ hy))
    simp only [find_block, List.cons_append, List.find?_cons, hx, decide_False] at hr ⊢
    exact hr

theorem block_size_split (l1 l2 : List block_meta_t) (b : block_meta_t)
    (h1 : ∀ x ∈ l1, x.addr ≠ b.addr) : block_size (l1 ++ b :: l2) b.addr = b.size := by
  unfold block_size
  rw [find_block_split l1 l2 b h1]

theorem link_after_split (a : Nat) (nb : block_meta_t) (l1 l2 : List block_meta_t)
    (b : block_meta_t) (h1 : ∀ x ∈ l1, x.addr ≠ b.addr) :
    link_after (l1 ++ b :: l2) b.addr a nb = l1 ++ { b with size := a } :: nb :: l2 := by
  induction l1 with
  | nil => simp [link_after]
  | cons x rest ih =>
    have hx : x.addr ≠ b.addr := h1 x (List.mem_cons_self _ _)
    have hr := ih (fun y hy => h1 y (List.mem_cons_of_mem _ hy))
    have e : link_after (x :: rest ++ b :: l2) b.addr a nb =
        x :: link_after (rest ++ b :: l2) b.addr a nb := by
      show link_after (x :: (rest ++ b :: l2)) b.addr a nb = _
      simp only [link_after, hx, if_false]
    rw [e, hr]
    rfl

theorem free_addrs_append (l1 l2 : List block_meta_t) :
    free_addrs (l1 ++ l2) = free_addrs l1 ++ free_addrs l2 := by
  simp [free_addrs]

theorem free_addrs_cons_free (b : block_meta_t) (l : List block_meta_t) (h : b.is_free = true) :
    free_addrs (b :: l) = b.addr :: free_addrs l := by
  simp [free_addrs, h]

theorem free_addrs_cons_used (b : block_meta_t) (l : List block_meta_t) (h : b.is_free = false) :
    free_addrs (b :: l) = free_addrs l := by
  simp [free_addrs, h]

theorem free_addrs_subset_addrs (l : List block_meta_t) (q : Nat) (h : q ∈ free_addrs l) :
    ∃ b ∈ l, b.addr = q := by
  obtain ⟨b, hb, _, e⟩ := (mem_free_addrs l q).1 h
  exact ⟨b, hb, e⟩

end MyMalloc

namespace MyMalloc

/-! ## The shape of the state after `split_block` and `malloc` -/

theorem META_SIZE_eq : META_SIZE = 32 := rfl

theorem HEAP_SIZE_eq : HEAP_SIZE = 1052672 := rfl

theorem SIZE_MODULUS_eq : SIZE_MODULUS = 18446744073709551616 := by
  norm_num [SIZE_MODULUS]

theorem add64_small (a b : Nat) (h : a + b < SIZE_MODULUS) : add64 a b = a + b := by
  unfold add64
  exact Nat.mod_eq_of_lt h

theorem sub64_small (a b : Nat) (ha : a < SIZE_MODULUS) (h : b ≤ a) : sub64 a b = a - b := by
  unfold sub64
  rw [SIZE_MODULUS_eq] at *
  omega

theorem split_block_no_split (s : State) (l1 l2 : List block_meta_t) (b : block_meta_t) (a : Nat)
    (hs : s.blocks = l1 ++ b :: l2) (h1 : ∀ x ∈ l1, x.addr ≠ b.addr)
    (hsmall : a + META_SIZE + 16 < SIZE_MODULUS) (hlt : b.size < a + META_SIZE + 16) :
    split_block s b.addr a = s := by
  unfold split_block
  rw [hs, find_block_split l1 l2 b h1]
  simp only
  rw [add64_small a META_SIZE (by omega), add64_small _ 16 hsmall]
  rw [if_neg (by omega)]

theorem split_block_split (s : State) (l1 l2 : List block_meta_t) (b : block_meta_t) (a : Nat)
    (hs : s.blocks = l1 ++ b :: l2) (h1 : ∀ x ∈ l1, x.addr ≠ b.addr)
    (hb : b.size < SIZE_MODULUS) (hle : a + META_SIZE + 16 ≤ b.size) :
    split_block s b.addr a =
      insert_free_block
        { s with blocks := l1 ++ { b with size := a } ::
            ⟨b.addr + META_SIZE + a, b.size - a - META_SIZE, 0, true⟩ :: l2 }
        (b.addr + META_SIZE + a) := by
  unfold split_block
  rw [hs, find_block_split l1 l2 b h1]
  simp only
  rw [add64_small a META_SIZE (by omega), add64_small _ 16 (by omega)]
  rw [if_pos hle]
  rw [link_after_split a _ l1 l2 b h1]
  rw [sub64_small b.size a hb (by omega), sub64_small _ META_SIZE (by omega) (by omega)]

theorem free_addr_listed (s : State) (p : Nat) (hp : p ∈ free_addrs s.blocks) :
    ∃ l1 b l2, s.blocks = l1 ++ b :: l2 ∧ b.addr = p ∧ b.is_free = true := by
  obtain ⟨b, hb, hfree, e⟩ := (mem_free_addrs s.blocks p).1 hp
  obtain ⟨l1, l2, hl⟩ := List.append_of_mem hb
  exact ⟨l1, b, l2, hl, e, hfree⟩

theorem partitioned_split_bounds (s : State) (h : partitioned s) (l1 l2 : List block_meta_t)
    (b : block_meta_t) (hs : s.blocks = l1 ++ b :: l2) :
    (∀ x ∈ l1, x.addr ≠ b.addr) ∧ (∀ x ∈ l2, x.addr ≠ b.addr) ∧
      s.heap_start ≤ b.addr ∧ b.addr + META_SIZE + b.size ≤ s.heap_start + HEAP_SIZE := by
  obtain ⟨_, hp⟩ := h
  rw [hs] at hp
  obtain ⟨h1, h2⟩ := partition_from_addr_ne _ _ l1 l2 b hp
  have := (partition_from_bounds _ _ _ hp).2 b (by simp)
  exact ⟨h1, h2, this.1, this.2⟩

end MyMalloc

namespace MyMalloc

theorem malloc_shape (os : sbrk_t) (s : State) (n : Nat) (hn : n ≠ 0) (hwf : well_formed s) :
    ((find_free_block s (align8 n)).1 = none ∧ malloc os s n = (0, s)) ∨
    ∃ l1 b l2, s.blocks = l1 ++ b :: l2 ∧ b.is_free = true ∧
      (find_free_block s (align8 n)).1 = some b.addr ∧ align8 n ≤ b.size ∧
      (malloc os s n).1 = b.addr + META_SIZE ∧
      ((b.size < align8 n + META_SIZE + 16 ∧
          (malloc os s n).2 =
            { (find_free_block s (align8 n)).2 with
              blocks := l1 ++ { b with is_free := false, requested_size := n } :: l2 }) ∨
        (align8 n + META_SIZE + 16 ≤ b.size ∧
          (malloc os s n).2 =
            { insert_free_block
                { (find_free_block s (align8 n)).2 with
                  blocks := l1 ++ { b with size := align8 n } ::
                    ⟨b.addr + META_SIZE + align8 n, b.size - align8 n - META_SIZE, 0, true⟩ :: l2 }
                (b.addr + META_SIZE + align8 n) with
              blocks := l1 ++ ⟨b.addr, align8 n, n, false⟩ ::
                ⟨b.addr + META_SIZE + align8 n, b.size - align8 n - META_SIZE, 0, true⟩ :: l2 })) := by
  obtain ⟨hi, hpart, hnd, hsound⟩ := hwf
  have hM := META_SIZE_eq
  have hH := HEAP_SIZE_eq
  have hS := SIZE_MODULUS_eq
  cases hf : (find_free_block s (align8 n)).1 with
  | none =>
    left
    refine ⟨rfl, ?_⟩
    rw [malloc_none os s n hn hi hf, (find_free_block_none s _ hf).1]
  | some f =>
    right
    obtain ⟨hmem, hsz⟩ := find_free_block_some s (align8 n) f hf
    obtain ⟨l1, b, l2, hl, hbf, hfree⟩ := free_addr_listed s f (hsound f hmem)
    subst hbf
    obtain ⟨h1, h2, hlo, hhi⟩ := partitioned_split_bounds s hpart l1 l2 b hl
    rw [hl, block_size_split l1 l2 b h1] at hsz
    refine ⟨l1, b, l2, hl, hfree, rfl, hsz, ?_, ?_⟩
    · rw [malloc_some os s n b.addr hn hi hf]
    · have hl1 : (find_free_block s (align8 n)).2.blocks = l1 ++ b :: l2 := by
        rw [find_free_block_blocks, hl]
      by_cases hsplit : align8 n + META_SIZE + 16 ≤ b.size
      · right
        refine ⟨hsplit, ?_⟩
        rw [malloc_some os s n b.addr hn hi hf]
        simp only
        rw [split_block_split _ l1 l2 b (align8 n) hl1 h1 (by omega) hsplit]
        simp only [insert_free_block_blocks]
        have := update_block_split (fun x => { x with is_free := false, requested_size := n })
          l1 (⟨b.addr + META_SIZE + align8 n, b.size - align8 n - META_SIZE, 0, true⟩ :: l2)
          { b with size := align8 n } h1 (by
            intro x hx
            rcases List.mem_cons.1 hx with rfl | hx
            · simp only
              omega
            · exact h2 x hx)
        simp only at this
        rw [this]
      · left
        refine ⟨by omega, ?_⟩
        rw [malloc_some os s n b.addr hn hi hf]
        simp only
        rw [split_block_no_split _ l1 l2 b (align8 n) hl1 h1 (by omega) (by omega)]
        rw [hl1, update_block_split _ l1 l2 b h1 h2]

end MyMalloc

namespace MyMalloc

/-! ## Preservation of well-formedness by `malloc` -/

theorem perm_cons_nodup (idx idx1 : List Nat) (p : Nat) (hp : idx.Perm (p :: idx1))
    (hnd : idx.Nodup) :
    idx1.Nodup ∧ p ∉ idx1 ∧ ∀ q, q ∈ idx ↔ q = p ∨ q ∈ idx1 := by
  have h := (List.Perm.nodup_iff hp).1 hnd
  rw [List.nodup_cons] at h
  refine ⟨h.2, h.1, ?_⟩
  intro q
  rw [List.Perm.mem_iff hp, List.mem_cons]

theorem insert_free_block_cases (s : State) (p : Nat) :
    ((insert_free_block s p).free_heap.blocks.Perm (p :: s.free_heap.blocks) ∧
        (insert_free_block s p).stderr = s.stderr ∧ s.free_heap.blocks.length < MAX_FREE_BLOCKS) ∨
      ((insert_free_block s p).free_heap = s.free_heap ∧
        (insert_free_block s p).stderr = s.stderr ++ [diag.heap_full] ∧
        MAX_FREE_BLOCKS ≤ s.free_heap.blocks.length) := by
  by_cases h : s.free_heap.size < MAX_FREE_BLOCKS
  · left
    exact ⟨(insert_free_block_index s p h).1, (insert_free_block_index s p h).2, h⟩
  · right
    have h2 : MAX_FREE_BLOCKS ≤ s.free_heap.size := by omega
    exact ⟨(insert_free_block_full s p h2).1, (insert_free_block_full s p h2).2, h2⟩

theorem insert_free_block_nodup (s : State) (p : Nat) (hnd : s.free_heap.blocks.Nodup)
    (hp : p ∉ s.free_heap.blocks) : (insert_free_block s p).free_heap.blocks.Nodup := by
  rcases insert_free_block_cases s p with ⟨h, _, _⟩ | ⟨h, _, _⟩
  · exact (List.Perm.nodup_iff h).2 (List.nodup_cons.2 ⟨hp, hnd⟩)
  · rw [h]
    exact hnd

theorem insert_free_block_mem (s : State) (p q : Nat)
    (h : q ∈ (insert_free_block s p).free_heap.blocks) : q = p ∨ q ∈ s.free_heap.blocks := by
  rcases insert_free_block_cases s p with ⟨h1, _, _⟩ | ⟨h1, _, _⟩
  · exact List.mem_cons.1 ((List.Perm.mem_iff h1).1 h)
  · rw [h1] at h
    exact Or.inr h

theorem insert_free_block_mem_old (s : State) (p q : Nat) (h : q ∈ s.free_heap.blocks) :
    q ∈ (insert_free_block s p).free_heap.blocks := by
  rcases insert_free_block_cases s p with ⟨h1, _, _⟩ | ⟨h1, _, _⟩
  · exact (List.Perm.mem_iff h1).2 (List.mem_cons_of_mem _ h)
  · rw [h1]
    exact h

theorem insert_free_block_mem_new (s : State) (p : Nat)
    (h : diag.heap_full ∉ (insert_free_block s p).stderr) :
    p ∈ (insert_free_block s p).free_heap.blocks := by
  rcases insert_free_block_cases s p with ⟨h1, _, _⟩ | ⟨_, h1, _⟩
  · exact (List.Perm.mem_iff h1).2 (List.mem_cons_self _ _)
  · rw [h1] at h
    simp at h

theorem free_addrs_cons (b : block_meta_t) (l : List block_meta_t) :
    free_addrs (b :: l) = if b.is_free = true then b.addr :: free_addrs l else free_addrs l := by
  cases h : b.is_free <;> simp [free_addrs, h]

theorem partition_from_replace (stop a : Nat) (l1 l2 : List block_meta_t) (b c : block_meta_t)
    (h : partition_from stop a (l1 ++ b :: l2)) (ha : c.addr = b.addr) (hs : c.size = b.size) :
    partition_from stop a (l1 ++ c :: l2) := by
  rw [partition_from_append] at h ⊢
  obtain ⟨m, h1, h2, h3⟩ := h
  refine ⟨m, h1, ?_⟩
  simp only [partition_from, ha, hs]
  exact ⟨h2, h3⟩

theorem partition_from_carve (stop a : Nat) (l1 l2 : List block_meta_t) (b c nb : block_meta_t)
    (h : partition_from stop a (l1 ++ b :: l2)) (ha : c.addr = b.addr)
    (hn : nb.addr = b.addr + META_SIZE + c.size)
    (hs : c.size + META_SIZE + nb.size = b.size) :
    partition_from stop a (l1 ++ c :: nb :: l2) := by
  rw [partition_from_append] at h ⊢
  obtain ⟨m, h1, h2, h3⟩ := h
  refine ⟨m, h1, ?_⟩
  simp only [partition_from, ha]
  refine ⟨h2, hn, ?_⟩
  have e : nb.addr + META_SIZE + nb.size = b.addr + META_SIZE + b.size := by omega
  rw [e]
  exact h3

theorem partition_from_inside (stop a : Nat) (l1 l2 : List block_meta_t) (b : block_meta_t)
    (h : partition_from stop a (l1 ++ b :: l2)) (q : Nat) (h1 : b.addr < q)
    (h2 : q < b.addr + META_SIZE + b.size) : ∀ x ∈ l1 ++ b :: l2, x.addr ≠ q := by
  rw [partition_from_append] at h
  obtain ⟨m, hp1, hp2, hp3⟩ := h
  intro x hx
  rcases List.mem_append.1 hx with hx | hx
  · have := (partition_from_bounds m l1 a hp1).2 x hx
    omega
  · rcases List.mem_cons.1 hx with rfl | hx
    · omega
    · have := (partition_from_bounds stop l2 _ hp3).2 x hx
      omega

theorem malloc_well_formed (os : sbrk_t) (s : State) (n : Nat) (hwf : well_formed s) :
    well_formed (malloc os s n).2 := by
  by_cases hn : n = 0
  · subst hn
    rw [malloc_of_zero]
    exact hwf
  rcases malloc_shape os s n hn hwf with ⟨_, h⟩ | ⟨l1, b, l2, hl, hfree, hf, hsz, _, hcase⟩
  · rw [h]
    exact hwf
  obtain ⟨hi, hpart, hnd, hsound⟩ := hwf
  have hM := META_SIZE_eq
  obtain ⟨hnd1, hnot1, hmem1⟩ := perm_cons_nodup _ _ _ (find_free_block_perm s _ _ hf) hnd
  have hp := hpart.2
  rw [hl] at hp
  have hsub : ∀ q ∈ (find_free_block s (align8 n)).2.free_heap.blocks,
      q ∈ free_addrs l1 ∨ q ∈ free_addrs l2 := by
    intro q hq
    have hq1 : q ∈ s.free_heap.blocks := (hmem1 q).2 (Or.inr hq)
    have hq2 := hsound q hq1
    rw [hl, free_addrs_append, free_addrs_cons_free b l2 hfree] at hq2
    rcases List.mem_append.1 hq2 with h | h
    · exact Or.inl h
    · rcases List.mem_cons.1 h with h | h
      · exact absurd hq (h ▸ hnot1)
      · exact Or.inr h
  rcases hcase with ⟨_, hst⟩ | ⟨hge, hst⟩
  · rw [hst]
    refine ⟨by simpa using hi, ⟨by simp, ?_⟩, hnd1, ?_⟩
    · simp only [find_free_block_heap_start]
      exact partition_from_replace _ _ l1 l2 b _ hp rfl rfl
    · intro q hq
      simp only [free_addrs_append, free_addrs_cons, List.mem_append, Bool.false_eq_true,
        if_false]
      exact hsub q hq
  · rw [hst]
    refine ⟨by simpa using hi, ⟨by simp, ?_⟩, ?_, ?_⟩
    · simp only [insert_free_block_heap_start, find_free_block_heap_start]
      exact partition_from_carve _ _ l1 l2 b _ _ hp rfl rfl (by simp only; omega)
    · refine insert_free_block_nodup _ _ hnd1 ?_
      intro hin
      rcases hsub _ hin with h | h
      · obtain ⟨x, hx, e⟩ := free_addrs_subset_addrs l1 _ h
        exact partition_from_inside _ _ l1 l2 b hp _ (by omega) (by omega) x
          (List.mem_append_left _ hx) e
      · obtain ⟨x, hx, e⟩ := free_addrs_subset_addrs l2 _ h
        exact partition_from_inside _ _ l1 l2 b hp _ (by omega) (by omega) x
          (List.mem_append_right _ (List.mem_cons_of_mem _ hx)) e
    · intro q hq
      simp only [free_addrs_append, free_addrs_cons, List.mem_append, List.mem_cons,
        Bool.false_eq_true, if_false, if_true]
      rcases insert_free_block_mem _ _ _ hq with h | h
      · exact Or.inr (Or.inl h)
      · rcases hsub q h with h | h
        · exact Or.inl h
        · exact Or.inr (Or.inr h)

end MyMalloc

namespace MyMalloc

/-! ## The coalescing pass -/

theorem coalesce_loop_rule
    (I : State → List block_meta_t → block_meta_t → List block_meta_t → Prop)
    (hmerge : ∀ s pre cur nxt rest, I s pre cur (nxt :: rest) → cur.is_free = true →
      nxt.is_free = true → cur.addr + META_SIZE + cur.size = nxt.addr →
      I (merge_step s pre cur nxt rest) pre (merged_block cur nxt) rest)
    (hskip : ∀ s pre cur nxt rest, I s pre cur (nxt :: rest) →
      ¬ (cur.is_free = true ∧ nxt.is_free = true ∧
          cur.addr + META_SIZE + cur.size = nxt.addr) →
      I s (cur :: pre) nxt rest) :
    ∀ (rest : List block_meta_t) (s : State) (pre : List block_meta_t) (cur : block_meta_t),
      I s pre cur rest → ∃ pre2 cur2, I (coalesce_loop s pre cur rest) pre2 cur2 [] := by
  intro rest
  induction rest with
  | nil =>
    intro s pre cur h
    exact ⟨pre, cur, h⟩
  | cons nxt rest ih =>
    intro s pre cur h
    simp only [coalesce_loop]
    by_cases hfree : cur.is_free = true ∧ nxt.is_free = true
    · rw [if_pos hfree]
      by_cases hadj : cur.addr + META_SIZE + cur.size = nxt.addr
      · rw [if_pos hadj]
        exact ih _ _ _ (hmerge s pre cur nxt rest h hfree.1 hfree.2 hadj)
      · rw [if_neg hadj]
        exact ih _ _ _ (hskip s pre cur nxt rest h (fun hc => hadj hc.2.2))
    · rw [if_neg hfree]
      exact ih _ _ _ (hskip s pre cur nxt rest h (fun hc => hfree ⟨hc.1, hc.2.1⟩))

theorem remove_free_block_index (s : State) (p : Nat) (hnd : s.free_heap.blocks.Nodup) :
    (remove_free_block s p).free_heap.blocks.Nodup ∧
      ∀ q, q ∈ (remove_free_block s p).free_heap.blocks ↔ q ∈ s.free_heap.blocks ∧ q ≠ p := by
  by_cases hp : p ∈ s.free_heap.blocks
  · obtain ⟨h1, h2, h3⟩ := perm_cons_nodup _ _ _ (remove_free_block_mem s p hp) hnd
    refine ⟨h1, ?_⟩
    intro q
    rw [h3]
    constructor
    · intro hq
      exact ⟨Or.inr hq, fun e => h2 (e ▸ hq)⟩
    · rintro ⟨hq | hq, hne⟩
      · exact absurd hq hne
      · exact hq
  · rw [remove_free_block_not_mem s p hp]
    refine ⟨hnd, ?_⟩
    intro q
    constructor
    · intro hq
      exact ⟨hq, fun e => hp (e ▸ hq)⟩
    · exact fun h => h.1

theorem partition_from_merge (stop a : Nat) (l1 rest : List block_meta_t)
    (cur nxt m : block_meta_t) (h : partition_from stop a (l1 ++ cur :: nxt :: rest))
    (ha : m.addr = cur.addr) (hs : m.size = cur.size + META_SIZE + nxt.size) :
    partition_from stop a (l1 ++ m :: rest) := by
  rw [partition_from_append] at h ⊢
  obtain ⟨mid, h1, h2, h3, h4⟩ := h
  refine ⟨mid, h1, ?_⟩
  simp only [partition_from, ha]
  refine ⟨h2, ?_⟩
  have e : cur.addr + META_SIZE + m.size = nxt.addr + META_SIZE + nxt.size := by omega
  rw [e]
  exact h4

theorem merged_block_size (stop a : Nat) (l1 rest : List block_meta_t) (cur nxt : block_meta_t)
    (h : partition_from stop a (l1 ++ cur :: nxt :: rest)) (hstop : stop ≤ a + HEAP_SIZE) :
    (merged_block cur nxt).size = cur.size + META_SIZE + nxt.size := by
  have hb := (partition_from_bounds stop _ a h).2
  have h1 := hb cur (by simp)
  have h2 := hb nxt (by simp)
  rw [partition_from_append] at h
  obtain ⟨mid, _, _, h3, _⟩ := h
  have hM := META_SIZE_eq
  have hH := HEAP_SIZE_eq
  have hS := SIZE_MODULUS_eq
  simp only [merged_block]
  rw [add64_small META_SIZE nxt.size (by omega), add64_small _ _ (by omega)]
  omega

/-- The invariant of the coalescing loop that carries well-formedness. -/
theorem merge_step_well_formed (s : State) (pre : List block_meta_t) (cur nxt : block_meta_t)
    (rest : List block_meta_t) (hwf : well_formed s)
    (hl : s.blocks = pre.reverse ++ cur :: nxt :: rest) (hfree : cur.is_free = true) :
    well_formed (merge_step s pre cur nxt rest) ∧
      (merge_step s pre cur nxt rest).blocks = pre.reverse ++ merged_block cur nxt :: rest := by
  obtain ⟨hi, ⟨_, hpart⟩, hnd, hsound⟩ := hwf
  rw [hl] at hpart
  obtain ⟨hnd1, hmem1⟩ := remove_free_block_index s cur.addr hnd
  obtain ⟨hnd2, hmem2⟩ := remove_free_block_index (remove_free_block s cur.addr) nxt.addr hnd1
  have hsz := merged_block_size _ _ _ _ cur nxt hpart (le_refl _)
  unfold merge_step
  simp only [insert_free_block_blocks, and_true]
  refine ⟨by simpa using hi, ⟨by simp, ?_⟩, ?_, ?_⟩
  · simp only [insert_free_block_heap_start, remove_free_block_heap_start,
      insert_free_block_blocks]
    exact partition_from_merge _ _ _ rest cur nxt _ hpart rfl hsz
  · refine insert_free_block_nodup _ _ hnd2 ?_
    intro hin
    exact ((hmem1 _).1 ((hmem2 _).1 hin).1).2 rfl
  · intro q hq
    simp only [insert_free_block_blocks, free_addrs_append, free_addrs_cons, List.mem_append]
    rcases insert_free_block_mem _ _ _ hq with h | h
    · right
      have : (merged_block cur nxt).is_free = true := hfree
      rw [if_pos this, h]
      exact List.mem_cons_self _ _
    · have hq2 := (hmem2 q).1 h
      have hq1 := (hmem1 q).1 hq2.1
      have hq0 := hsound q hq1.1
      rw [hl] at hq0
      simp only [free_addrs_append, free_addrs_cons, List.mem_append] at hq0
      rcases hq0 with h0 | h0
      · exact Or.inl h0
      · right
        have hm : (merged_block cur nxt).is_free = true := hfree
        rw [if_pos hm]
        rw [if_pos hfree] at h0
        rcases List.mem_cons.1 h0 with h0 | h0
        · exact absurd h0 hq1.2
        · split at h0
          · rcases List.mem_cons.1 h0 with h0 | h0
            · exact absurd h0 hq2.2
            · exact List.mem_cons_of_mem _ h0
          · exact List.mem_cons_of_mem _ h0

theorem coalesce_loop_well_formed (rest : List block_meta_t) (s : State)
    (pre : List block_meta_t) (cur : block_meta_t) (hwf : well_formed s)
    (hl : s.blocks = pre.reverse ++ cur :: rest) :
    well_formed (coalesce_loop s pre cur rest) := by
  have := coalesce_loop_rule
    (fun s pre cur rest => well_formed s ∧ s.blocks = pre.reverse ++ cur :: rest)
    (by
      intro s pre cur nxt rest h hfree _ _
      exact merge_step_well_formed s pre cur nxt rest h.1 h.2 hfree)
    (by
      intro s pre cur nxt rest h _
      refine ⟨h.1, ?_⟩
      rw [h.2]
      simp)
    rest s pre cur ⟨hwf, hl⟩
  obtain ⟨_, _, h, _⟩ := this
  exact h

theorem coalesce_well_formed (s : State) (hwf : well_formed s) : well_formed (coalesce s) := by
  unfold coalesce
  split
  · exact hwf
  · rename_i cur rest hl
    exact coalesce_loop_well_formed rest s [] cur hwf (by simpa using hl)

end MyMalloc

namespace MyMalloc

/-! ## Preservation of well-formedness by `free` and `realloc` -/

theorem granted_listed (s : State) (p : Nat) (h : granted s p) :
    ∃ l1 b l2, s.blocks = l1 ++ b :: l2 ∧ b.is_free = false ∧ p = b.addr + META_SIZE := by
  obtain ⟨b, hb, hfree, e⟩ := h
  obtain ⟨l1, l2, hl⟩ := List.append_of_mem hb
  exact ⟨l1, b, l2, hl, hfree, e⟩

theorem free_shape (s : State) (l1 l2 : List block_meta_t) (b : block_meta_t)
    (hpart : partitioned s) (hl : s.blocks = l1 ++ b :: l2) :
    free s (b.addr + META_SIZE) =
      coalesce (insert_free_block
        { s with blocks := l1 ++ { b with is_free := true, requested_size := 0 } :: l2 }
        b.addr) := by
  obtain ⟨h1, h2, hlo, hhi⟩ := partitioned_split_bounds s hpart l1 l2 b hl
  have hM := META_SIZE_eq
  unfold free
  rw [if_neg (by omega)]
  simp only [get_block_meta, Nat.add_sub_cancel]
  rw [if_neg (by omega)]
  rw [hl, update_block_split _ l1 l2 b h1 h2]

theorem mark_free_well_formed (s : State) (l1 l2 : List block_meta_t) (b : block_meta_t)
    (hwf : well_formed s) (hl : s.blocks = l1 ++ b :: l2) (hused : b.is_free = false) :
    well_formed (insert_free_block
      { s with blocks := l1 ++ { b with is_free := true, requested_size := 0 } :: l2 }
      b.addr) := by
  obtain ⟨hi, hpart, hnd, hsound⟩ := hwf
  obtain ⟨h1, h2, _, _⟩ := partitioned_split_bounds s hpart l1 l2 b hl
  have hp := hpart.2
  rw [hl] at hp
  have hsub : ∀ q ∈ s.free_heap.blocks, q ∈ free_addrs l1 ∨ q ∈ free_addrs l2 := by
    intro q hq
    have := hsound q hq
    rw [hl] at this
    simpa [free_addrs_append, free_addrs_cons, hused] using this
  refine ⟨by simpa using hi, ⟨by simp, ?_⟩, ?_, ?_⟩
  · simp only [insert_free_block_heap_start, insert_free_block_blocks]
    exact partition_from_replace _ _ l1 l2 b _ hp rfl rfl
  · refine insert_free_block_nodup _ _ hnd ?_
    intro hin
    rcases hsub _ hin with h | h
    · obtain ⟨x, hx, e⟩ := free_addrs_subset_addrs l1 _ h
      exact h1 x hx e
    · obtain ⟨x, hx, e⟩ := free_addrs_subset_addrs l2 _ h
      exact h2 x hx e
  · intro q hq
    simp only [insert_free_block_blocks, free_addrs_append, free_addrs_cons, List.mem_append,
      if_true, List.mem_cons]
    rcases insert_free_block_mem _ _ _ hq with h | h
    · exact Or.inr (Or.inl h)
    · rcases hsub q h with h | h
      · exact Or.inl h
      · exact Or.inr (Or.inr h)

theorem free_well_formed (s : State) (p : Nat) (hwf : well_formed s)
    (hp : p = 0 ∨ granted s p) : well_formed (free s p) := by
  rcases hp with rfl | hp
  · simpa [free] using hwf
  · obtain ⟨l1, b, l2, hl, hused, rfl⟩ := granted_listed s p hp
    rw [free_shape s l1 l2 b hwf.2.1 hl]
    exact coalesce_well_formed _ (mark_free_well_formed s l1 l2 b hwf hl hused)

theorem split_block_well_formed (s : State) (l1 l2 : List block_meta_t) (b : block_meta_t)
    (a : Nat) (hwf : well_formed s) (hl : s.blocks = l1 ++ b :: l2) (ha : a ≤ b.size) :
    well_formed (split_block s b.addr a) := by
  obtain ⟨hi, hpart, hnd, hsound⟩ := hwf
  obtain ⟨h1, h2, hlo, hhi⟩ := partitioned_split_bounds s hpart l1 l2 b hl
  have hM := META_SIZE_eq
  have hH := HEAP_SIZE_eq
  have hS := SIZE_MODULUS_eq
  have hp := hpart.2
  rw [hl] at hp
  by_cases hsplit : a + META_SIZE + 16 ≤ b.size
  · rw [split_block_split s l1 l2 b a hl h1 (by omega) hsplit]
    have hsub : ∀ q ∈ s.free_heap.blocks, q ∈ free_addrs (l1 ++ b :: l2) := by
      intro q hq
      have := hsound q hq
      rwa [hl] at this
    refine ⟨by simpa using hi, ⟨by simp, ?_⟩, ?_, ?_⟩
    · simp only [insert_free_block_heap_start, insert_free_block_blocks]
      exact partition_from_carve _ _ l1 l2 b _ _ hp rfl rfl (by simp only; omega)
    · refine insert_free_block_nodup _ _ hnd ?_
      intro hin
      obtain ⟨x, hx, e⟩ := free_addrs_subset_addrs _ _ (hsub _ hin)
      exact partition_from_inside _ _ l1 l2 b hp _ (by omega) (by omega) x hx e
    · intro q hq
      have hq2 : q = b.addr + META_SIZE + a ∨ q ∈ free_addrs (l1 ++ b :: l2) := by
        rcases insert_free_block_mem _ _ _ hq with h | h
        · exact Or.inl h
        · exact Or.inr (hsub q h)
      simp only [insert_free_block_blocks]
      cases hbf : b.is_free <;>
        simp [free_addrs_append, free_addrs_cons, hbf] at hq2 ⊢ <;> tauto
  · rw [split_block_no_split s l1 l2 b a hl h1 (by omega) (by omega)]
    exact ⟨hi, hpart, hnd, hsound⟩

end MyMalloc

namespace MyMalloc

theorem well_formed_bytes (s : State) (bytes : Nat → Nat) (h : well_formed s) :
    well_formed { s with bytes := bytes } := h

theorem granted_bytes (s : State) (bytes : Nat → Nat) (p : Nat) (h : granted s p) :
    granted { s with bytes := bytes } p := h

theorem malloc_keeps_used (os : sbrk_t) (s : State) (n : Nat) (hwf : well_formed s)
    (b : block_meta_t) (hb : b ∈ s.blocks) (hu : b.is_free = false) :
    b ∈ (malloc os s n).2.blocks := by
  by_cases hn : n = 0
  · subst hn
    rw [malloc_of_zero]
    exact hb
  rcases malloc_shape os s n hn hwf with ⟨_, h⟩ | ⟨l1, f, l2, hl, hfree, _, _, _, hcase⟩
  · rw [h]
    exact hb
  rw [hl] at hb
  have hb2 : b ∈ l1 ∨ b ∈ l2 := by
    rcases List.mem_append.1 hb with h | h
    · exact Or.inl h
    · rcases List.mem_cons.1 h with h | h
      · rw [h, hfree] at hu
        exact absurd hu (by simp)
      · exact Or.inr h
  rcases hcase with ⟨_, hst⟩ | ⟨_, hst⟩
  · rw [hst]
    simp only [List.mem_append, List.mem_cons]
    tauto
  · rw [hst]
    simp only [List.mem_append, List.mem_cons]
    tauto

theorem malloc_granted (os : sbrk_t) (s : State) (n : Nat) (hwf : well_formed s) (p : Nat)
    (h : granted s p) : granted (malloc os s n).2 p := by
  obtain ⟨b, hb, hu, e⟩ := h
  exact ⟨b, malloc_keeps_used os s n hwf b hb hu, hu, e⟩

theorem well_formed_block_size (s : State) (hwf : well_formed s) (b : block_meta_t)
    (hb : b ∈ s.blocks) : block_size s.blocks b.addr = b.size :=
  block_size_of_mem _ _ s.blocks hwf.2.1.2 b hb

theorem granted_in_range (s : State) (hwf : well_formed s) (b : block_meta_t)
    (hb : b ∈ s.blocks) :
    ¬ (b.addr < s.heap_start ∨ b.addr ≥ s.heap_start + HEAP_SIZE) := by
  have := (partition_from_bounds _ _ _ hwf.2.1.2).2 b hb
  have hM := META_SIZE_eq
  omega

theorem realloc_in_place (os : sbrk_t) (s : State) (n : Nat) (hn : n ≠ 0)
    (l1 l2 : List block_meta_t) (b : block_meta_t) (hwf : well_formed s)
    (hl : s.blocks = l1 ++ b :: l2) (hle : n ≤ b.size) :
    realloc os s (b.addr + META_SIZE) n =
      some (b.addr + META_SIZE,
        split_block { s with blocks := l1 ++ { b with requested_size := n } :: l2 } b.addr n) := by
  obtain ⟨h1, h2, _, _⟩ := partitioned_split_bounds s hwf.2.1 l1 l2 b hl
  have hb : b ∈ s.blocks := by rw [hl]; simp
  have hM := META_SIZE_eq
  unfold realloc
  rw [if_neg (by omega), if_neg hn]
  simp only [get_block_meta, Nat.add_sub_cancel]
  rw [if_neg (granted_in_range s hwf b hb), well_formed_block_size s hwf b hb, if_pos hle]
  rw [hl, update_block_split _ l1 l2 b h1 h2]

theorem realloc_move (os : sbrk_t) (s : State) (n : Nat) (hn : n ≠ 0)
    (b : block_meta_t) (hwf : well_formed s) (hb : b ∈ s.blocks) (hu : b.is_free = false)
    (hlt : b.size < n) :
    realloc os s (b.addr + META_SIZE) n =
      if (malloc os s n).1 = 0 then some (0, (malloc os s n).2)
      else if b.size > block_size (malloc os s n).2.blocks (get_block_meta (malloc os s n).1)
      then none
      else some ((malloc os s n).1,
        free { (malloc os s n).2 with
          bytes := memcpy (malloc os s n).2.bytes (malloc os s n).1 (b.addr + META_SIZE) b.size }
          (b.addr + META_SIZE)) := by
  have hM := META_SIZE_eq
  have hb2 := malloc_keeps_used os s n hwf b hb hu
  have hsz := well_formed_block_size _ (malloc_well_formed os s n hwf) b hb2
  unfold realloc
  rw [if_neg (by omega), if_neg hn]
  simp only [get_block_meta, Nat.add_sub_cancel]
  rw [if_neg (granted_in_range s hwf b hb), well_formed_block_size s hwf b hb,
    if_neg (by omega)]
  simp only [get_block_meta] at hsz ⊢
  rw [hsz]

theorem realloc_well_formed (os : sbrk_t) (s : State) (p n : Nat) (hwf : well_formed s)
    (hp : p = 0 ∨ granted s p) (r : Nat × State) (hr : realloc os s p n = some r) :
    well_formed r.2 := by
  rcases hp with rfl | hp
  · simp only [realloc, if_true, Option.some.injEq] at hr
    rw [← hr]
    exact malloc_well_formed os s n hwf
  by_cases hn : n = 0
  · subst hn
    have hp0 : p ≠ 0 := by
      obtain ⟨b, _, _, e⟩ := hp
      have hM := META_SIZE_eq
      omega
    simp only [realloc, if_neg hp0, if_true, Option.some.injEq] at hr
    rw [← hr]
    exact free_well_formed s p hwf (Or.inr hp)
  obtain ⟨l1, b, l2, hl, hu, rfl⟩ := granted_listed s p hp
  have hb : b ∈ s.blocks := by rw [hl]; simp
  by_cases hle : n ≤ b.size
  · rw [realloc_in_place os s n hn l1 l2 b hwf hl hle, Option.some.injEq] at hr
    rw [← hr]
    have hwf1 : well_formed { s with blocks := l1 ++ { b with requested_size := n } :: l2 } := by
      obtain ⟨hi, hpart, hnd, hsound⟩ := hwf
      have hpp := hpart.2
      rw [hl] at hpp
      refine ⟨hi, ⟨by simp, partition_from_replace _ _ l1 l2 b _ hpp rfl rfl⟩, hnd, ?_⟩
      intro q hq
      have := hsound q hq
      rw [hl] at this
      simpa [free_addrs_append, free_addrs_cons] using this
    exact split_block_well_formed _ l1 l2 { b with requested_size := n } n hwf1 rfl hle
  · rw [realloc_move os s n hn b hwf hb hu (by omega)] at hr
    split at hr
    · rw [Option.some.injEq] at hr
      rw [← hr]
      exact malloc_well_formed os s n hwf
    · split at hr
      · exact absurd hr (by simp)
      · rw [Option.some.injEq] at hr
        rw [← hr]
        refine free_well_formed _ _ (well_formed_bytes _ _ (malloc_well_formed os s n hwf))
          (Or.inr ?_)
        exact granted_bytes _ _ _ (malloc_granted os s n hwf _ ⟨b, hb, hu, rfl⟩)

theorem realloc_defined (os : sbrk_t) (s : State) (p n : Nat) (hwf : well_formed s)
    (hp : p = 0 ∨ granted s p) (hn : n ≤ SIZE_MODULUS - 8) :
    ∃ r, realloc os s p n = some r := by
  rcases hp with rfl | hp
  · exact ⟨malloc os s n, by simp [realloc]⟩
  by_cases hn0 : n = 0
  · subst hn0
    have hp0 : p ≠ 0 := by
      obtain ⟨b, _, _, e⟩ := hp
      have hM := META_SIZE_eq
      omega
    exact ⟨(0, free s p), by simp [realloc, hp0]⟩
  obtain ⟨l1, b, l2, hl, hu, rfl⟩ := granted_listed s p hp
  have hb : b ∈ s.blocks := by rw [hl]; simp
  by_cases hle : n ≤ b.size
  · exact ⟨_, realloc_in_place os s n hn0 l1 l2 b hwf hl hle⟩
  · rw [realloc_move os s n hn0 b hwf hb hu (by omega)]
    split
    · exact ⟨_, rfl⟩
    · rename_i hne
      have := malloc_initialized_size os s n (by omega) hn hwf.1 hne
      rw [if_neg (by omega)]
      exact ⟨_, rfl⟩

end MyMalloc

namespace MyMalloc

/-! ## C1: the partition invariant -/

theorem fresh_heap_well_formed (hs : Nat) (bytes : Nat → Nat) :
    well_formed (fresh_heap hs bytes) := by
  refine ⟨rfl, ⟨by simp [fresh_heap], ?_⟩, by simp [fresh_heap], ?_⟩
  · simp only [fresh_heap, partition_from, true_and]
    have hM := META_SIZE_eq
    have hH := HEAP_SIZE_eq
    omega
  · intro q hq
    simp only [fresh_heap, List.mem_singleton] at hq
    simp [fresh_heap, free_addrs, hq]

theorem step_well_formed (os : sbrk_t) (s t : State) (c : call) (hwf : well_formed s)
    (hv : valid_call s c) (hst : step os s c = some t) : well_formed t := by
  cases c with
  | malloc n =>
    simp only [step, Option.some.injEq] at hst
    rw [← hst]
    exact malloc_well_formed os s n hwf
  | free p =>
    simp only [step, Option.some.injEq] at hst
    rw [← hst]
    exact free_well_formed s p hwf hv
  | realloc p n =>
    simp only [step, Option.map_eq_some'] at hst
    obtain ⟨r, hr, e⟩ := hst
    rw [← e]
    exact realloc_well_formed os s p n hwf hv r hr

theorem reachable_well_formed (os : sbrk_t) (adm : call → Bool) (s0 s : State)
    (h0 : well_formed s0) (h : reachable os adm s0 s) : well_formed s := by
  induction h with
  | start => exact h0
  | next c _ _ hv hst ih => exact step_well_formed os _ _ c ih hv hst

theorem step_defined (os : sbrk_t) (s : State) (c : call) (hwf : well_formed s)
    (hadm : realloc_bounded c = true) (hv : valid_call s c) : ∃ t, step os s c = some t := by
  cases c with
  | malloc n => exact ⟨_, rfl⟩
  | free p => exact ⟨_, rfl⟩
  | realloc p n =>
    simp only [realloc_bounded, decide_eq_true_eq] at hadm
    obtain ⟨r, hr⟩ := realloc_defined os s p n hwf hv hadm
    exact ⟨r.2, by simp [step, hr]⟩

/-- C1 (as amended). In every state reachable from the freshly initialised heap
by `malloc`/`free`/`realloc` calls in which every pointer passed to `free` or
`realloc` is null or currently granted and every `realloc` size is at most
`2^64 - 8`, the block list is not empty, starts at `heap_start`, every successor
starts exactly `META_SIZE + size` bytes after the start of the block before it,
and the last block ends at `heap_start + HEAP_SIZE`; and every further such call
has a successor state, in which the same holds. -/
theorem partition_invariant (os : sbrk_t) (hs : Nat) (bytes : Nat → Nat) (s : State)
    (h : reachable os realloc_bounded (fresh_heap hs bytes) s) :
    partitioned s ∧
      ∀ c, realloc_bounded c = true → valid_call s c →
        ∃ t, step os s c = some t ∧ partitioned t := by
  have hwf := reachable_well_formed os _ _ s (fresh_heap_well_formed hs bytes) h
  refine ⟨hwf.2.1, ?_⟩
  intro c hadm hv
  obtain ⟨t, ht⟩ := step_defined os s c hwf hadm hv
  exact ⟨t, ht, (step_well_formed os s t c hwf hv ht).2.1⟩

/-- C1, witness: the five calls of `partition_calls` on the fresh heap at 4096. -/
theorem partition_invariant_witness :
    reachable sbrk_ok realloc_bounded (fresh_heap 4096 zero_bytes)
      (exec sbrk_ok (fresh_heap 4096 zero_bytes) partition_calls) ∧
    partitioned (exec sbrk_ok (fresh_heap 4096 zero_bytes) partition_calls) :=
  ⟨exec_reachable _ _ _ _ _ reachable.start (by decide),
    (partition_invariant sbrk_ok 4096 zero_bytes _
      (exec_reachable _ _ _ _ _ reachable.start (by decide))).1⟩

/-- C1 (counterexample). After `malloc(100)` on the fresh heap, `realloc(4128,
2^64 - 1)` is a call with a granted pointer. Its inner `malloc` rounds the size
to 0, carves a block of size 0 at 4232 and returns 4264, which is the address of
the header of the free block behind it; `memcpy` then copies the 104 bytes of
the old block over that header. The call has no successor state in which the
block list partitions the region. -/
theorem realloc_overrun_counterexample :
    reachable sbrk_ok any_call (fresh_heap 4096 zero_bytes) after_malloc_100 ∧
    valid_call after_malloc_100 (call.realloc 4128 (2 ^ 64 - 1)) ∧
    (malloc sbrk_ok after_malloc_100 (2 ^ 64 - 1)).1 = 4264 ∧
    (malloc sbrk_ok after_malloc_100 (2 ^ 64 - 1)).2.blocks =
      [⟨4096, 104, 100, false⟩, ⟨4232, 0, 2 ^ 64 - 1, false⟩, ⟨4264, 1052472, 0, true⟩] ∧
    ¬ ∃ t, step sbrk_ok after_malloc_100 (call.realloc 4128 (2 ^ 64 - 1)) = some t ∧
        partitioned t := by
  refine ⟨exec_reachable _ _ _ _ _ reachable.start (by decide), by decide, by decide,
    by decide, ?_⟩
  rintro ⟨t, ht, _⟩
  have hnone : (step sbrk_ok after_malloc_100 (call.realloc 4128 (2 ^ 64 - 1))).isSome = false := by
    decide
  rw [ht] at hnone
  exact absurd hnone (by simp)

end MyMalloc

namespace MyMalloc

/-! ## C2: the membership invariant -/

theorem remove_free_block_stderr_mono (s : State) (p : Nat) (d : diag) (h : d ∈ s.stderr) :
    d ∈ (remove_free_block s p).stderr := by
  rw [remove_free_block_stderr]
  exact h

theorem merge_step_stderr_mono (s : State) (pre : List block_meta_t) (cur nxt : block_meta_t)
    (rest : List block_meta_t) (d : diag) (h : d ∈ s.stderr) :
    d ∈ (merge_step s pre cur nxt rest).stderr := by
  unfold merge_step
  exact insert_free_block_stderr_mono _ _ d (by simpa using h)

theorem coalesce_loop_stderr_mono (d : diag) :
    ∀ (rest : List block_meta_t) (s : State) (pre : List block_meta_t) (cur : block_meta_t),
      d ∈ s.stderr → d ∈ (coalesce_loop s pre cur rest).stderr := by
  intro rest
  induction rest with
  | nil => intro s pre cur h; exact h
  | cons nxt rest ih =>
    intro s pre cur h
    simp only [coalesce_loop]
    split
    · split
      · exact ih _ _ _ (merge_step_stderr_mono s pre cur nxt rest d h)
      · exact ih _ _ _ h
    · exact ih _ _ _ h

theorem coalesce_stderr_mono (s : State) (d : diag) (h : d ∈ s.stderr) :
    d ∈ (coalesce s).stderr := by
  unfold coalesce
  split
  · exact h
  · exact coalesce_loop_stderr_mono d _ _ _ _ h

theorem free_stderr_mono (s : State) (p : Nat) (d : diag) (h : d ∈ s.stderr) :
    d ∈ (free s p).stderr := by
  simp only [free]
  split_ifs
  · exact h
  · simp [h]
  · exact coalesce_stderr_mono _ d (insert_free_block_stderr_mono _ _ d h)

theorem split_block_stderr_mono (s : State) (p a : Nat) (d : diag) (h : d ∈ s.stderr) :
    d ∈ (split_block s p a).stderr := by
  unfold split_block
  split
  · exact h
  · split
    · exact insert_free_block_stderr_mono _ _ d h
    · exact h

theorem init_heap_stderr_mono (os : sbrk_t) (s : State) (d : diag) (h : d ∈ s.stderr) :
    d ∈ (init_heap os s).stderr := by
  simp only [init_heap]
  split_ifs
  · simp [h]
  · exact insert_free_block_stderr_mono _ _ d h
  · exact h

theorem malloc_stderr_mono_initialized (os : sbrk_t) (s : State) (n : Nat) (d : diag)
    (hi : s.is_initialized = true) (h : d ∈ s.stderr) : d ∈ (malloc os s n).2.stderr := by
  by_cases hn : n = 0
  · subst hn
    rw [malloc_of_zero]
    exact h
  · cases hf : (find_free_block s (align8 n)).1 with
    | none =>
      rw [malloc_none os s n hn hi hf, find_free_block_stderr]
      exact h
    | some b =>
      rw [malloc_some os s n b hn hi hf]
      exact split_block_stderr_mono _ _ _ d (by rw [find_free_block_stderr]; exact h)

theorem malloc_stderr_mono (os : sbrk_t) (s : State) (n : Nat) (d : diag) (h : d ∈ s.stderr) :
    d ∈ (malloc os s n).2.stderr := by
  cases hi : s.is_initialized with
  | true => exact malloc_stderr_mono_initialized os s n d hi h
  | false =>
    by_cases hn : n = 0
    · subst hn
      rw [malloc_of_zero]
      exact h
    · rw [malloc_uninitialized os s n hn hi]
      split
      · exact init_heap_stderr_mono os s d h
      · rename_i h2
        exact malloc_stderr_mono_initialized os _ n d (by simpa using h2)
          (init_heap_stderr_mono os s d h)

theorem malloc_index_complete (os : sbrk_t) (s : State) (n : Nat) (hwf : well_formed s)
    (hc : diag.heap_full ∉ s.stderr → index_complete s)
    (hfull : diag.heap_full ∉ (malloc os s n).2.stderr) : index_complete (malloc os s n).2 := by
  have hc0 : index_complete s := hc (fun h => hfull (malloc_stderr_mono os s n _ h))
  by_cases hn : n = 0
  · subst hn
    rw [malloc_of_zero]
    exact hc0
  rcases malloc_shape os s n hn hwf with ⟨_, h⟩ | ⟨l1, b, l2, hl, hfree, hf, hsz, _, hcase⟩
  · rw [h]
    exact hc0
  obtain ⟨hi, hpart, hnd, hsound⟩ := hwf
  have hM := META_SIZE_eq
  obtain ⟨hnd1, hnot1, hmem1⟩ := perm_cons_nodup _ _ _ (find_free_block_perm s _ _ hf) hnd
  obtain ⟨h1, h2, _, _⟩ := partitioned_split_bounds s hpart l1 l2 b hl
  have hold : ∀ q, q ∈ free_addrs l1 ∨ q ∈ free_addrs l2 →
      q ∈ (find_free_block s (align8 n)).2.free_heap.blocks := by
    intro q hq
    have hq0 : q ∈ free_addrs s.blocks := by
      rw [hl, free_addrs_append, free_addrs_cons, if_pos hfree]
      rcases hq with h | h
      · exact List.mem_append_left _ h
      · exact List.mem_append_right _ (List.mem_cons_of_mem _ h)
    rcases (hmem1 q).1 (hc0 q hq0) with h | h
    · rcases hq with hq | hq
      · obtain ⟨x, hx, e⟩ := free_addrs_subset_addrs l1 _ hq
        exact absurd (e.trans h) (h1 x hx)
      · obtain ⟨x, hx, e⟩ := free_addrs_subset_addrs l2 _ hq
        exact absurd (e.trans h) (h2 x hx)
    · exact h
  rcases hcase with ⟨_, hst⟩ | ⟨hge, hst⟩
  · rw [hst]
    intro q hq
    simp only [free_addrs_append, free_addrs_cons, List.mem_append, Bool.false_eq_true,
      if_false] at hq
    exact hold q hq
  · rw [hst] at hfull ⊢
    intro q hq
    simp only [free_addrs_append, free_addrs_cons, List.mem_append, List.mem_cons,
      Bool.false_eq_true, if_false, if_true] at hq
    rcases hq with hq | hq | hq
    · exact insert_free_block_mem_old _ _ _ (hold q (Or.inl hq))
    · rw [hq]
      exact insert_free_block_mem_new _ _ hfull
    · exact insert_free_block_mem_old _ _ _ (hold q (Or.inr hq))

end MyMalloc

namespace MyMalloc

theorem merge_step_index_complete (s : State) (pre : List block_meta_t)
    (cur nxt : block_meta_t) (rest : List block_meta_t) (hwf : well_formed s)
    (hl : s.blocks = pre.reverse ++ cur :: nxt :: rest)
    (hc : diag.heap_full ∉ s.stderr → index_complete s)
    (hfull : diag.heap_full ∉ (merge_step s pre cur nxt rest).stderr) :
    index_complete (merge_step s pre cur nxt rest) := by
  have hc0 : index_complete s := hc (fun h => hfull (merge_step_stderr_mono s pre cur nxt rest _ h))
  obtain ⟨hi, hpart, hnd, hsound⟩ := hwf
  obtain ⟨hnd1, hmem1⟩ := remove_free_block_index s cur.addr hnd
  obtain ⟨hnd2, hmem2⟩ := remove_free_block_index (remove_free_block s cur.addr) nxt.addr hnd1
  obtain ⟨hc1, hc2, _, _⟩ := partitioned_split_bounds s hpart pre.reverse (nxt :: rest) cur hl
  have hl2 : s.blocks = (pre.reverse ++ [cur]) ++ nxt :: rest := by simp [hl]
  obtain ⟨hn1, hn2, _, _⟩ := partitioned_split_bounds s hpart (pre.reverse ++ [cur]) rest nxt hl2
  have hold : ∀ q, q ∈ free_addrs pre.reverse ∨ q ∈ free_addrs rest →
      q ∈ (remove_free_block (remove_free_block s cur.addr) nxt.addr).free_heap.blocks := by
    intro q hq
    have hq0 : q ∈ free_addrs s.blocks := by
      rw [hl]
      simp only [free_addrs_append, free_addrs_cons, List.mem_append]
      rcases hq with h | h
      · exact Or.inl h
      · right
        split <;> split <;> simp [h]
    have hne : q ≠ cur.addr ∧ q ≠ nxt.addr := by
      rcases hq with h | h
      · obtain ⟨x, hx, e⟩ := free_addrs_subset_addrs _ _ h
        exact ⟨fun e2 => hc1 x hx (e.trans e2),
          fun e2 => hn1 x (List.mem_append_left _ hx) (e.trans e2)⟩
      · obtain ⟨x, hx, e⟩ := free_addrs_subset_addrs _ _ h
        exact ⟨fun e2 => hc2 x (List.mem_cons_of_mem _ hx) (e.trans e2),
          fun e2 => hn2 x hx (e.trans e2)⟩
    exact (hmem2 q).2 ⟨(hmem1 q).2 ⟨hc0 q hq0, hne.1⟩, hne.2⟩
  unfold merge_step at hfull ⊢
  intro q hq
  simp only [insert_free_block_blocks, free_addrs_append, free_addrs_cons,
    List.mem_append] at hq
  rcases hq with hq | hq
  · exact insert_free_block_mem_old _ _ _ (hold q (Or.inl hq))
  · split at hq
    · rcases List.mem_cons.1 hq with hq | hq
      · rw [hq]
        exact insert_free_block_mem_new _ _ hfull
      · exact insert_free_block_mem_old _ _ _ (hold q (Or.inr hq))
    · exact insert_free_block_mem_old _ _ _ (hold q (Or.inr hq))

theorem coalesce_index_complete (s : State) (hwf : well_formed s)
    (hc : diag.heap_full ∉ s.stderr → index_complete s)
    (hfull : diag.heap_full ∉ (coalesce s).stderr) : index_complete (coalesce s) := by
  cases hl : s.blocks with
  | nil =>
    have e : coalesce s = s := by simp [coalesce, hl]
    rw [e] at hfull ⊢
    exact hc hfull
  | cons cur rest =>
    have e : coalesce s = coalesce_loop s [] cur rest := by simp [coalesce, hl]
    rw [e] at hfull ⊢
    have := coalesce_loop_rule
      (fun s pre cur rest => well_formed s ∧ s.blocks = pre.reverse ++ cur :: rest ∧
        (diag.heap_full ∉ s.stderr → index_complete s))
      (by
        intro s pre cur nxt rest h hfree _ _
        obtain ⟨h1, h2⟩ := merge_step_well_formed s pre cur nxt rest h.1 h.2.1 hfree
        exact ⟨h1, h2, merge_step_index_complete s pre cur nxt rest h.1 h.2.1 h.2.2⟩)
      (by
        intro s pre cur nxt rest h _
        refine ⟨h.1, ?_, h.2.2⟩
        rw [h.2.1]
        simp)
      rest s [] cur ⟨hwf, by simpa using hl, hc⟩
    obtain ⟨_, _, _, _, h⟩ := this
    exact h hfull

theorem free_index_complete (s : State) (p : Nat) (hwf : well_formed s)
    (hp : p = 0 ∨ granted s p) (hc : diag.heap_full ∉ s.stderr → index_complete s)
    (hfull : diag.heap_full ∉ (free s p).stderr) : index_complete (free s p) := by
  rcases hp with rfl | hp
  · have e : free s 0 = s := by simp [free]
    rw [e] at hfull ⊢
    exact hc hfull
  · obtain ⟨l1, b, l2, hl, hused, rfl⟩ := granted_listed s p hp
    rw [free_shape s l1 l2 b hwf.2.1 hl] at hfull ⊢
    refine coalesce_index_complete _ (mark_free_well_formed s l1 l2 b hwf hl hused) ?_ hfull
    intro hfull2
    have hc0 : index_complete s := hc (fun h => hfull2 (insert_free_block_stderr_mono _ _ _ h))
    intro q hq
    simp only [insert_free_block_blocks, free_addrs_append, free_addrs_cons, List.mem_append,
      if_true, List.mem_cons] at hq
    have hsub : ∀ q, q ∈ free_addrs l1 ∨ q ∈ free_addrs l2 → q ∈ s.free_heap.blocks := by
      intro q hq
      refine hc0 q ?_
      rw [hl]
      simp only [free_addrs_append, free_addrs_cons, hused, List.mem_append, Bool.false_eq_true,
        if_false]
      exact hq
    rcases hq with hq | hq | hq
    · exact insert_free_block_mem_old _ _ _ (hsub q (Or.inl hq))
    · rw [hq]
      exact insert_free_block_mem_new _ _ hfull2
    · exact insert_free_block_mem_old _ _ _ (hsub q (Or.inr hq))

theorem split_block_index_complete (s : State) (l1 l2 : List block_meta_t) (b : block_meta_t)
    (a : Nat) (hwf : well_formed s) (hl : s.blocks = l1 ++ b :: l2) (ha : a ≤ b.size)
    (hc : diag.heap_full ∉ s.stderr → index_complete s)
    (hfull : diag.heap_full ∉ (split_block s b.addr a).stderr) :
    index_complete (split_block s b.addr a) := by
  have hc0 : index_complete s := hc (fun h => hfull (split_block_stderr_mono s _ _ _ h))
  obtain ⟨hi, hpart, hnd, hsound⟩ := hwf
  obtain ⟨h1, h2, hlo, hhi⟩ := partitioned_split_bounds s hpart l1 l2 b hl
  have hM := META_SIZE_eq
  have hH := HEAP_SIZE_eq
  have hS := SIZE_MODULUS_eq
  by_cases hsplit : a + META_SIZE + 16 ≤ b.size
  · rw [split_block_split s l1 l2 b a hl h1 (by omega) hsplit] at hfull ⊢
    intro q hq
    have hq2 : q = b.addr + META_SIZE + a ∨ q ∈ free_addrs s.blocks := by
      rw [hl]
      simp only [insert_free_block_blocks] at hq
      cases hbf : b.is_free <;>
        simp [free_addrs_append, free_addrs_cons, hbf] at hq ⊢ <;> tauto
    rcases hq2 with hq2 | hq2
    · rw [hq2]
      exact insert_free_block_mem_new _ _ hfull
    · exact insert_free_block_mem_old _ _ _ (hc0 q hq2)
  · rw [split_block_no_split s l1 l2 b a hl h1 (by omega) (by omega)]
    exact hc0

end MyMalloc

namespace MyMalloc

theorem set_requested_well_formed (s : State) (l1 l2 : List block_meta_t) (b : block_meta_t)
    (n : Nat) (hwf : well_formed s) (hl : s.blocks = l1 ++ b :: l2) :
    well_formed { s with blocks := l1 ++ { b with requested_size := n } :: l2 } := by
  obtain ⟨hi, hpart, hnd, hsound⟩ := hwf
  have hpp := hpart.2
  rw [hl] at hpp
  refine ⟨hi, ⟨by simp, partition_from_replace _ _ l1 l2 b _ hpp rfl rfl⟩, hnd, ?_⟩
  intro q hq
  have := hsound q hq
  rw [hl] at this
  simpa [free_addrs_append, free_addrs_cons] using this

theorem realloc_index_complete (os : sbrk_t) (s : State) (p n : Nat) (hwf : well_formed s)
    (hp : p = 0 ∨ granted s p) (hc : diag.heap_full ∉ s.stderr → index_complete s)
    (r : Nat × State) (hr : realloc os s p n = some r)
    (hfull : diag.heap_full ∉ r.2.stderr) : index_complete r.2 := by
  rcases hp with rfl | hp
  · simp only [realloc, if_true, Option.some.injEq] at hr
    rw [← hr] at hfull ⊢
    exact malloc_index_complete os s n hwf hc hfull
  by_cases hn : n = 0
  · subst hn
    have hp0 : p ≠ 0 := by
      obtain ⟨b, _, _, e⟩ := hp
      have hM := META_SIZE_eq
      omega
    simp only [realloc, if_neg hp0, if_true, Option.some.injEq] at hr
    rw [← hr] at hfull ⊢
    exact free_index_complete s p hwf (Or.inr hp) hc hfull
  obtain ⟨l1, b, l2, hl, hu, rfl⟩ := granted_listed s p hp
  have hb : b ∈ s.blocks := by rw [hl]; simp
  by_cases hle : n ≤ b.size
  · rw [realloc_in_place os s n hn l1 l2 b hwf hl hle, Option.some.injEq] at hr
    rw [← hr] at hfull ⊢
    refine split_block_index_complete _ l1 l2 { b with requested_size := n } n
      (set_requested_well_formed s l1 l2 b n hwf hl) rfl hle ?_ hfull
    intro hf q hq
    refine hc hf q ?_
    rw [hl]
    simpa [free_addrs_append, free_addrs_cons] using hq
  · rw [realloc_move os s n hn b hwf hb hu (by omega)] at hr
    split at hr
    · rw [Option.some.injEq] at hr
      rw [← hr] at hfull ⊢
      exact malloc_index_complete os s n hwf hc hfull
    · split at hr
      · exact absurd hr (by simp)
      · rw [Option.some.injEq] at hr
        rw [← hr] at hfull ⊢
        refine free_index_complete _ _ (well_formed_bytes _ _ (malloc_well_formed os s n hwf))
          (Or.inr (granted_bytes _ _ _ (malloc_granted os s n hwf _ ⟨b, hb, hu, rfl⟩))) ?_ hfull
        intro hf
        exact malloc_index_complete os s n hwf hc hf

theorem step_index_complete (os : sbrk_t) (s t : State) (c : call) (hwf : well_formed s)
    (hv : valid_call s c) (hst : step os s c = some t)
    (hc : diag.heap_full ∉ s.stderr → index_complete s)
    (hfull : diag.heap_full ∉ t.stderr) : index_complete t := by
  cases c with
  | malloc n =>
    simp only [step, Option.some.injEq] at hst
    rw [← hst] at hfull ⊢
    exact malloc_index_complete os s n hwf hc hfull
  | free p =>
    simp only [step, Option.some.injEq] at hst
    rw [← hst] at hfull ⊢
    exact free_index_complete s p hwf hv hc hfull
  | realloc p n =>
    simp only [step, Option.map_eq_some'] at hst
    obtain ⟨r, hr, e⟩ := hst
    rw [← e] at hfull ⊢
    exact realloc_index_complete os s p n hwf hv hc r hr hfull

theorem reachable_index_complete (os : sbrk_t) (adm : call → Bool) (s0 s : State)
    (h0 : well_formed s0) (hc0 : index_complete s0) (h : reachable os adm s0 s) :
    diag.heap_full ∉ s.stderr → index_complete s := by
  induction h with
  | start => exact fun _ => hc0
  | next c hreach _ hv hst ih =>
    exact step_index_complete os _ _ c (reachable_well_formed os adm s0 _ h0 hreach) hv hst ih

theorem free_addrs_nodup (stop : Nat) :
    ∀ (l : List block_meta_t) (a : Nat), partition_from stop a l → (free_addrs l).Nodup := by
  intro l
  induction l with
  | nil => intro a _; simp [free_addrs]
  | cons b rest ih =>
    intro a h
    obtain ⟨_, h2⟩ := h
    rw [free_addrs_cons]
    split
    · refine List.nodup_cons.2 ⟨?_, ih _ h2⟩
      intro hin
      obtain ⟨x, hx, e⟩ := free_addrs_subset_addrs rest _ hin
      have := (partition_from_bounds stop rest _ h2).2 x hx
      have hM := META_SIZE_eq
      omega
    · exact ih _ h2

/-- C2 (as amended). In every state reachable from the freshly initialised heap
by `malloc`/`free`/`realloc` calls in which every pointer passed to `free` or
`realloc` is null or currently granted and every `realloc` size is at most
`2^64 - 8`, and during which `insert_free_block` never reported a full index,
the entries `free_heap.blocks[0..size)` are a permutation of the addresses of
the listed blocks with `is_free == 1`: exactly these blocks, each one once. -/
theorem index_membership_invariant (os : sbrk_t) (hs : Nat) (bytes : Nat → Nat) (s : State)
    (h : reachable os realloc_bounded (fresh_heap hs bytes) s)
    (hfull : diag.heap_full ∉ s.stderr) : index_exact s := by
  have hwf := reachable_well_formed os _ _ s (fresh_heap_well_formed hs bytes) h
  have hc := reachable_index_complete os _ _ s (fresh_heap_well_formed hs bytes)
    (by
      intro q hq
      simpa [fresh_heap, free_addrs] using hq) h hfull
  unfold index_exact
  rw [List.perm_ext_iff_of_nodup hwf.2.2.1 (free_addrs_nodup _ _ _ hwf.2.1.2)]
  intro q
  exact ⟨hwf.2.2.2 q, hc q⟩

/-- C2, witness: the five calls of `partition_calls` on the fresh heap at 4096. -/
theorem index_membership_invariant_witness :
    reachable sbrk_ok realloc_bounded (fresh_heap 4096 zero_bytes)
      (exec sbrk_ok (fresh_heap 4096 zero_bytes) partition_calls) ∧
    diag.heap_full ∉ (exec sbrk_ok (fresh_heap 4096 zero_bytes) partition_calls).stderr ∧
    index_exact (exec sbrk_ok (fresh_heap 4096 zero_bytes) partition_calls) :=
  ⟨exec_reachable _ _ _ _ _ reachable.start (by decide), by decide,
    index_membership_invariant sbrk_ok 4096 zero_bytes _
      (exec_reachable _ _ _ _ _ reachable.start (by decide)) (by decide)⟩

/-- C2 (counterexample). After `malloc(100)` on the fresh heap nothing has been
reported on `stderr`, and `realloc(4128, 2^64 - 1)` is a call with a granted
pointer, whose block has 104 bytes. Its inner `malloc` rounds the size to 0 and
returns 4264, the address of the header of the block that is the only entry of
the free index; `memcpy` then copies the 104 bytes of the old block, which are
all 0, over that header, so its `is_free` becomes 0 and its `next` stays `NULL`
(`after_malloc_100_overrun`). The `free(4128)` that ends the call inserts 4096
and merges nothing: the index holds 4264 and 4096, nothing was reported on
`stderr`, but the only free block of the list is the one at 4096. -/
theorem realloc_overrun_index_counterexample :
    reachable sbrk_ok any_call (fresh_heap 4096 zero_bytes) after_malloc_100 ∧
    valid_call after_malloc_100 (call.realloc 4128 (2 ^ 64 - 1)) ∧
    block_size after_malloc_100.blocks (get_block_meta 4128) = 104 ∧
    (malloc sbrk_ok after_malloc_100 (2 ^ 64 - 1)).1 = 4264 ∧
    (malloc sbrk_ok after_malloc_100 (2 ^ 64 - 1)).2.blocks =
      [⟨4096, 104, 100, false⟩, ⟨4232, 0, 2 ^ 64 - 1, false⟩, ⟨4264, 1052472, 0, true⟩] ∧
    (malloc sbrk_ok after_malloc_100 (2 ^ 64 - 1)).2.free_heap.blocks = [4264] ∧
    le64 after_malloc_100.bytes 4152 = 0 ∧
    after_malloc_100_overrun.blocks =
      [⟨4096, 104, 100, false⟩, ⟨4232, 0, 2 ^ 64 - 1, false⟩, ⟨4264, 0, 0, false⟩] ∧
    (free after_malloc_100_overrun 4128).blocks =
      [⟨4096, 104, 0, true⟩, ⟨4232, 0, 2 ^ 64 - 1, false⟩, ⟨4264, 0, 0, false⟩] ∧
    (free after_malloc_100_overrun 4128).free_heap.blocks = [4264, 4096] ∧
    (free after_malloc_100_overrun 4128).stderr = [] ∧
    free_addrs (free after_malloc_100_overrun 4128).blocks = [4096] ∧
    ¬ index_exact (free after_malloc_100_overrun 4128) := by
  have h1 : (free after_malloc_100_overrun 4128).free_heap.blocks = [4264, 4096] := by decide
  have h2 : free_addrs (free after_malloc_100_overrun 4128).blocks = [4096] := by decide
  refine ⟨exec_reachable _ _ _ _ _ reachable.start (by decide), by decide, by decide,
    by decide, by decide, by decide, by decide, by decide, by decide, h1, by decide, h2, ?_⟩
  intro h
  have hlen := List.Perm.length_eq h
  rw [h1, h2] at hlen
  exact absurd hlen (by decide)

end MyMalloc

namespace MyMalloc

/-! ## C5: everything freed -/

theorem no_adjacent_free_iff : ∀ l : List block_meta_t,
    no_adjacent_free l ↔
      List.Chain' (fun b c : block_meta_t => ¬ (b.is_free = true ∧ c.is_free = true)) l
  | [] => by simp [no_adjacent_free]
  | [_] => by simp [no_adjacent_free]
  | b :: c :: rest => by
    rw [no_adjacent_free, List.chain'_cons, no_adjacent_free_iff (c :: rest)]

theorem chain_mark_used (l1 l2 : List block_meta_t) (b c : block_meta_t)
    (h : List.Chain' (fun b c : block_meta_t => ¬ (b.is_free = true ∧ c.is_free = true))
      (l1 ++ b :: l2))
    (hc : c.is_free = false) :
    List.Chain' (fun b c : block_meta_t => ¬ (b.is_free = true ∧ c.is_free = true))
      (l1 ++ c :: l2) := by
  rw [List.chain'_append] at h ⊢
  obtain ⟨h1, h2, _⟩ := h
  rw [List.chain'_cons'] at h2 ⊢
  refine ⟨h1, ⟨?_, h2.2⟩, ?_⟩
  · intro y _
    simp [hc]
  · intro x _ y hy
    simp only [List.head?_cons, Option.mem_def, Option.some.injEq] at hy
    subst hy
    simp [hc]

theorem chain_carve (l1 l2 : List block_meta_t) (b c nb : block_meta_t)
    (h : List.Chain' (fun b c : block_meta_t => ¬ (b.is_free = true ∧ c.is_free = true))
      (l1 ++ b :: l2))
    (hb : b.is_free = true) (hc : c.is_free = false) :
    List.Chain' (fun b c : block_meta_t => ¬ (b.is_free = true ∧ c.is_free = true))
      (l1 ++ c :: nb :: l2) := by
  rw [List.chain'_append] at h ⊢
  obtain ⟨h1, h2, _⟩ := h
  rw [List.chain'_cons'] at h2
  refine ⟨h1, ?_, ?_⟩
  · rw [List.chain'_cons, List.chain'_cons']
    refine ⟨by simp [hc], ?_, h2.2⟩
    intro y hy
    have := h2.1 y hy
    simp only [hb, true_and] at this
    simp [this]
  · intro x _ y hy
    simp only [List.head?_cons, Option.mem_def, Option.some.injEq] at hy
    subst hy
    simp [hc]

theorem chain_same_flag (l1 : List block_meta_t) (b c : block_meta_t)
    (h : List.Chain' (fun b c : block_meta_t => ¬ (b.is_free = true ∧ c.is_free = true))
      (l1 ++ [b]))
    (hc : c.is_free = b.is_free) :
    List.Chain' (fun b c : block_meta_t => ¬ (b.is_free = true ∧ c.is_free = true))
      (l1 ++ [c]) := by
  rw [List.chain'_append] at h ⊢
  obtain ⟨h1, _, h3⟩ := h
  refine ⟨h1, List.chain'_singleton _, ?_⟩
  intro x hx y hy
  simp only [List.head?_cons, Option.mem_def, Option.some.injEq] at hy
  subst hy
  rw [hc]
  exact h3 x hx b (by simp)

theorem malloc_no_adjacent_free (os : sbrk_t) (s : State) (n : Nat) (hwf : well_formed s)
    (hnaf : no_adjacent_free s.blocks) : no_adjacent_free (malloc os s n).2.blocks := by
  by_cases hn : n = 0
  · subst hn
    rw [malloc_of_zero]
    exact hnaf
  rcases malloc_shape os s n hn hwf with ⟨_, h⟩ | ⟨l1, b, l2, hl, hfree, _, _, _, hcase⟩
  · rw [h]
    exact hnaf
  rw [no_adjacent_free_iff, hl] at hnaf
  rw [no_adjacent_free_iff]
  rcases hcase with ⟨_, hst⟩ | ⟨_, hst⟩
  · rw [hst]
    exact chain_mark_used l1 l2 b _ hnaf rfl
  · rw [hst]
    exact chain_carve l1 l2 b _ _ hnaf hfree rfl

theorem malloc_single_indexed (os : sbrk_t) (s : State) (n : Nat) (hwf : well_formed s)
    (hg : single_indexed s) : single_indexed (malloc os s n).2 := by
  by_cases hn : n = 0
  · subst hn
    rw [malloc_of_zero]
    exact hg
  rcases malloc_shape os s n hn hwf with ⟨_, h⟩ | ⟨l1, b, l2, hl, hfree, _, _, _, hcase⟩
  · rw [h]
    exact hg
  rcases hcase with ⟨_, hst⟩ | ⟨_, hst⟩
  · rw [hst]
    intro x hx hxf
    simp only at hx
    have hmem : ({ b with is_free := false, requested_size := n } : block_meta_t) ∈ [x] := by
      rw [← hx]
      simp
    rw [List.mem_singleton] at hmem
    rw [← hmem] at hxf
    exact absurd hxf (by simp)
  · rw [hst]
    intro x hx _
    simp only at hx
    have := congrArg List.length hx
    simp only [List.length_append, List.length_cons, List.length_nil] at this
    omega

end MyMalloc

namespace MyMalloc

theorem append_cons_eq_singleton (l1 l2 : List block_meta_t) (y x : block_meta_t)
    (h : l1 ++ y :: l2 = [x]) : l1 = [] ∧ l2 = [] ∧ y = x := by
  have hlen := congrArg List.length h
  simp only [List.length_append, List.length_cons, List.length_nil] at hlen
  have h1 : l1 = [] := List.eq_nil_of_length_eq_zero (by omega)
  have h2 : l2 = [] := List.eq_nil_of_length_eq_zero (by omega)
  subst h1 h2
  simp only [List.nil_append, List.cons.injEq, and_true] at h
  exact ⟨rfl, rfl, h⟩

theorem index_empty_of_no_free (s : State) (hwf : well_formed s)
    (h : ∀ b ∈ s.blocks, b.is_free = false) : s.free_heap.blocks = [] := by
  rw [List.eq_nil_iff_forall_not_mem]
  intro q hq
  obtain ⟨b, hb, hf, _⟩ := (mem_free_addrs _ _).1 (hwf.2.2.2 q hq)
  rw [h b hb] at hf
  exact absurd hf (by simp)

theorem mark_free_single_indexed (s : State) (l1 l2 : List block_meta_t) (b : block_meta_t)
    (hwf : well_formed s) (hl : s.blocks = l1 ++ b :: l2) (hused : b.is_free = false) :
    single_indexed (insert_free_block
      { s with blocks := l1 ++ { b with is_free := true, requested_size := 0 } :: l2 }
      b.addr) := by
  intro x hx _
  simp only [insert_free_block_blocks] at hx
  obtain ⟨h1, h2, h3⟩ := append_cons_eq_singleton _ _ _ _ hx
  subst h1 h2
  have hidx : s.free_heap.blocks = [] := by
    refine index_empty_of_no_free s hwf ?_
    intro c hc
    rw [hl] at hc
    simp only [List.nil_append, List.mem_singleton] at hc
    rw [hc]
    exact hused
  have := (insert_free_block_index
    { s with blocks := [] ++ [{ b with is_free := true, requested_size := 0 }] } b.addr
    (by simp [free_block_heap_t.size, hidx, MAX_FREE_BLOCKS])).1
  rw [← h3]
  exact (List.Perm.mem_iff this).2 (List.mem_cons_self _ _)

theorem merge_step_single_indexed (s : State) (pre : List block_meta_t)
    (cur nxt : block_meta_t) (rest : List block_meta_t) (hwf : well_formed s)
    (hl : s.blocks = pre.reverse ++ cur :: nxt :: rest) :
    single_indexed (merge_step s pre cur nxt rest) := by
  obtain ⟨hi, hpart, hnd, hsound⟩ := hwf
  obtain ⟨hnd1, hmem1⟩ := remove_free_block_index s cur.addr hnd
  obtain ⟨hnd2, hmem2⟩ := remove_free_block_index (remove_free_block s cur.addr) nxt.addr hnd1
  intro x hx _
  unfold merge_step at hx ⊢
  simp only [insert_free_block_blocks] at hx
  obtain ⟨h1, h2, h3⟩ := append_cons_eq_singleton _ _ _ _ hx
  subst h2
  rw [h1] at hl
  have hidx : (remove_free_block (remove_free_block s cur.addr) nxt.addr).free_heap.blocks
      = [] := by
    rw [List.eq_nil_iff_forall_not_mem]
    intro q hq
    have hq2 := (hmem2 q).1 hq
    have hq1 := (hmem1 q).1 hq2.1
    have hq0 := hsound q hq1.1
    rw [hl] at hq0
    obtain ⟨y, hy, _, e⟩ := (mem_free_addrs _ _).1 hq0
    simp only [List.nil_append, List.mem_cons, List.mem_singleton, List.not_mem_nil,
      or_false] at hy
    rcases hy with hy | hy
    · exact hq1.2 (by rw [← e, hy])
    · exact hq2.2 (by rw [← e, hy])
  have := (insert_free_block_index
    { remove_free_block (remove_free_block s cur.addr) nxt.addr with
      blocks := pre.reverse ++ merged_block cur nxt :: [] } cur.addr
    (by simp [free_block_heap_t.size, hidx, MAX_FREE_BLOCKS])).1
  rw [← h3]
  exact (List.Perm.mem_iff this).2 (List.mem_cons_self _ _)

theorem coalesce_all_freed_ready (s : State) (hwf : well_formed s) (hg : single_indexed s) :
    well_formed (coalesce s) ∧ no_adjacent_free (coalesce s).blocks ∧
      single_indexed (coalesce s) := by
  cases hl : s.blocks with
  | nil =>
    have := hwf.2.1.1
    exact absurd hl this
  | cons cur rest =>
    have e : coalesce s = coalesce_loop s [] cur rest := by simp [coalesce, hl]
    rw [e]
    have := coalesce_loop_rule
      (fun s pre cur rest => well_formed s ∧ s.blocks = pre.reverse ++ cur :: rest ∧
        List.Chain' (fun b c : block_meta_t => ¬ (b.is_free = true ∧ c.is_free = true))
          (pre.reverse ++ [cur]) ∧
        single_indexed s)
      (by
        intro s pre cur nxt rest h hfree _ _
        obtain ⟨h1, h2⟩ := merge_step_well_formed s pre cur nxt rest h.1 h.2.1 hfree
        exact ⟨h1, h2, chain_same_flag _ cur _ h.2.2.1 rfl,
          merge_step_single_indexed s pre cur nxt rest h.1 h.2.1⟩)
      (by
        intro s pre cur nxt rest h hno
        refine ⟨h.1, by rw [h.2.1]; simp, ?_, h.2.2.2⟩
        have hp := h.1.2.1.2
        rw [h.2.1, partition_from_append] at hp
        obtain ⟨_, _, _, hadj, _⟩ := hp
        have hr : ¬ (cur.is_free = true ∧ nxt.is_free = true) :=
          fun hc => hno ⟨hc.1, hc.2, hadj.symm⟩
        have e2 : (cur :: pre).reverse ++ [nxt] = pre.reverse ++ cur :: [nxt] := by simp
        rw [e2, List.chain'_split, List.chain'_pair]
        exact ⟨h.2.2.1, hr⟩)
      rest s [] cur ⟨hwf, by simpa using hl, by simp, hg⟩
    obtain ⟨pre2, cur2, h1, h2, h3, h4⟩ := this
    refine ⟨h1, ?_, h4⟩
    rw [no_adjacent_free_iff, h2]
    exact h3

theorem free_all_freed_ready (s : State) (p : Nat) (hwf : well_formed s)
    (hnaf : no_adjacent_free s.blocks) (hg : single_indexed s) (hp : p = 0 ∨ granted s p) :
    no_adjacent_free (free s p).blocks ∧ single_indexed (free s p) := by
  rcases hp with rfl | hp
  · have e : free s 0 = s := by simp [free]
    rw [e]
    exact ⟨hnaf, hg⟩
  · obtain ⟨l1, b, l2, hl, hused, rfl⟩ := granted_listed s p hp
    rw [free_shape s l1 l2 b hwf.2.1 hl]
    exact (coalesce_all_freed_ready _ (mark_free_well_formed s l1 l2 b hwf hl hused)
      (mark_free_single_indexed s l1 l2 b hwf hl hused)).2

end MyMalloc

namespace MyMalloc

theorem merge_step_heap_start (s : State) (pre : List block_meta_t) (cur nxt : block_meta_t)
    (rest : List block_meta_t) : (merge_step s pre cur nxt rest).heap_start = s.heap_start := by
  simp [merge_step]

theorem coalesce_loop_heap_start :
    ∀ (rest : List block_meta_t) (s : State) (pre : List block_meta_t) (cur : block_meta_t),
      (coalesce_loop s pre cur rest).heap_start = s.heap_start := by
  intro rest
  induction rest with
  | nil => intro s pre cur; rfl
  | cons nxt rest ih =>
    intro s pre cur
    simp only [coalesce_loop]
    split
    · split
      · rw [ih, merge_step_heap_start]
      · rw [ih]
    · rw [ih]

theorem coalesce_heap_start (s : State) : (coalesce s).heap_start = s.heap_start := by
  unfold coalesce
  split
  · rfl
  · exact coalesce_loop_heap_start _ _ _ _

theorem free_heap_start (s : State) (p : Nat) : (free s p).heap_start = s.heap_start := by
  simp only [free]
  split_ifs
  · rfl
  · rfl
  · rw [coalesce_heap_start, insert_free_block_heap_start]

theorem split_block_heap_start (s : State) (p a : Nat) :
    (split_block s p a).heap_start = s.heap_start := by
  unfold split_block
  split
  · rfl
  · split
    · rw [insert_free_block_heap_start]
    · rfl

theorem malloc_heap_start (os : sbrk_t) (s : State) (n : Nat) (hi : s.is_initialized = true) :
    (malloc os s n).2.heap_start = s.heap_start := by
  by_cases hn : n = 0
  · subst hn
    rw [malloc_of_zero]
  · cases hf : (find_free_block s (align8 n)).1 with
    | none => rw [malloc_none os s n hn hi hf, find_free_block_heap_start]
    | some b =>
      rw [malloc_some os s n b hn hi hf]
      simp only [split_block_heap_start, find_free_block_heap_start]

theorem reachable_all_freed_ready (os : sbrk_t) (hs : Nat) (bytes : Nat → Nat) (s : State)
    (h : reachable os no_realloc (fresh_heap hs bytes) s) :
    well_formed s ∧ s.heap_start = hs ∧ no_adjacent_free s.blocks ∧ single_indexed s := by
  induction h with
  | start =>
    refine ⟨fresh_heap_well_formed hs bytes, rfl, by simp [fresh_heap, no_adjacent_free], ?_⟩
    intro b hb _
    simp only [fresh_heap, List.cons.injEq, and_true] at hb
    simp [fresh_heap, ← hb]
  | next c hreach hadm hv hst ih =>
    obtain ⟨hwf, hhs, hnaf, hg⟩ := ih
    cases c with
    | malloc n =>
      simp only [step, Option.some.injEq] at hst
      rw [← hst]
      exact ⟨malloc_well_formed os _ n hwf, by rw [malloc_heap_start os _ n hwf.1, hhs],
        malloc_no_adjacent_free os _ n hwf hnaf, malloc_single_indexed os _ n hwf hg⟩
    | free p =>
      simp only [step, Option.some.injEq] at hst
      rw [← hst]
      exact ⟨free_well_formed _ p hwf hv, by rw [free_heap_start, hhs],
        free_all_freed_ready _ p hwf hnaf hg hv⟩
    | realloc p n => simp [no_realloc] at hadm

theorem no_used_block_single_block (os : sbrk_t) (hs : Nat) (bytes : Nat → Nat) (s : State)
    (h : reachable os no_realloc (fresh_heap hs bytes) s) (hall : all_freed s) :
    ∃ b, s.blocks = [b] ∧ b.addr = hs ∧ b.is_free = true ∧
      b.size = HEAP_SIZE - META_SIZE ∧ s.free_heap.blocks = [b.addr] ∧
      s.free_heap.size = 1 := by
  obtain ⟨hwf, hhs, hnaf, hg⟩ := reachable_all_freed_ready os hs bytes s h
  obtain ⟨_, ⟨hne, hpart⟩, hnd, hsound⟩ := hwf
  have hM := META_SIZE_eq
  have hH := HEAP_SIZE_eq
  match hl : s.blocks with
  | [] => exact absurd hl hne
  | b :: c :: rest =>
    rw [hl] at hnaf
    have hb := hall b (by rw [hl]; simp)
    have hc := hall c (by rw [hl]; simp)
    exact absurd ⟨hb, hc⟩ hnaf.1
  | [b] =>
    have hb := hall b (by rw [hl]; simp)
    rw [hl] at hpart
    simp only [partition_from] at hpart
    have hin := hg b hl hb
    have hidx : s.free_heap.blocks = [b.addr] := by
      have hall2 : ∀ q ∈ s.free_heap.blocks, q = b.addr := by
        intro q hq
        have := hsound q hq
        rw [hl] at this
        simpa [free_addrs, hb] using this
      cases hx : s.free_heap.blocks with
      | nil =>
        rw [hx] at hin
        exact absurd hin (by simp)
      | cons x xs =>
        rw [hx] at hall2 hnd
        have hx1 := hall2 x (by simp)
        cases xs with
        | nil => rw [hx1]
        | cons y ys =>
          have hy1 := hall2 y (by simp)
          rw [hx1, hy1] at hnd
          simp at hnd
    refine ⟨b, rfl, by omega, hb, by omega, hidx, ?_⟩
    simp [free_block_heap_t.size, hidx]

end MyMalloc

namespace MyMalloc

/-! ## C6: freeing two neighbours -/

theorem insert_free_block_bounded (s : State) (p : Nat)
    (h : s.free_heap.blocks.length ≤ MAX_FREE_BLOCKS) :
    (insert_free_block s p).free_heap.blocks.length ≤ MAX_FREE_BLOCKS := by
  rcases insert_free_block_cases s p with ⟨h1, _, h3⟩ | ⟨h1, _, _⟩
  · rw [List.Perm.length_eq h1]
    simp only [List.length_cons]
    omega
  · rw [h1]
    exact h

theorem remove_free_block_length (s : State) (p : Nat) :
    (remove_free_block s p).free_heap.blocks.length ≤ s.free_heap.blocks.length ∧
      (p ∈ s.free_heap.blocks →
        (remove_free_block s p).free_heap.blocks.length + 1 = s.free_heap.blocks.length) := by
  by_cases hp : p ∈ s.free_heap.blocks
  · have := List.Perm.length_eq (remove_free_block_mem s p hp)
    simp only [List.length_cons] at this
    exact ⟨by omega, fun _ => this.symm⟩
  · rw [remove_free_block_not_mem s p hp]
    exact ⟨le_refl _, fun h => absurd h hp⟩

theorem merge_step_bounded (s : State) (pre : List block_meta_t) (cur nxt : block_meta_t)
    (rest : List block_meta_t) (h : s.free_heap.blocks.length ≤ MAX_FREE_BLOCKS) :
    (merge_step s pre cur nxt rest).free_heap.blocks.length ≤ MAX_FREE_BLOCKS := by
  unfold merge_step
  refine insert_free_block_bounded _ _ ?_
  have h1 := (remove_free_block_length s cur.addr).1
  have h2 := (remove_free_block_length (remove_free_block s cur.addr) nxt.addr).1
  simp only
  omega

theorem merge_step_index_frame (s : State) (pre : List block_meta_t) (cur nxt : block_meta_t)
    (rest : List block_meta_t) (hnd : s.free_heap.blocks.Nodup) (q : Nat)
    (h1 : q ≠ cur.addr) (h2 : q ≠ nxt.addr) :
    q ∈ (merge_step s pre cur nxt rest).free_heap.blocks ↔ q ∈ s.free_heap.blocks := by
  obtain ⟨hnd1, hmem1⟩ := remove_free_block_index s cur.addr hnd
  obtain ⟨_, hmem2⟩ := remove_free_block_index (remove_free_block s cur.addr) nxt.addr hnd1
  unfold merge_step
  constructor
  · intro hq
    rcases insert_free_block_mem _ _ _ hq with h | h
    · exact absurd h h1
    · exact ((hmem1 q).1 ((hmem2 q).1 h).1).1
  · intro hq
    exact insert_free_block_mem_old _ _ _ ((hmem2 q).2 ⟨(hmem1 q).2 ⟨hq, h1⟩, h2⟩)

theorem merge_step_inserts (s : State) (pre : List block_meta_t) (cur nxt : block_meta_t)
    (rest : List block_meta_t) (hb : s.free_heap.blocks.length ≤ MAX_FREE_BLOCKS)
    (hin : cur.addr ∈ s.free_heap.blocks ∨ nxt.addr ∈ s.free_heap.blocks) :
    cur.addr ∈ (merge_step s pre cur nxt rest).free_heap.blocks := by
  have l1 := remove_free_block_length s cur.addr
  have l2 := remove_free_block_length (remove_free_block s cur.addr) nxt.addr
  have hlt : (remove_free_block (remove_free_block s cur.addr) nxt.addr).free_heap.blocks.length
      < MAX_FREE_BLOCKS := by
    rcases hin with h | h
    · have := l1.2 h
      omega
    · by_cases hc : cur.addr ∈ s.free_heap.blocks
      · have := l1.2 hc
        omega
      · rw [remove_free_block_not_mem s cur.addr hc] at l2 ⊢
        have := l2.2 h
        omega
  unfold merge_step
  have := (insert_free_block_index
    { remove_free_block (remove_free_block s cur.addr) nxt.addr with
      blocks := pre.reverse ++ merged_block cur nxt :: rest } cur.addr hlt).1
  exact (List.Perm.mem_iff this).2 (List.mem_cons_self _ _)

end MyMalloc

namespace MyMalloc

theorem head_snoc_same (mid : List block_meta_t) (c d : block_meta_t) (a : Nat) (f : Bool)
    (hd : d.addr = c.addr) (hf : d.is_free = c.is_free)
    (h : ∃ y, (mid ++ [c]).head? = some y ∧ y.addr = a ∧ y.is_free = f) :
    ∃ y, (mid ++ [d]).head? = some y ∧ y.addr = a ∧ y.is_free = f := by
  cases mid with
  | nil =>
    obtain ⟨y, hy, h1, h2⟩ := h
    simp only [List.nil_append, List.head?_cons, Option.some.injEq] at hy
    subst hy
    exact ⟨d, rfl, by rw [hd, h1], by rw [hf, h2]⟩
  | cons x xs => exact h

theorem head_snoc_more (mid : List block_meta_t) (c d : block_meta_t) (a : Nat) (f : Bool)
    (h : ∃ y, (mid ++ [c]).head? = some y ∧ y.addr = a ∧ y.is_free = f) :
    ∃ y, ((mid ++ [c]) ++ [d]).head? = some y ∧ y.addr = a ∧ y.is_free = f := by
  cases mid with
  | nil => exact h
  | cons x xs => exact h

theorem coalesce_loop_suffix (s0 : State) (pre0 : List block_meta_t) (cur0 : block_meta_t)
    (rest0 : List block_meta_t) (h : cursor_at s0 pre0 cur0 rest0) :
    ∃ out, well_formed (coalesce_loop s0 pre0 cur0 rest0) ∧
      (coalesce_loop s0 pre0 cur0 rest0).free_heap.blocks.length ≤ MAX_FREE_BLOCKS ∧
      (coalesce_loop s0 pre0 cur0 rest0).blocks = pre0.reverse ++ out ∧
      (∃ y, out.head? = some y ∧ y.addr = cur0.addr ∧ y.is_free = cur0.is_free) ∧
      (∀ q, (∀ x ∈ cur0 :: rest0, x.addr ≠ q) →
        (q ∈ (coalesce_loop s0 pre0 cur0 rest0).free_heap.blocks ↔
          q ∈ s0.free_heap.blocks)) := by
  have := coalesce_loop_rule
    (fun s pre cur rest => cursor_at s pre cur rest ∧
      (∃ mid, pre.reverse = pre0.reverse ++ mid ∧
        ∃ y, (mid ++ [cur]).head? = some y ∧ y.addr = cur0.addr ∧ y.is_free = cur0.is_free) ∧
      (∀ x ∈ cur :: rest, ∃ x0 ∈ cur0 :: rest0, x0.addr = x.addr) ∧
      (∀ q, (∀ x0 ∈ cur0 :: rest0, x0.addr ≠ q) →
        (q ∈ s.free_heap.blocks ↔ q ∈ s0.free_heap.blocks)))
    (by
      intro s pre cur nxt rest hI hfree _ _
      obtain ⟨⟨hwf, hb, hl⟩, ⟨mid, hmid, hhead⟩, haddr, hframe⟩ := hI
      obtain ⟨h1, h2⟩ := merge_step_well_formed s pre cur nxt rest hwf hl hfree
      refine ⟨⟨h1, merge_step_bounded s pre cur nxt rest hb, h2⟩,
        ⟨mid, hmid, head_snoc_same mid cur _ _ _ rfl rfl hhead⟩, ?_, ?_⟩
      · intro x hx
        rcases List.mem_cons.1 hx with hx | hx
        · rw [hx]
          exact haddr cur (by simp)
        · exact haddr x (by simp [hx])
      · intro q hq
        obtain ⟨c0, hc0, ec⟩ := haddr cur (by simp)
        obtain ⟨n0, hn0, en⟩ := haddr nxt (by simp)
        rw [merge_step_index_frame s pre cur nxt rest hwf.2.2.1 q
          (fun e => hq c0 hc0 (by rw [ec, e])) (fun e => hq n0 hn0 (by rw [en, e]))]
        exact hframe q hq)
    (by
      intro s pre cur nxt rest hI _
      obtain ⟨⟨hwf, hb, hl⟩, ⟨mid, hmid, hhead⟩, haddr, hframe⟩ := hI
      refine ⟨⟨hwf, hb, by rw [hl]; simp⟩, ⟨mid ++ [cur], ?_, head_snoc_more mid cur nxt _ _ hhead⟩,
        ?_, hframe⟩
      · simp [hmid]
      · intro x hx
        exact haddr x (List.mem_cons_of_mem _ hx))
    rest0 s0 pre0 cur0
    ⟨h, ⟨[], by simp, cur0, rfl, rfl, rfl⟩, fun x hx => ⟨x, hx, rfl⟩, fun _ _ => Iff.rfl⟩
  obtain ⟨pre2, cur2, ⟨hwf, hb, hl⟩, ⟨mid, hmid, hhead⟩, _, hframe⟩ := this
  refine ⟨mid ++ [cur2], hwf, hb, ?_, hhead, hframe⟩
  rw [hl, hmid]
  simp

end MyMalloc

namespace MyMalloc

theorem coalesce_loop_skip (s : State) (pre : List block_meta_t) (cur nxt : block_meta_t)
    (rest : List block_meta_t) (h : ¬ (cur.is_free = true ∧ nxt.is_free = true)) :
    coalesce_loop s pre cur (nxt :: rest) = coalesce_loop s (cur :: pre) nxt rest := by
  simp only [coalesce_loop]
  rw [if_neg h]

theorem coalesce_loop_merge (s : State) (pre : List block_meta_t) (cur nxt : block_meta_t)
    (rest : List block_meta_t) (h : cur.is_free = true ∧ nxt.is_free = true)
    (hadj : cur.addr + META_SIZE + cur.size = nxt.addr) :
    coalesce_loop s pre cur (nxt :: rest) =
      coalesce_loop (merge_step s pre cur nxt rest) pre (merged_block cur nxt) rest := by
  simp only [coalesce_loop]
  rw [if_pos h, if_pos hadj]

theorem cursor_at_adjacent (s : State) (pre : List block_meta_t) (cur nxt : block_meta_t)
    (rest : List block_meta_t) (h : cursor_at s pre cur (nxt :: rest)) :
    cur.addr + META_SIZE + cur.size = nxt.addr := by
  have hp := h.1.2.1.2
  rw [h.2.2, partition_from_append] at hp
  obtain ⟨_, _, _, hadj, _⟩ := hp
  exact hadj.symm

theorem cursor_at_skip (s : State) (pre : List block_meta_t) (cur nxt : block_meta_t)
    (rest : List block_meta_t) (h : cursor_at s pre cur (nxt :: rest)) :
    cursor_at s (cur :: pre) nxt rest := by
  refine ⟨h.1, h.2.1, ?_⟩
  rw [h.2.2]
  simp

theorem cursor_at_merge (s : State) (pre : List block_meta_t) (cur nxt : block_meta_t)
    (rest : List block_meta_t) (h : cursor_at s pre cur (nxt :: rest))
    (hfree : cur.is_free = true) :
    cursor_at (merge_step s pre cur nxt rest) pre (merged_block cur nxt) rest := by
  obtain ⟨h1, h2⟩ := merge_step_well_formed s pre cur nxt rest h.1 h.2.2 hfree
  exact ⟨h1, merge_step_bounded s pre cur nxt rest h.2.1, h2⟩

theorem coalesce_loop_reach (u : block_meta_t) (tail : List block_meta_t)
    (hu : u.is_free = false) :
    ∀ (r1 : List block_meta_t) (s : State) (pre : List block_meta_t) (cur : block_meta_t),
      cursor_at s pre cur (r1 ++ u :: tail) →
      ∃ s2 pre2, coalesce_loop s pre cur (r1 ++ u :: tail) = coalesce_loop s2 pre2 u tail ∧
        cursor_at s2 pre2 u tail ∧ (∃ mid, pre2.reverse = pre.reverse ++ mid) ∧
        (∀ q, (∀ x ∈ cur :: r1, x.addr ≠ q) →
          (q ∈ s2.free_heap.blocks ↔ q ∈ s.free_heap.blocks)) := by
  intro r1
  induction r1 with
  | nil =>
    intro s pre cur h
    refine ⟨s, cur :: pre, ?_, cursor_at_skip s pre cur u tail h, ⟨[cur], by simp⟩,
      fun _ _ => Iff.rfl⟩
    exact coalesce_loop_skip s pre cur u tail (by simp [hu])
  | cons x r1 ih =>
    intro s pre cur h
    by_cases hfree : cur.is_free = true ∧ x.is_free = true
    · have hadj := cursor_at_adjacent s pre cur x (r1 ++ u :: tail) h
      obtain ⟨s2, pre2, e, hc, hmid, hframe⟩ := ih _ pre _
        (cursor_at_merge s pre cur x (r1 ++ u :: tail) h hfree.1)
      refine ⟨s2, pre2, ?_, hc, hmid, ?_⟩
      · rw [← e]
        exact coalesce_loop_merge s pre cur x (r1 ++ u :: tail) hfree hadj
      · intro q hq
        rw [hframe q (by
          intro y hy
          rcases List.mem_cons.1 hy with hy | hy
          · rw [hy]
            exact hq cur (by simp)
          · exact hq y (by simp [hy]))]
        exact merge_step_index_frame s pre cur x _ h.1.2.2.1 q
          (fun e2 => hq cur (by simp) e2.symm) (fun e2 => hq x (by simp) e2.symm)
    · obtain ⟨s2, pre2, e, hc, ⟨mid, hmid⟩, hframe⟩ := ih s (cur :: pre) x
        (cursor_at_skip s pre cur x (r1 ++ u :: tail) h)
      refine ⟨s2, pre2, ?_, hc, ⟨cur :: mid, by simp [hmid]⟩, ?_⟩
      · rw [← e]
        exact coalesce_loop_skip s pre cur x (r1 ++ u :: tail) hfree
      · intro q hq
        exact hframe q (fun y hy => hq y (List.mem_cons_of_mem _ hy))

end MyMalloc

namespace MyMalloc

theorem coalesce_reach_target (s : State) (l1 : List block_meta_t) (T : block_meta_t)
    (tail : List block_meta_t) (hwf : well_formed s)
    (hb : s.free_heap.blocks.length ≤ MAX_FREE_BLOCKS) (hl : s.blocks = l1 ++ T :: tail)
    (hlast : ∀ x ∈ l1.getLast?, x.is_free = false) :
    ∃ s2 pre2, coalesce s = coalesce_loop s2 pre2 T tail ∧ cursor_at s2 pre2 T tail ∧
      (∀ x ∈ pre2.head?, x.is_free = false) ∧
      (∀ q, (∀ x ∈ l1, x.addr ≠ q) → (q ∈ s2.free_heap.blocks ↔ q ∈ s.free_heap.blocks)) := by
  rcases List.eq_nil_or_concat l1 with h | ⟨l1a, u, h⟩
  · subst h
    refine ⟨s, [], ?_, ⟨hwf, hb, by simpa using hl⟩, by simp, fun _ _ => Iff.rfl⟩
    simp only [List.nil_append] at hl
    simp [coalesce, hl]
  · subst h
    have hu : u.is_free = false := hlast u (by simp)
    cases l1a with
    | nil =>
      have hl2 : s.blocks = u :: T :: tail := by simpa using hl
      refine ⟨s, [u], ?_, ⟨hwf, hb, by simpa using hl2⟩, by simpa using hu, fun _ _ => Iff.rfl⟩
      have e : coalesce s = coalesce_loop s [] u (T :: tail) := by simp [coalesce, hl2]
      rw [e]
      exact coalesce_loop_skip s [] u T tail (by simp [hu])
    | cons c r1 =>
      have hl2 : s.blocks = c :: (r1 ++ u :: (T :: tail)) := by simp [hl]
      have e : coalesce s = coalesce_loop s [] c (r1 ++ u :: (T :: tail)) := by
        simp [coalesce, hl2]
      obtain ⟨s2, pre2, e2, hc, _, hframe⟩ :=
        coalesce_loop_reach u (T :: tail) hu r1 s [] c ⟨hwf, hb, by simpa using hl2⟩
      refine ⟨s2, u :: pre2, ?_, cursor_at_skip s2 pre2 u T tail hc, by simpa using hu, ?_⟩
      · rw [e, e2]
        exact coalesce_loop_skip s2 pre2 u T tail (by simp [hu])
      · intro q hq
        exact hframe q (fun x hx => hq x (by
          rcases List.mem_cons.1 hx with hx | hx
          · simp [hx]
          · simp [hx]))

theorem coalesce_loop_used_next (s : State) (pre : List block_meta_t) (cur : block_meta_t)
    (l2 : List block_meta_t) (h : cursor_at s pre cur l2)
    (hnext : ∀ y ∈ l2.head?, y.is_free = false) :
    ∃ l3, (coalesce_loop s pre cur l2).blocks = pre.reverse ++ cur :: l3 ∧
      well_formed (coalesce_loop s pre cur l2) ∧
      (coalesce_loop s pre cur l2).free_heap.blocks.length ≤ MAX_FREE_BLOCKS ∧
      (∀ y ∈ l3.head?, y.is_free = false) ∧
      l3.head?.map (fun b => b.addr) = l2.head?.map (fun b => b.addr) ∧
      (∀ q, (∀ x ∈ l2, x.addr ≠ q) →
        (q ∈ (coalesce_loop s pre cur l2).free_heap.blocks ↔ q ∈ s.free_heap.blocks)) := by
  cases l2 with
  | nil =>
    exact ⟨[], h.2.2, h.1, h.2.1, by simp, rfl, fun _ _ => Iff.rfl⟩
  | cons y l2t =>
    have hy : y.is_free = false := hnext y (by simp)
    rw [coalesce_loop_skip s pre cur y l2t (by simp [hy])]
    obtain ⟨out, h1, h2, h3, ⟨z, hz, hza, hzf⟩, h5⟩ :=
      coalesce_loop_suffix s (cur :: pre) y l2t (cursor_at_skip s pre cur y l2t h)
    refine ⟨out, by simpa using h3, h1, h2, ?_, ?_, h5⟩
    · intro w hw
      rw [hz] at hw
      simp only [Option.mem_def, Option.some.injEq] at hw
      rw [← hw, hzf, hy]
    · rw [hz]
      simp [hza]

end MyMalloc

namespace MyMalloc

theorem coalesce_keeps_pair (s : State) (l1 l2 : List block_meta_t) (P Q : block_meta_t)
    (hwf : well_formed s) (hb : s.free_heap.blocks.length ≤ MAX_FREE_BLOCKS)
    (hl : s.blocks = l1 ++ P :: Q :: l2)
    (hpq : ¬ (P.is_free = true ∧ Q.is_free = true))
    (hprev : ∀ x ∈ l1.getLast?, x.is_free = false)
    (hnext : ∀ y ∈ l2.head?, y.is_free = false) :
    ∃ l3 l4, (coalesce s).blocks = l3 ++ P :: Q :: l4 ∧ well_formed (coalesce s) ∧
      (coalesce s).free_heap.blocks.length ≤ MAX_FREE_BLOCKS ∧
      (∀ x ∈ l3.getLast?, x.is_free = false) ∧ (∀ y ∈ l4.head?, y.is_free = false) ∧
      l4.head?.map (fun b => b.addr) = l2.head?.map (fun b => b.addr) ∧
      (∀ q, q = P.addr ∨ q = Q.addr →
        (q ∈ (coalesce s).free_heap.blocks ↔ q ∈ s.free_heap.blocks)) := by
  obtain ⟨hP1, hP2, _, _⟩ := partitioned_split_bounds s hwf.2.1 l1 (Q :: l2) P hl
  have hlq : s.blocks = (l1 ++ [P]) ++ Q :: l2 := by simp [hl]
  obtain ⟨hQ1, hQ2, _, _⟩ := partitioned_split_bounds s hwf.2.1 (l1 ++ [P]) l2 Q hlq
  obtain ⟨s2, pre2, e, hc, hhead, hframe⟩ :=
    coalesce_reach_target s l1 P (Q :: l2) hwf hb hl hprev
  rw [e, coalesce_loop_skip s2 pre2 P Q l2 hpq]
  obtain ⟨l4, h1, h2, h3, h4, h5, h6⟩ :=
    coalesce_loop_used_next s2 (P :: pre2) Q l2 (cursor_at_skip s2 pre2 P Q l2 hc) hnext
  refine ⟨pre2.reverse, l4, by simpa using h1, h2, h3, ?_, h4, h5, ?_⟩
  · intro x hx
    rw [List.getLast?_reverse] at hx
    exact hhead x hx
  · intro q hq
    have hq1 : ∀ x ∈ l1, x.addr ≠ q := by
      intro x hx
      rcases hq with hq | hq
      · rw [hq]
        exact hP1 x hx
      · rw [hq]
        exact hQ1 x (List.mem_append_left _ hx)
    have hq2 : ∀ x ∈ l2, x.addr ≠ q := by
      intro x hx
      rcases hq with hq | hq
      · rw [hq]
        exact hP2 x (List.mem_cons_of_mem _ hx)
      · rw [hq]
        exact hQ2 x hx
    rw [h6 q hq2]
    exact hframe q hq1

theorem coalesce_merges_pair (s : State) (l1 l2 : List block_meta_t) (P Q : block_meta_t)
    (hwf : well_formed s) (hb : s.free_heap.blocks.length ≤ MAX_FREE_BLOCKS)
    (hl : s.blocks = l1 ++ P :: Q :: l2) (hP : P.is_free = true) (hQ : Q.is_free = true)
    (hin : P.addr ∈ s.free_heap.blocks ∨ Q.addr ∈ s.free_heap.blocks)
    (hprev : ∀ x ∈ l1.getLast?, x.is_free = false)
    (hnext : ∀ y ∈ l2.head?, y.is_free = false) :
    ∃ l3 l4, (coalesce s).blocks = l3 ++ merged_block P Q :: l4 ∧ well_formed (coalesce s) ∧
      l4.head?.map (fun b => b.addr) = l2.head?.map (fun b => b.addr) ∧
      P.addr ∈ (coalesce s).free_heap.blocks := by
  obtain ⟨hP1, hP2, _, _⟩ := partitioned_split_bounds s hwf.2.1 l1 (Q :: l2) P hl
  have hlq : s.blocks = (l1 ++ [P]) ++ Q :: l2 := by simp [hl]
  obtain ⟨hQ1, _, _, _⟩ := partitioned_split_bounds s hwf.2.1 (l1 ++ [P]) l2 Q hlq
  obtain ⟨s2, pre2, e, hc, _, hframe⟩ :=
    coalesce_reach_target s l1 P (Q :: l2) hwf hb hl hprev
  have hin2 : P.addr ∈ s2.free_heap.blocks ∨ Q.addr ∈ s2.free_heap.blocks := by
    rcases hin with h | h
    · exact Or.inl ((hframe _ hP1).2 h)
    · exact Or.inr ((hframe _ (fun x hx => hQ1 x (List.mem_append_left _ hx))).2 h)
  have hadj := cursor_at_adjacent s2 pre2 P Q l2 hc
  rw [e, coalesce_loop_merge s2 pre2 P Q l2 ⟨hP, hQ⟩ hadj]
  have hins := merge_step_inserts s2 pre2 P Q l2 hc.2.1 hin2
  obtain ⟨l4, h1, h2, _, _, h5, h6⟩ :=
    coalesce_loop_used_next _ pre2 (merged_block P Q) l2
      (cursor_at_merge s2 pre2 P Q l2 hc hP) hnext
  refine ⟨pre2.reverse, l4, h1, h2, h5, ?_⟩
  rw [h6 _ (fun x hx => hP2 x (List.mem_cons_of_mem _ hx))]
  exact hins

end MyMalloc

namespace MyMalloc

theorem merged_marked_block (stop a : Nat) (l1 l2 : List block_meta_t) (A B : block_meta_t)
    (fa fb : Bool) (ra rb : Nat)
    (h : partition_from stop a
      (l1 ++ { A with is_free := fa, requested_size := ra } ::
        { B with is_free := fb, requested_size := rb } :: l2))
    (hstop : stop ≤ a + HEAP_SIZE) :
    merged_block { A with is_free := fa, requested_size := ra }
        { B with is_free := fb, requested_size := rb } =
      ⟨A.addr, A.size + META_SIZE + B.size, 0, fa⟩ := by
  have hsz := merged_block_size stop a l1 l2 _ _ h hstop
  simp only at hsz
  simp only [merged_block, block_meta_t.mk.injEq, and_true, true_and]
  simpa [merged_block] using hsz

theorem merged_result_facts (t : State) (hwf : well_formed t) (l3 l4 : List block_meta_t)
    (A B : block_meta_t) (M : block_meta_t) (hM1 : M.addr = A.addr)
    (hM2 : M.size = A.size + META_SIZE + B.size) (hadj : A.addr + META_SIZE + A.size = B.addr)
    (hl : t.blocks = l3 ++ M :: l4) :
    (∀ x ∈ t.blocks, x.addr = A.addr → x = M) ∧ (∀ x ∈ t.blocks, x.addr ≠ B.addr) ∧
      B.addr ∉ t.free_heap.blocks := by
  have hp := hwf.2.1.2
  have hmem : M ∈ t.blocks := by rw [hl]; simp
  have hMS := META_SIZE_eq
  have hne : ∀ x ∈ t.blocks, x.addr ≠ B.addr := by
    rw [hl] at hp ⊢
    exact partition_from_inside _ _ l3 l4 M hp B.addr (by omega) (by omega)
  refine ⟨?_, hne, ?_⟩
  · intro x hx e
    exact partition_from_unique _ _ _ hp x hx M hmem (by rw [e, hM1])
  · intro hin
    obtain ⟨x, hx, e⟩ := free_addrs_subset_addrs _ _ (hwf.2.2.2 _ hin)
    exact hne x hx e

/-- C6 (as amended). In a well-formed state (every reachable state is one)
whose free index is not full, let `A` and `B` be two in-use blocks where `B` is
`A`'s next block and the blocks before `A` and after `B` (if any) are in use.
Freeing both, in either order, leaves a block list that holds at `A`'s address
exactly one block, which is free, has size `A.size + META_SIZE + B.size`, and is
followed by the block that followed `B`; that block is in the free index, and
`B`'s address is neither the address of a listed block nor in the free index. -/
theorem free_neighbours_merge (s : State) (l1 l2 : List block_meta_t) (A B : block_meta_t)
    (hwf : well_formed s) (hcap : s.free_heap.size < MAX_FREE_BLOCKS)
    (hl : s.blocks = l1 ++ A :: B :: l2) (hA : A.is_free = false) (hB : B.is_free = false)
    (hprev : ∀ x ∈ l1.getLast?, x.is_free = false)
    (hnext : ∀ y ∈ l2.head?, y.is_free = false) (t : State)
    (ht : t = free (free s (A.addr + META_SIZE)) (B.addr + META_SIZE) ∨
        t = free (free s (B.addr + META_SIZE)) (A.addr + META_SIZE)) :
    ∃ l3 l4, t.blocks = l3 ++ ⟨A.addr, A.size + META_SIZE + B.size, 0, true⟩ :: l4 ∧
      l4.head?.map (fun b => b.addr) = l2.head?.map (fun b => b.addr) ∧
      (∀ x ∈ t.blocks, x.addr = A.addr →
        x = ⟨A.addr, A.size + META_SIZE + B.size, 0, true⟩) ∧
      A.addr ∈ t.free_heap.blocks ∧
      (∀ x ∈ t.blocks, x.addr ≠ B.addr) ∧ B.addr ∉ t.free_heap.blocks := by
  have hb : s.free_heap.blocks.length ≤ MAX_FREE_BLOCKS := by
    simp only [free_block_heap_t.size] at hcap
    omega
  have hadj : A.addr + META_SIZE + A.size = B.addr := by
    have hp := hwf.2.1.2
    rw [hl, partition_from_append] at hp
    obtain ⟨_, _, _, h, _⟩ := hp
    exact h.symm
  rcases ht with ht | ht
  · -- `A` first
    have hwf1 := mark_free_well_formed s l1 (B :: l2) A hwf hl hA
    have hin1 := (List.Perm.mem_iff (insert_free_block_index
      { s with blocks := l1 ++ { A with is_free := true, requested_size := 0 } :: B :: l2 }
      A.addr hcap).1).2 (List.mem_cons_self _ _)
    obtain ⟨l3, l4, e1, hwf2, hb2, hprev2, hnext2, hhead2, hidx2⟩ :=
      coalesce_keeps_pair _ l1 l2 { A with is_free := true, requested_size := 0 } B hwf1
        (insert_free_block_bounded _ _ hb) (by simp) (by simp [hB]) hprev hnext
    rw [← free_shape s l1 (B :: l2) A hwf.2.1 hl] at e1 hwf2 hb2 hidx2
    have hinA : A.addr ∈ (free s (A.addr + META_SIZE)).free_heap.blocks :=
      (hidx2 A.addr (Or.inl rfl)).2 hin1
    have e1b : (free s (A.addr + META_SIZE)).blocks =
        (l3 ++ [{ A with is_free := true, requested_size := 0 }]) ++ B :: l4 := by
      simp [e1]
    have hwf3 := mark_free_well_formed _ _ l4 B hwf2 e1b hB
    have hp3 := hwf3.2.1.2
    simp only [insert_free_block_blocks, insert_free_block_heap_start, List.append_assoc,
      List.singleton_append] at hp3
    obtain ⟨l5, l6, e2, hwf4, hhead4, hin4⟩ :=
      coalesce_merges_pair _ l3 l4 { A with is_free := true, requested_size := 0 }
        { B with is_free := true, requested_size := 0 } hwf3
        (insert_free_block_bounded _ _ hb2) (by simp) rfl rfl
        (Or.inl (insert_free_block_mem_old _ _ _ hinA)) hprev2 hnext2
    rw [← free_shape _ _ l4 B hwf2.2.1 e1b, ← ht] at e2 hwf4 hin4
    rw [merged_marked_block _ _ l3 l4 A B true true 0 0 hp3 (le_refl _)] at e2
    obtain ⟨f1, f2, f3⟩ := merged_result_facts t hwf4 l5 l6 A B
      ⟨A.addr, A.size + META_SIZE + B.size, 0, true⟩ rfl rfl hadj e2
    exact ⟨l5, l6, e2, hhead4.trans hhead2, f1, hin4, f2, f3⟩
  · -- `B` first
    have hlb : s.blocks = (l1 ++ [A]) ++ B :: l2 := by simp [hl]
    have hwf1 := mark_free_well_formed s (l1 ++ [A]) l2 B hwf hlb hB
    have hin1 := (List.Perm.mem_iff (insert_free_block_index
      { s with blocks := (l1 ++ [A]) ++ { B with is_free := true, requested_size := 0 } :: l2 }
      B.addr hcap).1).2 (List.mem_cons_self _ _)
    obtain ⟨l3, l4, e1, hwf2, hb2, hprev2, hnext2, hhead2, hidx2⟩ :=
      coalesce_keeps_pair _ l1 l2 A { B with is_free := true, requested_size := 0 } hwf1
        (insert_free_block_bounded _ _ hb) (by simp) (by simp [hA]) hprev hnext
    rw [← free_shape s (l1 ++ [A]) l2 B hwf.2.1 hlb] at e1 hwf2 hb2 hidx2
    have hinB : B.addr ∈ (free s (B.addr + META_SIZE)).free_heap.blocks :=
      (hidx2 B.addr (Or.inr rfl)).2 hin1
    have hwf3 := mark_free_well_formed _ l3
      ({ B with is_free := true, requested_size := 0 } :: l4) A hwf2 e1 hA
    have hp3 := hwf3.2.1.2
    simp only [insert_free_block_blocks, insert_free_block_heap_start] at hp3
    obtain ⟨l5, l6, e2, hwf4, hhead4, hin4⟩ :=
      coalesce_merges_pair _ l3 l4 { A with is_free := true, requested_size := 0 }
        { B with is_free := true, requested_size := 0 } hwf3
        (insert_free_block_bounded _ _ hb2) (by simp) rfl rfl
        (Or.inr (insert_free_block_mem_old _ _ _ hinB)) hprev2 hnext2
    rw [← free_shape _ l3 _ A hwf2.2.1 e1, ← ht] at e2 hwf4 hin4
    rw [merged_marked_block _ _ l3 l4 A B true true 0 0 hp3 (le_refl _)] at e2
    obtain ⟨f1, f2, f3⟩ := merged_result_facts t hwf4 l5 l6 A B
      ⟨A.addr, A.size + META_SIZE + B.size, 0, true⟩ rfl rfl hadj e2
    exact ⟨l5, l6, e2, hhead4.trans hhead2, f1, hin4, f2, f3⟩

end MyMalloc

namespace MyMalloc

/-! ## C6: a full index -/

theorem free_addrs_pairs : ∀ (n a : Nat),
    free_addrs (free_used_pairs n a) = free_pair_addrs n a := by
  intro n
  induction n with
  | zero => intro a; rfl
  | succ n ih =>
    intro a
    simp only [free_used_pairs, free_pair_addrs, free_addrs_cons, if_true, Bool.false_eq_true,
      if_false, ih]

theorem partition_pairs : ∀ (n a : Nat),
    partition_from (a + 80 * n) a (free_used_pairs n a) := by
  intro n
  induction n with
  | zero => intro a; simp [free_used_pairs, partition_from]
  | succ n ih =>
    intro a
    have h := ih (a + 80)
    have e : a + 80 + 80 * n = a + 80 * (n + 1) := by omega
    rw [e] at h
    simp only [free_used_pairs, partition_from, META_SIZE, true_and]
    exact h

theorem free_pair_addrs_ge : ∀ (n a p : Nat), p ∈ free_pair_addrs n a → a ≤ p := by
  intro n
  induction n with
  | zero => intro a p h; simp [free_pair_addrs] at h
  | succ n ih =>
    intro a p h
    simp only [free_pair_addrs, List.mem_cons] at h
    rcases h with h | h
    · omega
    · have := ih _ _ h
      omega

theorem free_pair_addrs_nodup : ∀ (n a : Nat), (free_pair_addrs n a).Nodup := by
  intro n
  induction n with
  | zero => intro a; simp [free_pair_addrs]
  | succ n ih =>
    intro a
    simp only [free_pair_addrs, List.nodup_cons]
    refine ⟨?_, ih _⟩
    intro h
    have := free_pair_addrs_ge _ _ _ h
    omega

theorem free_pair_addrs_length : ∀ (n a : Nat), (free_pair_addrs n a).length = n := by
  intro n
  induction n with
  | zero => intro a; rfl
  | succ n ih => intro a; simp [free_pair_addrs, ih]

theorem full_index_state_well_formed : well_formed full_index_state := by
  refine ⟨rfl, ⟨by simp [full_index_state], ?_⟩, free_pair_addrs_nodup _ _, ?_⟩
  · simp only [full_index_state]
    rw [partition_from_append]
    exact ⟨_, partition_pairs 1024 4096, by simp [partition_from, META_SIZE, HEAP_SIZE]⟩
  · intro q hq
    simp only [full_index_state] at hq ⊢
    rw [free_addrs_append, free_addrs_pairs]
    exact List.mem_append_left _ hq

theorem chain_pairs (tail : List block_meta_t)
    (ht : List.Chain' (fun b c : block_meta_t => ¬ (b.is_free = true ∧ c.is_free = true)) tail) :
    ∀ (n a : Nat),
      List.Chain' (fun b c : block_meta_t => ¬ (b.is_free = true ∧ c.is_free = true))
        (free_used_pairs n a ++ tail) := by
  intro n
  induction n with
  | zero => intro a; simpa [free_used_pairs] using ht
  | succ n ih =>
    intro a
    have h := ih (a + 80)
    simp only [free_used_pairs, List.cons_append]
    rw [List.chain'_cons, List.chain'_cons']
    refine ⟨by simp, ?_, h⟩
    intro y _
    simp

theorem pairs_last_used : ∀ (n a : Nat), ∀ x ∈ (free_used_pairs n a).getLast?,
    x.is_free = false := by
  intro n
  induction n with
  | zero => intro a x hx; simp [free_used_pairs] at hx
  | succ n ih =>
    intro a x hx
    cases n with
    | zero =>
      simp [free_used_pairs] at hx
      rw [← hx]
    | succ m =>
      have h := ih (a + 80) x
      apply h
      simp only [free_used_pairs] at hx ⊢
      simpa [List.getLast?_cons_cons] using hx

theorem coalesce_loop_all_skip :
    ∀ (rest : List block_meta_t) (s : State) (pre : List block_meta_t) (cur : block_meta_t),
      List.Chain' (fun b c : block_meta_t => ¬ (b.is_free = true ∧ c.is_free = true))
        (cur :: rest) →
      coalesce_loop s pre cur rest = s := by
  intro rest
  induction rest with
  | nil => intro s pre cur _; rfl
  | cons nxt rest ih =>
    intro s pre cur h
    rw [List.chain'_cons] at h
    rw [coalesce_loop_skip s pre cur nxt rest h.1]
    exact ih s _ nxt h.2

theorem coalesce_loop_skip_to :
    ∀ (r1 : List block_meta_t) (s : State) (pre : List block_meta_t) (cur T : block_meta_t)
      (tail : List block_meta_t),
      List.Chain' (fun b c : block_meta_t => ¬ (b.is_free = true ∧ c.is_free = true))
        (cur :: r1 ++ [T]) →
      coalesce_loop s pre cur (r1 ++ T :: tail) =
        coalesce_loop s ((cur :: r1).reverse ++ pre) T tail := by
  intro r1
  induction r1 with
  | nil =>
    intro s pre cur T tail h
    simp only [List.cons_append, List.nil_append, List.chain'_pair] at h
    simpa using coalesce_loop_skip s pre cur T tail h
  | cons x r1 ih =>
    intro s pre cur T tail h
    simp only [List.cons_append] at h
    rw [List.chain'_cons] at h
    have e := ih s (cur :: pre) x T tail (by simpa using h.2)
    simp only [List.cons_append]
    rw [coalesce_loop_skip s pre cur x _ h.1, e]
    simp

theorem coalesce_skip_to (s : State) (l1 : List block_meta_t) (T : block_meta_t)
    (tail : List block_meta_t) (hl : s.blocks = l1 ++ T :: tail)
    (h : List.Chain' (fun b c : block_meta_t => ¬ (b.is_free = true ∧ c.is_free = true))
      (l1 ++ [T])) :
    coalesce s = coalesce_loop s l1.reverse T tail := by
  cases l1 with
  | nil =>
    simp only [List.nil_append] at hl
    simp [coalesce, hl]
  | cons c r1 =>
    have hl2 : s.blocks = c :: (r1 ++ T :: tail) := by simp [hl]
    have e : coalesce s = coalesce_loop s [] c (r1 ++ T :: tail) := by simp [coalesce, hl2]
    rw [e, coalesce_loop_skip_to r1 s [] c T tail (by simpa using h)]
    simp

theorem coalesce_identity (s : State)
    (h : List.Chain' (fun b c : block_meta_t => ¬ (b.is_free = true ∧ c.is_free = true))
      s.blocks) :
    coalesce s = s := by
  cases hl : s.blocks with
  | nil => simp [coalesce, hl]
  | cons c rest =>
    have e : coalesce s = coalesce_loop s [] c rest := by simp [coalesce, hl]
    rw [e]
    exact coalesce_loop_all_skip rest s [] c (by rw [← hl]; exact h)

end MyMalloc

namespace MyMalloc

theorem used_not_indexed (s : State) (hwf : well_formed s) (b : block_meta_t)
    (hb : b ∈ s.blocks) (hu : b.is_free = false) : b.addr ∉ s.free_heap.blocks := by
  intro hin
  obtain ⟨x, hx, hf, e⟩ := (mem_free_addrs _ _).1 (hwf.2.2.2 _ hin)
  have := partition_from_unique _ _ _ hwf.2.1.2 x hx b hb e
  rw [this, hu] at hf
  exact absurd hf (by simp)

theorem coalesce_full_index (X : State) (l1 l2 : List block_meta_t) (P Q : block_meta_t)
    (hwf : well_formed X) (hfull : MAX_FREE_BLOCKS ≤ X.free_heap.size)
    (hl : X.blocks = l1 ++ P :: Q :: l2) (hP : P.is_free = true) (hQ : Q.is_free = true)
    (hPn : P.addr ∉ X.free_heap.blocks) (hQn : Q.addr ∉ X.free_heap.blocks)
    (hc1 : List.Chain' (fun b c : block_meta_t => ¬ (b.is_free = true ∧ c.is_free = true)) l1)
    (hc2 : List.Chain' (fun b c : block_meta_t => ¬ (b.is_free = true ∧ c.is_free = true)) l2)
    (hprev : ∀ x ∈ l1.getLast?, x.is_free = false)
    (hnext : ∀ y ∈ l2.head?, y.is_free = false) :
    (coalesce X).blocks = l1 ++ merged_block P Q :: l2 ∧
      (coalesce X).free_heap = X.free_heap := by
  have hp := hwf.2.1.2
  rw [hl] at hp
  have hadj : P.addr + META_SIZE + P.size = Q.addr := by
    rw [partition_from_append] at hp
    obtain ⟨_, _, _, h, _⟩ := hp
    exact h.symm
  rw [coalesce_skip_to X l1 P (Q :: l2) hl (by
    rw [List.chain'_append]
    refine ⟨hc1, List.chain'_singleton _, ?_⟩
    intro x hx y _
    rw [hprev x hx]
    simp)]
  rw [coalesce_loop_merge X l1.reverse P Q l2 ⟨hP, hQ⟩ hadj]
  rw [coalesce_loop_all_skip l2 _ l1.reverse _ (by
    rw [List.chain'_cons']
    refine ⟨?_, hc2⟩
    intro y hy
    rw [hnext y hy]
    simp)]
  have hrm1 : remove_free_block X P.addr = X := remove_free_block_not_mem X P.addr hPn
  have hrm2 : remove_free_block X Q.addr = X := remove_free_block_not_mem X Q.addr hQn
  unfold merge_step
  simp only [hrm1, hrm2]
  refine ⟨?_, ?_⟩
  · rw [insert_free_block_blocks]
    simp only [List.reverse_reverse]
  · rw [(insert_free_block_full _ _ (by simpa using hfull)).1]

theorem full_index_leaks (s : State) (l1 l2 : List block_meta_t) (A B : block_meta_t)
    (hwf : well_formed s) (hfull : MAX_FREE_BLOCKS ≤ s.free_heap.size)
    (hl : s.blocks = l1 ++ A :: B :: l2) (hA : A.is_free = false) (hB : B.is_free = false)
    (hnaf : List.Chain' (fun b c : block_meta_t => ¬ (b.is_free = true ∧ c.is_free = true))
      s.blocks)
    (hprev : ∀ x ∈ l1.getLast?, x.is_free = false)
    (hnext : ∀ y ∈ l2.head?, y.is_free = false) :
    (free (free s (A.addr + META_SIZE)) (B.addr + META_SIZE)).blocks =
        l1 ++ ⟨A.addr, A.size + META_SIZE + B.size, 0, true⟩ :: l2 ∧
      (free (free s (A.addr + META_SIZE)) (B.addr + META_SIZE)).free_heap = s.free_heap ∧
      A.addr ∉ s.free_heap.blocks := by
  have hAin : A ∈ s.blocks := by rw [hl]; simp
  have hBin : B ∈ s.blocks := by rw [hl]; simp
  have hAn := used_not_indexed s hwf A hAin hA
  have hBn := used_not_indexed s hwf B hBin hB
  rw [hl, List.chain'_append] at hnaf
  obtain ⟨hc1, hc2, _⟩ := hnaf
  rw [List.chain'_cons] at hc2
  have hc3 := hc2.2
  rw [List.chain'_cons'] at hc3
  -- the first `free`
  have hwf1 := mark_free_well_formed s l1 (B :: l2) A hwf hl hA
  have hfh1 := (insert_free_block_full
    { s with blocks := l1 ++ { A with is_free := true, requested_size := 0 } :: B :: l2 }
    A.addr hfull).1
  simp only at hfh1
  have hch1 : List.Chain' (fun b c : block_meta_t => ¬ (b.is_free = true ∧ c.is_free = true))
      (l1 ++ { A with is_free := true, requested_size := 0 } :: B :: l2) := by
    rw [List.chain'_append]
    refine ⟨hc1, ?_, ?_⟩
    · rw [List.chain'_cons]
      exact ⟨by simp [hB], hc2.2⟩
    · intro x hx y hy
      simp only [List.head?_cons, Option.mem_def, Option.some.injEq] at hy
      rw [hprev x hx]
      simp
  have e1 : free s (A.addr + META_SIZE) = insert_free_block
      { s with blocks := l1 ++ { A with is_free := true, requested_size := 0 } :: B :: l2 }
      A.addr := by
    rw [free_shape s l1 (B :: l2) A hwf.2.1 hl]
    exact coalesce_identity _ (by simpa using hch1)
  rw [e1]
  -- the second `free`
  have hl1 : (insert_free_block
      { s with blocks := l1 ++ { A with is_free := true, requested_size := 0 } :: B :: l2 }
      A.addr).blocks = (l1 ++ [{ A with is_free := true, requested_size := 0 }]) ++ B :: l2 := by
    simp
  have hwf2 := mark_free_well_formed _ _ l2 B hwf1 hl1 hB
  rw [free_shape _ _ l2 B hwf1.2.1 hl1]
  have hfh2 := (insert_free_block_full
    { (insert_free_block
      { s with blocks := l1 ++ { A with is_free := true, requested_size := 0 } :: B :: l2 }
      A.addr) with
      blocks := (l1 ++ [{ A with is_free := true, requested_size := 0 }]) ++
        { B with is_free := true, requested_size := 0 } :: l2 }
    B.addr (by simp only [hfh1]; exact hfull)).1
  replace hfh2 := hfh2.trans hfh1
  have hp2 := hwf2.2.1.2
  simp only [insert_free_block_blocks, insert_free_block_heap_start, List.append_assoc,
    List.singleton_append] at hp2
  obtain ⟨h1, h2⟩ := coalesce_full_index _ l1 l2
    { A with is_free := true, requested_size := 0 }
    { B with is_free := true, requested_size := 0 } hwf2 (by rw [hfh2]; exact hfull)
    (by simp) rfl rfl (by rw [hfh2]; exact hAn) (by rw [hfh2]; exact hBn) hc1 hc3.2 hprev hnext
  refine ⟨?_, ?_, hAn⟩
  · rw [h1, merged_marked_block _ _ l1 l2 A B true true 0 0 hp2 (le_refl _)]
  · rw [h2, hfh2]

end MyMalloc

namespace MyMalloc

/-- C6, witness: in the state after `malloc(100)`, `malloc(200)`, `malloc(50)`
the blocks at 4096 and 4232 are neighbours, there is no block before the first
and the block after the second is in use; they are freed in this order. -/
theorem free_neighbours_merge_witness :
    well_formed three_blocks ∧ three_blocks.free_heap.size < MAX_FREE_BLOCKS ∧
    three_blocks.blocks =
      [] ++ ⟨4096, 104, 100, false⟩ :: ⟨4232, 200, 200, false⟩ ::
        [⟨4464, 56, 50, false⟩, ⟨4552, 1052184, 0, true⟩] ∧
    ∃ l3 l4, (free (free three_blocks 4128) 4264).blocks =
        l3 ++ ⟨4096, 104 + META_SIZE + 200, 0, true⟩ :: l4 ∧
      l4.head?.map (fun b => b.addr) = some 4464 ∧
      4096 ∈ (free (free three_blocks 4128) 4264).free_heap.blocks ∧
      4232 ∉ (free (free three_blocks 4128) 4264).free_heap.blocks := by
  have hwf : well_formed three_blocks :=
    reachable_well_formed sbrk_ok any_call _ _ (fresh_heap_well_formed 4096 zero_bytes)
      (exec_reachable _ _ _ _ _ reachable.start (by decide))
  obtain ⟨l3, l4, h1, h2, _, h4, _, h6⟩ :=
    free_neighbours_merge three_blocks [] [⟨4464, 56, 50, false⟩, ⟨4552, 1052184, 0, true⟩]
      ⟨4096, 104, 100, false⟩ ⟨4232, 200, 200, false⟩ hwf (by decide) (by decide) rfl rfl
      (by simp) (by simp) _ (Or.inl rfl)
  exact ⟨hwf, by decide, by decide, l3, l4, h1, h2, h4, h6⟩

/-! ## C6: the state with the full index is reachable -/

theorem used_run_bounds : ∀ (n a : Nat) (x : block_meta_t), x ∈ used_run n a →
    a ≤ x.addr ∧ x.addr < a + 40 * n ∧ x.is_free = false := by
  intro n
  induction n with
  | zero => intro a x h; simp [used_run] at h
  | succ n ih =>
    intro a x h
    simp only [used_run, List.mem_cons] at h
    rcases h with h | h
    · rw [h]
      exact ⟨le_refl _, by simp only; omega, rfl⟩
    · have := ih _ _ h
      exact ⟨by omega, by omega, this.2.2⟩

theorem used_run_snoc : ∀ (n a : Nat),
    used_run (n + 1) a = used_run n a ++ [⟨a + 40 * n, 8, 8, false⟩] := by
  intro n
  induction n with
  | zero => intro a; simp [used_run]
  | succ n ih =>
    intro a
    have h := ih (a + 40)
    have e : a + 40 + 40 * n = a + 40 * (n + 1) := by omega
    rw [e] at h
    conv_lhs => rw [used_run]
    rw [h]
    simp [used_run]

theorem malloc_alloc_state (k : Nat) (hk : k < 2050) :
    malloc sbrk_ok (alloc_state k) 8 = (4096 + 40 * k + 32, alloc_state (k + 1)) := by
  have hM := META_SIZE_eq
  have hH := HEAP_SIZE_eq
  have hS := SIZE_MODULUS_eq
  have h1 : ∀ x ∈ used_run k 4096,
      x.addr ≠ (⟨4096 + 40 * k, HEAP_SIZE - META_SIZE - 40 * k, 0, true⟩ : block_meta_t).addr := by
    intro x hx
    have := used_run_bounds k 4096 x hx
    simp only
    omega
  have hbs : block_size (alloc_state k).blocks (4096 + 40 * k) =
      HEAP_SIZE - META_SIZE - 40 * k :=
    block_size_split (used_run k 4096) [] ⟨4096 + 40 * k, HEAP_SIZE - META_SIZE - 40 * k, 0, true⟩ h1
  have ha : align8 8 = 8 := by decide
  have hfind : find_free_block (alloc_state k) 8 =
      (some (4096 + 40 * k), { alloc_state k with free_heap := ⟨[]⟩ }) := by
    unfold find_free_block
    have hfi : first_index (fun p => decide (block_size (alloc_state k).blocks p ≥ 8))
        (alloc_state k).free_heap.blocks 0 = some 0 := by
      have : 8 ≤ HEAP_SIZE - META_SIZE - 40 * k := by omega
      simp [alloc_state, first_index] at hbs ⊢
      rw [hbs]
      exact this
    rw [hfi]
    simp [alloc_state, remove_slot, heapify_down, heapify_down_rec]
  rw [malloc_some sbrk_ok (alloc_state k) 8 (4096 + 40 * k) (by decide) rfl
    (by rw [ha, hfind])]
  rw [ha, hfind]
  simp only
  rw [split_block_split _ (used_run k 4096) []
    ⟨4096 + 40 * k, HEAP_SIZE - META_SIZE - 40 * k, 0, true⟩ 8 rfl h1
    (by simp only; omega) (by simp only; omega)]
  simp only [insert_free_block_blocks]
  have h1b : ∀ x ∈ used_run k 4096, x.addr ≠ 4096 + 40 * k := h1
  have hu := update_block_split
    (fun x : block_meta_t => { x with is_free := false, requested_size := 8 })
    (used_run k 4096)
    [⟨4096 + 40 * k + META_SIZE + 8, HEAP_SIZE - META_SIZE - 40 * k - 8 - META_SIZE, 0, true⟩]
    ⟨4096 + 40 * k, 8, 0, true⟩ h1b (by
      intro x hx
      simp only [List.mem_singleton] at hx
      rw [hx]
      simp only
      omega)
  simp only at hu
  rw [hu]
  have e1 : 4096 + 40 * k + META_SIZE + 8 = 4096 + 40 * (k + 1) := by omega
  have e2 : HEAP_SIZE - META_SIZE - 40 * k - 8 - META_SIZE =
      HEAP_SIZE - META_SIZE - 40 * (k + 1) := by omega
  simp only [insert_free_block, free_block_heap_t.size, alloc_state, List.length_nil,
    MAX_FREE_BLOCKS, heapify_up, heapify_up_loop, List.nil_append, e1, e2, used_run_snoc,
    List.append_assoc, List.singleton_append, ge_iff_le, Nat.le_zero_eq, OfNat.ofNat_ne_zero,
    if_false, hM]
  have e3 : 4096 + 40 * k + 32 + 8 = 4096 + 40 * (k + 1) := by omega
  have e4 : HEAP_SIZE - 32 - 40 * k - 8 - 32 = HEAP_SIZE - 32 - 40 * (k + 1) := by omega
  rw [e3, e4]

theorem malloc_alloc_state_last :
    malloc sbrk_ok (alloc_state 2050) 970640 = (86128, freed_state 0 2050) := by
  have hM := META_SIZE_eq
  have hH := HEAP_SIZE_eq
  have hS := SIZE_MODULUS_eq
  have h1 : ∀ x ∈ used_run 2050 4096,
      x.addr ≠ (⟨86096, 970640, 0, true⟩ : block_meta_t).addr := by
    intro x hx
    have := used_run_bounds 2050 4096 x hx
    simp only
    omega
  have hb : (alloc_state 2050).blocks = used_run 2050 4096 ++ [⟨86096, 970640, 0, true⟩] := by
    simp [alloc_state, HEAP_SIZE, META_SIZE]
  have hbs : block_size (alloc_state 2050).blocks 86096 = 970640 := by
    rw [hb]
    exact block_size_split (used_run 2050 4096) [] ⟨86096, 970640, 0, true⟩ h1
  have ha : align8 970640 = 970640 := by decide
  have hfind : find_free_block (alloc_state 2050) 970640 =
      (some 86096, { alloc_state 2050 with free_heap := ⟨[]⟩ }) := by
    unfold find_free_block
    have hfi : first_index (fun p => decide (block_size (alloc_state 2050).blocks p ≥ 970640))
        (alloc_state 2050).free_heap.blocks 0 = some 0 := by
      have e : (alloc_state 2050).free_heap.blocks = [86096] := by simp [alloc_state]
      rw [e]
      simp [first_index, hbs]
    rw [hfi]
    simp [alloc_state, remove_slot, heapify_down, heapify_down_rec]
  rw [malloc_some sbrk_ok (alloc_state 2050) 970640 86096 (by decide) rfl
    (by rw [ha, hfind])]
  rw [ha, hfind]
  simp only
  rw [split_block_no_split { alloc_state 2050 with free_heap := ⟨[]⟩ } (used_run 2050 4096) []
    ⟨86096, 970640, 0, true⟩ 970640 hb h1
    (by omega) (by simp only; omega)]
  simp only
  have hu := update_block_split
    (fun x : block_meta_t => { x with is_free := false, requested_size := 970640 })
    (used_run 2050 4096) [] ⟨86096, 970640, 0, true⟩ h1 (by simp)
  simp only at hu
  rw [hb, hu]
  simp [alloc_state, freed_state, free_used_pairs, free_pair_addrs, META_SIZE]

theorem free_used_pairs_snoc : ∀ (n a : Nat),
    free_used_pairs (n + 1) a =
      free_used_pairs n a ++ [⟨a + 80 * n, 8, 0, true⟩, ⟨a + 80 * n + 40, 8, 8, false⟩] := by
  intro n
  induction n with
  | zero => intro a; simp [free_used_pairs]
  | succ n ih =>
    intro a
    have h := ih (a + 80)
    have e : a + 80 + 80 * n = a + 80 * (n + 1) := by omega
    rw [e] at h
    conv_lhs => rw [free_used_pairs]
    rw [h]
    simp [free_used_pairs]

theorem free_pair_addrs_snoc : ∀ (n a : Nat),
    free_pair_addrs (n + 1) a = free_pair_addrs n a ++ [a + 80 * n] := by
  intro n
  induction n with
  | zero => intro a; simp [free_pair_addrs]
  | succ n ih =>
    intro a
    have h := ih (a + 80)
    have e : a + 80 + 80 * n = a + 80 * (n + 1) := by omega
    rw [e] at h
    conv_lhs => rw [free_pair_addrs]
    rw [h]
    simp [free_pair_addrs]

theorem free_used_pairs_bounds : ∀ (n a : Nat) (x : block_meta_t), x ∈ free_used_pairs n a →
    a ≤ x.addr ∧ x.addr < a + 80 * n := by
  intro n
  induction n with
  | zero => intro a x h; simp [free_used_pairs] at h
  | succ n ih =>
    intro a x h
    simp only [free_used_pairs, List.mem_cons] at h
    rcases h with h | h | h
    · rw [h]
      exact ⟨le_refl _, by simp only; omega⟩
    · rw [h]
      exact ⟨by simp only; omega, by simp only; omega⟩
    · have := ih _ _ h
      exact ⟨by omega, by omega⟩

theorem block_size_pairs (tail : List block_meta_t) : ∀ (n a p : Nat),
    p ∈ free_pair_addrs n a → block_size (free_used_pairs n a ++ tail) p = 8 := by
  intro n
  induction n with
  | zero => intro a p h; simp [free_pair_addrs] at h
  | succ n ih =>
    intro a p h
    simp only [free_pair_addrs, List.mem_cons] at h
    rcases h with h | h
    · rw [h]
      simp [free_used_pairs, block_size, find_block]
    · have hge := free_pair_addrs_ge _ _ _ h
      have h2 := ih (a + 80) p h
      have e1 : ¬ a = p := by omega
      have e2 : ¬ a + 40 = p := by omega
      simp only [block_size, find_block] at h2 ⊢
      simp only [free_used_pairs, List.cons_append, List.find?_cons, e1, e2, decide_False]
      exact h2

theorem heapify_up_loop_equal (blocks : List block_meta_t) (c : Nat) (h : List Nat)
    (hc : ∀ p ∈ h, block_size blocks p = c) (fuel index : Nat) (hi : index < h.length) :
    heapify_up_loop blocks fuel h index = h := by
  cases fuel with
  | zero => rfl
  | succ fuel =>
    simp only [heapify_up_loop]
    split_ifs with h1 h2
    · exfalso
      have hp : (index - 1) / 2 < h.length := by omega
      rw [List.getD_eq_getElem _ _ hp, List.getD_eq_getElem _ _ hi,
        hc _ (List.getElem_mem _), hc _ (List.getElem_mem _)] at h2
      omega
    · rfl
    · rfl

theorem chain_used_tail : ∀ (l : List block_meta_t) (b : block_meta_t),
    (∀ x ∈ l, x.is_free = false) →
    List.Chain' (fun b c : block_meta_t => ¬ (b.is_free = true ∧ c.is_free = true)) (b :: l) := by
  intro l
  induction l with
  | nil => intro b _; simp
  | cons x rest ih =>
    intro b h
    rw [List.chain'_cons]
    refine ⟨?_, ih x (fun y hy => h y (List.mem_cons_of_mem _ hy))⟩
    have := h x (List.mem_cons_self _ _)
    simp [this]

theorem chain_all_used (l : List block_meta_t) (h : ∀ x ∈ l, x.is_free = false) :
    List.Chain' (fun b c : block_meta_t => ¬ (b.is_free = true ∧ c.is_free = true)) l := by
  cases l with
  | nil => simp
  | cons b rest => exact chain_used_tail rest b (fun y hy => h y (List.mem_cons_of_mem _ hy))

theorem free_freed_state (j m : Nat) (hj : j < 1024)
    (hp : partitioned (freed_state j (m + 2))) :
    free (freed_state j (m + 2)) (4096 + 80 * j + 32) = freed_state (j + 1) m := by
  have hM := META_SIZE_eq
  have hl : (freed_state j (m + 2)).blocks =
      free_used_pairs j 4096 ++ ⟨4096 + 80 * j, 8, 8, false⟩ ::
        (used_run (m + 1) (4096 + 80 * j + 40) ++ [⟨86096, 970640, 970640, false⟩]) := by
    simp [freed_state, used_run]
  have hfs := free_shape _ _ _ _ hp hl
  have e0 : (⟨4096 + 80 * j, 8, 8, false⟩ : block_meta_t).addr + META_SIZE =
      4096 + 80 * j + 32 := by simp only; omega
  rw [e0] at hfs
  rw [hfs]
  have hsz : ∀ p ∈ free_pair_addrs j 4096 ++ [4096 + 80 * j],
      block_size (free_used_pairs j 4096 ++ ⟨4096 + 80 * j, 8, 0, true⟩ ::
        (used_run (m + 1) (4096 + 80 * j + 40) ++ [⟨86096, 970640, 970640, false⟩])) p = 8 := by
    intro p hp
    rw [List.mem_append, List.mem_singleton] at hp
    rcases hp with hp | hp
    · exact block_size_pairs _ j 4096 p hp
    · rw [hp]
      exact block_size_split (free_used_pairs j 4096) _ ⟨4096 + 80 * j, 8, 0, true⟩ (by
        intro x hx
        have := free_used_pairs_bounds j 4096 x hx
        simp only
        omega)
  have hins : insert_free_block
      { freed_state j (m + 2) with
        blocks := free_used_pairs j 4096 ++ ⟨4096 + 80 * j, 8, 0, true⟩ ::
          (used_run (m + 1) (4096 + 80 * j + 40) ++ [⟨86096, 970640, 970640, false⟩]) }
      (4096 + 80 * j) = freed_state (j + 1) m := by
    unfold insert_free_block
    simp only [freed_state, free_block_heap_t.size, free_pair_addrs_length, MAX_FREE_BLOCKS]
    rw [if_neg (by omega)]
    simp only [heapify_up]
    rw [heapify_up_loop_equal _ 8 _ hsz _ _ (by simp [free_pair_addrs_length])]
    have e1 : 4096 + 80 * j + 40 + 40 = 4096 + 80 * (j + 1) := by omega
    simp [free_used_pairs_snoc, free_pair_addrs_snoc, used_run, e1]
  simp only at hins
  simp only
  rw [hins]
  apply coalesce_identity
  simp only [freed_state]
  apply chain_pairs
  refine chain_all_used _ ?_
  intro x hx
  rw [List.mem_append, List.mem_singleton] at hx
  rcases hx with hx | hx
  · exact (used_run_bounds _ _ _ hx).2.2
  · rw [hx]

theorem alloc_state_reachable : ∀ k, k ≤ 2050 →
    reachable sbrk_ok any_call (fresh_heap 4096 zero_bytes) (alloc_state k) := by
  intro k
  induction k with
  | zero =>
    intro _
    have e : alloc_state 0 = fresh_heap 4096 zero_bytes := by
      simp [alloc_state, fresh_heap, used_run]
    rw [e]
    exact reachable.start
  | succ k ih =>
    intro hk
    exact reachable.next (call.malloc 8) (ih (by omega)) rfl trivial
      (by simp [step, malloc_alloc_state k (by omega)])

theorem fresh_heap_partitioned_reachable (s : State)
    (h : reachable sbrk_ok any_call (fresh_heap 4096 zero_bytes) s) : partitioned s :=
  (reachable_well_formed sbrk_ok any_call _ s (fresh_heap_well_formed 4096 zero_bytes) h).2.1

theorem freed_state_reachable : ∀ j m, 2 * j + m = 2050 → j ≤ 1024 →
    reachable sbrk_ok any_call (fresh_heap 4096 zero_bytes) (freed_state j m) := by
  intro j
  induction j with
  | zero =>
    intro m hm _
    have e : m = 2050 := by omega
    rw [e]
    exact reachable.next (call.malloc 970640) (alloc_state_reachable 2050 (le_refl _)) rfl trivial
      (by simp [step, malloc_alloc_state_last])
  | succ j ih =>
    intro m hm hj
    have hr := ih (m + 2) (by omega) (by omega)
    have hstep := free_freed_state j m (by omega) (fresh_heap_partitioned_reachable _ hr)
    refine reachable.next (call.free (4096 + 80 * j + 32)) hr rfl ?_ (by simp [step, hstep])
    right
    refine ⟨⟨4096 + 80 * j, 8, 8, false⟩, ?_, rfl, by simp [META_SIZE]⟩
    simp [freed_state, used_run]

theorem full_index_state_reachable :
    reachable sbrk_ok any_call (fresh_heap 4096 zero_bytes) full_index_state := by
  have h := freed_state_reachable 1024 2 rfl (le_refl _)
  have e : freed_state 1024 2 = full_index_state := by
    simp [freed_state, full_index_state, used_run]
  rw [← e]
  exact h

/-- C6 (counterexample). The state `full_index_state` is reached from the fresh
heap at 4096 by 2050 calls `malloc(8)`, one `malloc(970640)` and `free` of every
second one of the first 2048 pointers. In it the index holds 1024 entries, the
blocks at 86016 and 86056 are in use and neighbours, and the blocks before and
after them are in use. After `free(86048)` and `free(86088)` the list holds the
merged free block of size 48 at 86016, but 86016 is not in the free index:
all three calls of `insert_free_block` found the index full. -/
theorem full_index_counterexample :
    reachable sbrk_ok any_call (fresh_heap 4096 zero_bytes) full_index_state ∧
    well_formed full_index_state ∧
    full_index_state.free_heap.size = MAX_FREE_BLOCKS ∧
    granted full_index_state 86048 ∧ granted full_index_state 86088 ∧
    (free (free full_index_state 86048) 86088).blocks =
      free_used_pairs 1024 4096 ++
        [⟨86016, 48, 0, true⟩, ⟨86096, 970640, 970640, false⟩] ∧
    86016 ∉ (free (free full_index_state 86048) 86088).free_heap.blocks := by
  have hlen : full_index_state.free_heap.size = MAX_FREE_BLOCKS := by
    simp [full_index_state, free_block_heap_t.size, free_pair_addrs_length, MAX_FREE_BLOCKS]
  obtain ⟨h1, h2, h3⟩ := full_index_leaks full_index_state (free_used_pairs 1024 4096)
    [⟨86096, 970640, 970640, false⟩] ⟨86016, 8, 8, false⟩ ⟨86056, 8, 8, false⟩
    full_index_state_well_formed (by rw [hlen]) rfl rfl rfl
    (chain_pairs _ (by simp [List.chain'_cons]) 1024 4096)
    (pairs_last_used 1024 4096) (by simp)
  refine ⟨full_index_state_reachable, full_index_state_well_formed, hlen, ?_, ?_, h1, ?_⟩
  · exact ⟨⟨86016, 8, 8, false⟩, by simp [full_index_state], rfl, rfl⟩
  · exact ⟨⟨86056, 8, 8, false⟩, by simp [full_index_state], rfl, rfl⟩
  · have h2b : (free (free full_index_state 86048) 86088).free_heap =
        full_index_state.free_heap := h2
    rw [h2b]
    exact h3

end MyMalloc

namespace MyMalloc

/-! ## C5: the pointers that are granted -/

theorem coalesce_used_iff (s0 : State) (hwf : well_formed s0) (c : block_meta_t)
    (hc : c.is_free = false) : c ∈ (coalesce s0).blocks ↔ c ∈ s0.blocks := by
  cases hl : s0.blocks with
  | nil => simp [coalesce, hl]
  | cons cur0 rest0 =>
    have e : coalesce s0 = coalesce_loop s0 [] cur0 rest0 := by simp [coalesce, hl]
    rw [e, ← hl]
    have := coalesce_loop_rule
      (fun s pre cur rest => well_formed s ∧ s.blocks = pre.reverse ++ cur :: rest ∧
        (c ∈ s.blocks ↔ c ∈ s0.blocks))
      (by
        intro s pre cur nxt rest h hfree hfree2 _
        obtain ⟨h1, h2⟩ := merge_step_well_formed s pre cur nxt rest h.1 h.2.1 hfree
        refine ⟨h1, h2, ?_⟩
        rw [← h.2.2, h2, h.2.1]
        have hm : c ≠ merged_block cur nxt := by
          intro e2
          rw [e2] at hc
          have : (merged_block cur nxt).is_free = true := hfree
          rw [this] at hc
          exact absurd hc (by simp)
        have hc1 : c ≠ cur := fun e2 => by rw [e2, hfree] at hc; exact absurd hc (by simp)
        have hc2 : c ≠ nxt := fun e2 => by rw [e2, hfree2] at hc; exact absurd hc (by simp)
        simp only [List.mem_append, List.mem_cons, hm, hc1, hc2, false_or])
      (by
        intro s pre cur nxt rest h _
        exact ⟨h.1, by rw [h.2.1]; simp, h.2.2⟩)
      rest0 s0 [] cur0 ⟨hwf, by simpa using hl, Iff.rfl⟩
    obtain ⟨_, _, _, _, h⟩ := this
    exact h

theorem free_used_iff (s : State) (l1 l2 : List block_meta_t) (b : block_meta_t)
    (hwf : well_formed s) (hl : s.blocks = l1 ++ b :: l2) (hu : b.is_free = false)
    (c : block_meta_t) (hc : c.is_free = false) :
    c ∈ (free s (b.addr + META_SIZE)).blocks ↔ c ∈ s.blocks ∧ c.addr ≠ b.addr := by
  obtain ⟨h1, h2, _, _⟩ := partitioned_split_bounds s hwf.2.1 l1 l2 b hl
  rw [free_shape s l1 l2 b hwf.2.1 hl,
    coalesce_used_iff _ (mark_free_well_formed s l1 l2 b hwf hl hu) c hc]
  simp only [insert_free_block_blocks, hl, List.mem_append, List.mem_cons]
  have hm : c ≠ { b with is_free := true, requested_size := 0 } := by
    intro e
    rw [e] at hc
    exact absurd hc (by simp)
  constructor
  · rintro (h | h | h)
    · exact ⟨Or.inl h, h1 c h⟩
    · exact absurd h hm
    · exact ⟨Or.inr (Or.inr h), h2 c h⟩
  · rintro ⟨h | h | h, hne⟩
    · exact Or.inl h
    · exact absurd (by rw [h]) hne
    · exact Or.inr (Or.inr h)

theorem malloc_null_state (os : sbrk_t) (s : State) (n : Nat) (hwf : well_formed s)
    (h : (malloc os s n).1 = 0) : (malloc os s n).2 = s := by
  by_cases hn : n = 0
  · subst hn
    rw [malloc_of_zero]
  rcases malloc_shape os s n hn hwf with ⟨_, h2⟩ | ⟨l1, b, l2, _, _, _, _, hptr, _⟩
  · rw [h2]
  · rw [hptr] at h
    have hM := META_SIZE_eq
    omega

theorem malloc_used_cases (os : sbrk_t) (s : State) (n : Nat) (hwf : well_formed s)
    (hne : (malloc os s n).1 ≠ 0) :
    ¬ granted s (malloc os s n).1 ∧ granted (malloc os s n).2 (malloc os s n).1 ∧
      ∀ c ∈ (malloc os s n).2.blocks, c.is_free = false →
        c ∈ s.blocks ∨ c.addr + META_SIZE = (malloc os s n).1 := by
  by_cases hn : n = 0
  · subst hn
    rw [malloc_of_zero] at hne
    exact absurd rfl hne
  rcases malloc_shape os s n hn hwf with ⟨_, h2⟩ | ⟨l1, b, l2, hl, hfree, _, _, hptr, hcase⟩
  · rw [h2] at hne
    exact absurd rfl hne
  have hbin : b ∈ s.blocks := by rw [hl]; simp
  refine ⟨?_, ?_, ?_⟩
  · rintro ⟨x, hx, hxu, e⟩
    rw [hptr] at e
    have e2 : x.addr = b.addr := by omega
    rw [partition_from_unique _ _ _ hwf.2.1.2 x hx b hbin e2, hfree] at hxu
    exact absurd hxu (by simp)
  · rw [hptr]
    rcases hcase with ⟨_, hst⟩ | ⟨_, hst⟩
    · rw [hst]
      exact ⟨{ b with is_free := false, requested_size := n }, by simp, rfl, rfl⟩
    · rw [hst]
      exact ⟨⟨b.addr, align8 n, n, false⟩, by simp, rfl, rfl⟩
  · intro c hc hcu
    rw [hptr, hl]
    rcases hcase with ⟨_, hst⟩ | ⟨_, hst⟩
    · rw [hst] at hc
      simp only [List.mem_append, List.mem_cons] at hc ⊢
      rcases hc with h | h | h
      · exact Or.inl (Or.inl h)
      · right
        rw [h]
      · exact Or.inl (Or.inr (Or.inr h))
    · rw [hst] at hc
      simp only [List.mem_append, List.mem_cons] at hc ⊢
      rcases hc with h | h | h | h
      · exact Or.inl (Or.inl h)
      · right
        rw [h]
      · rw [h] at hcu
        exact absurd hcu (by simp)
      · exact Or.inl (Or.inr (Or.inr h))

end MyMalloc

namespace MyMalloc

theorem live_after_sound (os : sbrk_t) (s0 : State) (h0 : well_formed s0) :
    ∀ (cs : List call) (s : State) (live live2 : List Nat),
      reachable os no_realloc s0 s →
      live.Nodup → (∀ p ∈ live, granted s p) →
      (∀ b ∈ s.blocks, b.is_free = false → b.addr + META_SIZE ∈ live) →
      live_after os s live cs = some live2 →
      reachable os no_realloc s0 (exec os s cs) ∧
        ∀ b ∈ (exec os s cs).blocks, b.is_free = false → b.addr + META_SIZE ∈ live2 := by
  intro cs
  induction cs with
  | nil =>
    intro s live live2 hr _ _ hused h
    simp only [live_after, Option.some.injEq] at h
    subst h
    exact ⟨hr, hused⟩
  | cons c cs ih =>
    intro s live live2 hr hnd hgr hused h
    have hwf := reachable_well_formed os _ s0 s h0 hr
    cases c with
    | malloc n =>
      simp only [live_after] at h
      have hr2 : reachable os no_realloc s0 (malloc os s n).2 :=
        reachable.next (call.malloc n) hr rfl trivial rfl
      have he : exec os s (call.malloc n :: cs) = exec os (malloc os s n).2 cs := rfl
      rw [he]
      by_cases hz : (malloc os s n).1 = 0
      · rw [if_pos hz] at h
        have hs := malloc_null_state os s n hwf hz
        refine ih _ live live2 hr2 hnd ?_ ?_ h
        · rw [hs]
          exact hgr
        · rw [hs]
          exact hused
      · rw [if_neg hz] at h
        obtain ⟨hfresh, hnew, hcases⟩ := malloc_used_cases os s n hwf hz
        refine ih _ _ live2 hr2 ?_ ?_ ?_ h
        · exact List.nodup_cons.2 ⟨fun hin => hfresh (hgr _ hin), hnd⟩
        · intro p hp
          rcases List.mem_cons.1 hp with hp | hp
          · rw [hp]
            exact hnew
          · exact malloc_granted os s n hwf p (hgr p hp)
        · intro b hb hbu
          rcases hcases b hb hbu with hb2 | hb2
          · exact List.mem_cons_of_mem _ (hused b hb2 hbu)
          · rw [hb2]
            exact List.mem_cons_self _ _
    | free p =>
      simp only [live_after] at h
      have he : exec os s (call.free p :: cs) = exec os (free s p) cs := rfl
      rw [he]
      by_cases hz : p = 0
      · rw [if_pos hz] at h
        have hr2 : reachable os no_realloc s0 (free s p) :=
          reachable.next (call.free p) hr rfl (Or.inl hz) rfl
        have hs : free s p = s := by simp [free, hz]
        refine ih _ live live2 hr2 hnd ?_ ?_ h
        · rw [hs]
          exact hgr
        · rw [hs]
          exact hused
      · rw [if_neg hz] at h
        by_cases hin : p ∈ live
        · rw [if_pos hin] at h
          have hg := hgr p hin
          have hr2 : reachable os no_realloc s0 (free s p) :=
            reachable.next (call.free p) hr rfl (Or.inr hg) rfl
          obtain ⟨l1, b, l2, hl, hu, hp⟩ := granted_listed s p hg
          subst hp
          refine ih _ _ live2 hr2 (List.Nodup.erase _ hnd) ?_ ?_ h
          · intro q hq
            obtain ⟨hq1, hq2⟩ := (List.Nodup.mem_erase_iff hnd).1 hq
            obtain ⟨x, hx, hxu, e⟩ := hgr q hq2
            refine ⟨x, (free_used_iff s l1 l2 b hwf hl hu x hxu).2 ⟨hx, ?_⟩, hxu, e⟩
            intro e2
            exact hq1 (by rw [e, e2])
          · intro x hx hxu
            obtain ⟨hx1, hx2⟩ := (free_used_iff s l1 l2 b hwf hl hu x hxu).1 hx
            refine (List.Nodup.mem_erase_iff hnd).2 ⟨?_, hused x hx1 hxu⟩
            omega
        · rw [if_neg hin] at h
          exact absurd h (by simp)
    | realloc p n =>
      simp [live_after] at h

/-- C5. Starting from the freshly initialised heap at `hs`, after any sequence
of `malloc`/`free` calls in which every pointer passed to `free` is null or was
returned by an earlier `malloc` and not freed since, and at whose end every
granted pointer has been freed (`live_after` ends with no pointer): the block
list consists of exactly one block, at `hs`, which is free and has size
`HEAP_SIZE - META_SIZE`, and the free index has size 1 with that block as its
only entry. -/
theorem all_freed_single_block (os : sbrk_t) (hs : Nat) (bytes : Nat → Nat) (cs : List call)
    (h : live_after os (fresh_heap hs bytes) [] cs = some []) :
    ∃ b, (exec os (fresh_heap hs bytes) cs).blocks = [b] ∧ b.addr = hs ∧ b.is_free = true ∧
      b.size = HEAP_SIZE - META_SIZE ∧
      (exec os (fresh_heap hs bytes) cs).free_heap.blocks = [b.addr] ∧
      (exec os (fresh_heap hs bytes) cs).free_heap.size = 1 := by
  obtain ⟨hr, hused⟩ := live_after_sound os (fresh_heap hs bytes)
    (fresh_heap_well_formed hs bytes) cs (fresh_heap hs bytes) [] [] reachable.start
    List.nodup_nil (by simp) (by simp [fresh_heap]) h
  refine no_used_block_single_block os hs bytes _ hr ?_
  intro b hb
  cases hbf : b.is_free with
  | true => rfl
  | false =>
    have := hused b hb hbf
    simp at this

/-- C5, witness: `malloc(100)`, `malloc(200)`, free the first, free the second. -/
theorem all_freed_single_block_witness :
    live_after sbrk_ok (fresh_heap 4096 zero_bytes) [] test7_calls = some [] ∧
    ∃ b, (exec sbrk_ok (fresh_heap 4096 zero_bytes) test7_calls).blocks = [b] ∧
      b.addr = 4096 ∧ b.is_free = true ∧ b.size = HEAP_SIZE - META_SIZE ∧
      (exec sbrk_ok (fresh_heap 4096 zero_bytes) test7_calls).free_heap.blocks = [b.addr] ∧
      (exec sbrk_ok (fresh_heap 4096 zero_bytes) test7_calls).free_heap.size = 1 :=
  ⟨by decide, all_freed_single_block sbrk_ok 4096 zero_bytes test7_calls (by decide)⟩

end MyMalloc

namespace MyMalloc

/-! ## C11: pointers outside the region -/

/-- C11. For every state and every non-null pointer `p` whose header address
`p - META_SIZE` lies outside `[heap_start, heap_start + HEAP_SIZE)`: `free(p)`
changes nothing but `stderr`, to which it appends the invalid-free diagnostic,
so every block header and the free index are unchanged; and `realloc(p, n)`
with `n > 0` returns `NULL` and the state it was given. -/
theorem out_of_range_pointer_is_rejected (os : sbrk_t) (s : State) (p n : Nat) (hp : p ≠ 0)
    (hout : get_block_meta p < s.heap_start ∨ get_block_meta p ≥ s.heap_start + HEAP_SIZE)
    (hn : 0 < n) :
    free s p = { s with stderr := s.stderr ++ [diag.invalid_free] } ∧
    (free s p).blocks = s.blocks ∧ (free s p).free_heap = s.free_heap ∧
    realloc os s p n = some (0, s) := by
  have hf : free s p = { s with stderr := s.stderr ++ [diag.invalid_free] } := by
    unfold free
    rw [if_neg hp]
    simp only
    rw [if_pos hout]
  refine ⟨hf, by rw [hf], by rw [hf], ?_⟩
  unfold realloc
  rw [if_neg hp, if_neg (by omega)]
  simp only
  rw [if_pos hout]

/-- C11, witness: on the fresh heap at 4096 the pointer 1056800 has its header
at `heap_start + HEAP_SIZE`, the first address behind the region. -/
theorem out_of_range_pointer_is_rejected_witness :
    (1056800 ≠ 0 ∧
      (get_block_meta 1056800 < (fresh_heap 4096 zero_bytes).heap_start ∨
        get_block_meta 1056800 ≥ (fresh_heap 4096 zero_bytes).heap_start + HEAP_SIZE) ∧
      0 < 8) ∧
    (free (fresh_heap 4096 zero_bytes) 1056800).blocks = (fresh_heap 4096 zero_bytes).blocks ∧
    (free (fresh_heap 4096 zero_bytes) 1056800).free_heap =
      (fresh_heap 4096 zero_bytes).free_heap ∧
    realloc sbrk_ok (fresh_heap 4096 zero_bytes) 1056800 8 =
      some (0, fresh_heap 4096 zero_bytes) :=
  ⟨⟨by decide, by decide, by decide⟩,
    (out_of_range_pointer_is_rejected sbrk_ok (fresh_heap 4096 zero_bytes) 1056800 8
      (by decide) (by decide) (by decide)).2⟩

end MyMalloc

namespace MyMalloc

/-! ## C14: shrinking in place -/

/-- C14. In a state whose block list partitions the region, for every in-use
block `b` and every `n` with `0 < n ≤ b.size`, `realloc(p, n)` on the payload
pointer `p` of `b` returns `p` itself, the first `n` payload bytes at `p` are
unchanged, and the header at `b` is still in use with `requested_size = n`; its
size is `n` when the block was split and is unchanged otherwise. -/
theorem realloc_shrinks_in_place (os : sbrk_t) (s : State) (b : block_meta_t) (n : Nat)
    (hpart : partitioned s) (hb : b ∈ s.blocks) (hu : b.is_free = false)
    (h0 : 0 < n) (hle : n ≤ b.size) :
    ∃ t c, realloc os s (b.addr + META_SIZE) n = some (b.addr + META_SIZE, t) ∧
      (∀ i, i < n → t.bytes (b.addr + META_SIZE + i) = s.bytes (b.addr + META_SIZE + i)) ∧
      find_block t.blocks b.addr = some c ∧ c.is_free = false ∧ c.requested_size = n ∧
      c.size = if n + META_SIZE + 16 ≤ b.size then n else b.size := by
  obtain ⟨l1, l2, hl⟩ := List.append_of_mem hb
  obtain ⟨h1, h2, hlo, hhi⟩ := partitioned_split_bounds s hpart l1 l2 b hl
  have hM := META_SIZE_eq
  have hH := HEAP_SIZE_eq
  have hS := SIZE_MODULUS_eq
  have hr : realloc os s (b.addr + META_SIZE) n =
      some (b.addr + META_SIZE,
        split_block { s with blocks := l1 ++ { b with requested_size := n } :: l2 } b.addr n) := by
    unfold realloc
    rw [if_neg (by omega), if_neg (by omega)]
    simp only [get_block_meta, Nat.add_sub_cancel]
    rw [if_neg (by omega), block_size_of_mem _ _ s.blocks hpart.2 b hb, if_pos hle]
    rw [hl, update_block_split _ l1 l2 b h1 h2]
  rw [hr]
  by_cases hsp : n + META_SIZE + 16 ≤ b.size
  · have e := split_block_split
      { s with blocks := l1 ++ { b with requested_size := n } :: l2 } l1 l2
      { b with requested_size := n } n rfl h1 (by simp only; omega) hsp
    simp only at e
    refine ⟨_, ⟨b.addr, n, n, b.is_free⟩, rfl, ?_, ?_, hu, rfl, by rw [if_pos hsp]⟩
    · intro i _
      rw [split_block_bytes]
    · rw [e, insert_free_block_blocks]
      exact find_block_split l1 _ ⟨b.addr, n, n, b.is_free⟩ h1
  · have e := split_block_no_split
      { s with blocks := l1 ++ { b with requested_size := n } :: l2 } l1 l2
      { b with requested_size := n } n rfl h1 (by omega) (by simp only; omega)
    simp only at e
    refine ⟨_, ⟨b.addr, b.size, n, b.is_free⟩, rfl, ?_, ?_, hu, rfl, by rw [if_neg hsp]⟩
    · intro i _
      rw [split_block_bytes]
    · rw [e]
      exact find_block_split l1 _ ⟨b.addr, b.size, n, b.is_free⟩ h1

/-- C14, witness: the 104-byte block granted by `malloc(100)` is shrunk to 60. -/
theorem realloc_shrinks_in_place_witness :
    (partitioned after_malloc_100 ∧
      (⟨4096, 104, 100, false⟩ : block_meta_t) ∈ after_malloc_100.blocks ∧ 0 < 60 ∧ 60 ≤ 104) ∧
    ∃ t c, realloc sbrk_ok after_malloc_100 (4096 + META_SIZE) 60 = some (4096 + META_SIZE, t) ∧
      (∀ i, i < 60 → t.bytes (4096 + META_SIZE + i) =
        after_malloc_100.bytes (4096 + META_SIZE + i)) ∧
      find_block t.blocks 4096 = some c ∧ c.is_free = false ∧ c.requested_size = 60 ∧
      c.size = if 60 + META_SIZE + 16 ≤ 104 then 60 else 104 :=
  have hp : partitioned after_malloc_100 :=
    (reachable_well_formed sbrk_ok any_call _ _ (fresh_heap_well_formed 4096 zero_bytes)
      (exec_reachable _ _ _ _ _ reachable.start (by decide))).2.1
  ⟨⟨hp, by decide, by decide, by decide⟩,
    realloc_shrinks_in_place sbrk_ok after_malloc_100 ⟨4096, 104, 100, false⟩ 60 hp
      (by decide) rfl (by decide) (by decide)⟩

end MyMalloc

namespace MyMalloc

/-! ## C16: the first request on the fresh heap -/

/-- C16. On the freshly initialised heap at `hs`, for every `S` with
`1 ≤ S ≤ 1048576`, `malloc(S)` returns the non-null pointer `hs + META_SIZE`: the
initial block is split into the granted block of size `align8 S ≥ S` at `hs`
and a free remainder. The same pointer is returned when the heap is still
uninitialised and `sbrk` hands out the region at `hs`. -/
theorem fresh_heap_grants_one_mebibyte (os : sbrk_t) (hs : Nat) (bytes : Nat → Nat) (S : Nat)
    (h1 : 1 ≤ S) (h2 : S ≤ 1048576) :
    (malloc os (fresh_heap hs bytes) S).1 = hs + META_SIZE ∧
    (malloc os (fresh_heap hs bytes) S).1 ≠ 0 ∧
    S ≤ align8 S ∧
    (malloc os (fresh_heap hs bytes) S).2.blocks =
      [⟨hs, align8 S, S, false⟩,
       ⟨hs + META_SIZE + align8 S, HEAP_SIZE - META_SIZE - align8 S - META_SIZE, 0, true⟩] ∧
    (hs ≠ VOID_MINUS_ONE → (malloc ⟨hs, false⟩ (boot bytes) S).1 = hs + META_SIZE) := by
  have hM := META_SIZE_eq
  have hH := HEAP_SIZE_eq
  have hS := SIZE_MODULUS_eq
  have hn0 : S ≠ 0 := by omega
  obtain ⟨_, hle, hmin⟩ := align8_spec S (by omega)
  have hup : align8 S ≤ 1048576 := hmin 1048576 ⟨131072, by norm_num⟩ h2
  have key : ∀ os2 : sbrk_t, (malloc os2 (fresh_heap hs bytes) S).1 = hs + META_SIZE ∧
      (malloc os2 (fresh_heap hs bytes) S).2.blocks =
        [⟨hs, align8 S, S, false⟩,
         ⟨hs + META_SIZE + align8 S, HEAP_SIZE - META_SIZE - align8 S - META_SIZE, 0, true⟩] := by
    intro os2
    rcases malloc_shape os2 (fresh_heap hs bytes) S hn0 (fresh_heap_well_formed hs bytes) with
      ⟨hnone, _⟩ | ⟨l1, b, l2, hl, _, _, _, hptr, hcase⟩
    · exfalso
      have := (find_free_block_none _ _ hnone).2 hs (by simp [fresh_heap])
      have e : block_size (fresh_heap hs bytes).blocks hs = HEAP_SIZE - META_SIZE := by
        simp [fresh_heap, block_size, find_block]
      omega
    · have hl2 : l1 ++ b :: l2 = [⟨hs, HEAP_SIZE - META_SIZE, 0, true⟩] := by
        rw [← hl]
        rfl
      obtain ⟨e1, e2, e3⟩ := append_cons_eq_singleton l1 l2 b _ hl2
      subst e1 e2 e3
      refine ⟨hptr, ?_⟩
      rcases hcase with ⟨hlt, _⟩ | ⟨_, hst⟩
      · simp only at hlt
        omega
      · rw [hst]
        rfl
  refine ⟨(key os).1, ?_, hle, (key os).2, ?_⟩
  · rw [(key os).1]
    omega
  · intro hne
    rw [malloc_uninitialized _ _ S hn0 rfl, init_heap_fresh hs bytes hne]
    rw [if_neg (by simp [fresh_heap])]
    exact (key _).1

/-- C16, witness: a request of one mebibyte. -/
theorem fresh_heap_grants_one_mebibyte_witness :
    (1 ≤ 1024 * 1024 ∧ 1024 * 1024 ≤ 1048576) ∧
    (malloc sbrk_ok (fresh_heap 4096 zero_bytes) (1024 * 1024)).1 = 4096 + META_SIZE ∧
    (malloc sbrk_ok (fresh_heap 4096 zero_bytes) (1024 * 1024)).1 ≠ 0 :=
  ⟨by decide,
    (fresh_heap_grants_one_mebibyte sbrk_ok 4096 zero_bytes (1024 * 1024)
      (by decide) (by decide)).1,
    (fresh_heap_grants_one_mebibyte sbrk_ok 4096 zero_bytes (1024 * 1024)
      (by decide) (by decide)).2.1⟩

/-! ## C17: the scan of `find_free_block` -/

/-- C17. For every state and every `min_size`: `find_free_block` returns `NULL`
exactly when no entry of the index has size `≥ min_size`, and then the state
is unchanged; when it returns a block, that block is the entry at the least
slot `i` whose size is `≥ min_size`, the entries that remain are the previous
entries without one occurrence of the returned one, `free_heap.size` has
decreased by one, and no block header has changed. -/
theorem find_free_block_first_match (s : State) (n : Nat) :
    ((find_free_block s n).1 = none ↔
      ∀ p ∈ s.free_heap.blocks, block_size s.blocks p < n) ∧
    ((find_free_block s n).1 = none → (find_free_block s n).2 = s) ∧
    ∀ b, (find_free_block s n).1 = some b →
      (∃ i, i < s.free_heap.size ∧ s.free_heap.blocks.getD i 0 = b ∧
        n ≤ block_size s.blocks b ∧
        ∀ j, j < i → block_size s.blocks (s.free_heap.blocks.getD j 0) < n) ∧
      s.free_heap.blocks.Perm (b :: (find_free_block s n).2.free_heap.blocks) ∧
      (find_free_block s n).2.free_heap.size + 1 = s.free_heap.size ∧
      (find_free_block s n).2.blocks = s.blocks := by
  refine ⟨⟨fun h => (find_free_block_none s n h).2, ?_⟩,
    fun h => (find_free_block_none s n h).1, ?_⟩
  · intro hall
    cases hf : (find_free_block s n).1 with
    | none => rfl
    | some b =>
      obtain ⟨hmem, hsz⟩ := find_free_block_some s n b hf
      have := hall b hmem
      omega
  · intro b hb
    have hperm := find_free_block_perm s n b hb
    refine ⟨?_, hperm, ?_, find_free_block_blocks s n⟩
    · unfold find_free_block at hb
      cases hi : first_index (fun p => decide (block_size s.blocks p ≥ n))
          s.free_heap.blocks 0 with
      | none => simp [hi] at hb
      | some i =>
        obtain ⟨_, h2, h3, h4⟩ := first_index_some _ _ _ _ hi
        simp only [Nat.sub_zero] at h2 h3 h4
        simp only [hi, Option.some.injEq] at hb
        refine ⟨i, h2, hb, ?_, ?_⟩
        · rw [← hb]
          simpa using h3
        · intro j hj
          have := h4 j hj
          simpa using this
    · have := hperm.length_eq
      simp only [List.length_cons] at this
      simp only [free_block_heap_t.size]
      omega

end MyMalloc

namespace MyMalloc

/-! ## C19: the bytes lost when a block is granted whole -/

theorem link_after_length (p a : Nat) (nb : block_meta_t) :
    ∀ bl : List block_meta_t, find_block bl p ≠ none →
      (link_after bl p a nb).length = bl.length + 1 := by
  intro bl
  induction bl with
  | nil => intro h; simp [find_block] at h
  | cons b rest ih =>
    intro h
    by_cases hb : b.addr = p
    · simp [link_after, hb]
    · have h2 : find_block rest p ≠ none := by
        simpa [find_block, List.find?_cons, hb] using h
      simp [link_after, hb, ih h2]

theorem align8_lt (n : Nat) : align8 n < SIZE_MODULUS := by
  simp only [align8, add64, SIZE_MODULUS]
  omega

/-- C19 (as amended). In an initialised state, when `malloc(n)` finds the block
`b` and grants it whole, that is, the block list has no new block after the
call, the size of `b` is unchanged, it is at least the rounded request `align8 n`
and exceeds it by at most `META_SIZE + 15 = 47` bytes. -/
theorem whole_grant_fragmentation (os : sbrk_t) (s : State) (n b : Nat) (hn : n ≠ 0)
    (hi : s.is_initialized = true)
    (hf : (find_free_block s (align8 n)).1 = some b)
    (hwhole : (malloc os s n).2.blocks.length = s.blocks.length) :
    (malloc os s n).1 = b + META_SIZE ∧
    block_size (malloc os s n).2.blocks b = block_size s.blocks b ∧
    align8 n ≤ block_size s.blocks b ∧
    block_size s.blocks b - align8 n ≤ META_SIZE + 15 := by
  have hM := META_SIZE_eq
  have hS := SIZE_MODULUS_eq
  have ha := align8_lt n
  have hsz := (find_free_block_some s (align8 n) b hf).2
  have hbl := find_free_block_blocks s (align8 n)
  rw [malloc_some os s n b hn hi hf] at hwhole ⊢
  simp only at hwhole ⊢
  rw [block_size_update (fun x => { x with is_free := false, requested_size := n })
    (fun _ => rfl) (fun _ => rfl)]
  simp only [update_block, List.length_map] at hwhole
  rw [← hbl] at hsz hwhole ⊢
  generalize (find_free_block s (align8 n)).2 = s1 at hsz hwhole ⊢
  unfold split_block at hwhole ⊢
  cases hb : find_block s1.blocks b with
  | none =>
    have hc : block_size s1.blocks b = 0 := by simp [block_size, hb]
    simp only [hb]
    rw [hc] at hsz ⊢
    exact ⟨trivial, trivial, hsz, by omega⟩
  | some c =>
    have hc : block_size s1.blocks b = c.size := by simp [block_size, hb]
    simp only [hb] at hwhole ⊢
    by_cases hsp : c.size ≥ add64 (add64 (align8 n) META_SIZE) 16
    · exfalso
      rw [if_pos hsp] at hwhole
      rw [insert_free_block_blocks] at hwhole
      simp only at hwhole
      rw [link_after_length _ _ _ _ (by rw [hb]; simp)] at hwhole
      omega
    · rw [if_neg hsp]
      refine ⟨trivial, rfl, hsz, ?_⟩
      rw [hc] at hsz ⊢
      simp only [add64, SIZE_MODULUS] at hsp
      omega

/-- C19, witness: `malloc(8)` on `after_whole_grant_calls` finds the 48-byte
block at 4136 and grants it whole. -/
theorem whole_grant_fragmentation_witness :
    (8 ≠ 0 ∧ after_whole_grant_calls.is_initialized = true ∧
      (find_free_block after_whole_grant_calls (align8 8)).1 = some 4136 ∧
      (malloc sbrk_ok after_whole_grant_calls 8).2.blocks.length =
        after_whole_grant_calls.blocks.length) ∧
    (malloc sbrk_ok after_whole_grant_calls 8).1 = 4136 + META_SIZE ∧
    block_size (malloc sbrk_ok after_whole_grant_calls 8).2.blocks 4136 =
      block_size after_whole_grant_calls.blocks 4136 ∧
    align8 8 ≤ block_size after_whole_grant_calls.blocks 4136 ∧
    block_size after_whole_grant_calls.blocks 4136 - align8 8 ≤ META_SIZE + 15 :=
  ⟨⟨by decide, by decide, by decide, by decide⟩,
    whole_grant_fragmentation sbrk_ok after_whole_grant_calls 8 4136 (by decide) (by decide)
      (by decide) (by decide)⟩

/-- C19 (counterexample). After `malloc(8)`, `malloc(48)`, `malloc(8)` and `free`
of the second pointer, `malloc(8)` finds the free 48-byte block at 4136. The
block is not split, because `48 < 8 + META_SIZE + 16`, and is granted whole:
`block->size - aligned_size` is `48 - 8 = 40`, which is more than 23. -/
theorem whole_grant_wastes_forty_bytes :
    reachable sbrk_ok any_call (fresh_heap 4096 zero_bytes) after_whole_grant_calls ∧
    after_whole_grant_calls.blocks =
      [⟨4096, 8, 8, false⟩, ⟨4136, 48, 0, true⟩, ⟨4216, 8, 8, false⟩,
       ⟨4256, 1052480, 0, true⟩] ∧
    align8 8 = 8 ∧
    (find_free_block after_whole_grant_calls (align8 8)).1 = some 4136 ∧
    (malloc sbrk_ok after_whole_grant_calls 8).1 = 4168 ∧
    (malloc sbrk_ok after_whole_grant_calls 8).2.blocks =
      [⟨4096, 8, 8, false⟩, ⟨4136, 48, 8, false⟩, ⟨4216, 8, 8, false⟩,
       ⟨4256, 1052480, 0, true⟩] ∧
    block_size (malloc sbrk_ok after_whole_grant_calls 8).2.blocks 4136 - align8 8 = 40 ∧
    ¬ (block_size (malloc sbrk_ok after_whole_grant_calls 8).2.blocks 4136 - align8 8 ≤ 23) := by
  refine ⟨exec_reachable _ _ _ _ _ reachable.start (by decide), by decide, by decide,
    by decide, by decide, by decide, by decide, by decide⟩

end MyMalloc

namespace MyMalloc

/-! ## C20: no two adjacent free blocks after `free` -/

theorem merge_step_partitioned (s : State) (pre : List block_meta_t) (cur nxt : block_meta_t)
    (rest : List block_meta_t) (hp : partitioned s)
    (hl : s.blocks = pre.reverse ++ cur :: nxt :: rest) :
    partitioned (merge_step s pre cur nxt rest) ∧
      (merge_step s pre cur nxt rest).blocks = pre.reverse ++ merged_block cur nxt :: rest := by
  obtain ⟨_, hpart⟩ := hp
  rw [hl] at hpart
  have hsz := merged_block_size _ _ _ _ cur nxt hpart (le_refl _)
  unfold merge_step
  simp only [insert_free_block_blocks, and_true]
  refine ⟨by simp, ?_⟩
  simp only [insert_free_block_heap_start, remove_free_block_heap_start,
    insert_free_block_blocks]
  exact partition_from_merge _ _ _ rest cur nxt _ hpart rfl hsz

theorem coalesce_no_adjacent_free (s : State) (hp : partitioned s) :
    partitioned (coalesce s) ∧ no_adjacent_free (coalesce s).blocks := by
  cases hl : s.blocks with
  | nil => exact absurd hl hp.1
  | cons cur rest =>
    have e : coalesce s = coalesce_loop s [] cur rest := by simp [coalesce, hl]
    rw [e]
    have := coalesce_loop_rule
      (fun s pre cur rest => partitioned s ∧ s.blocks = pre.reverse ++ cur :: rest ∧
        List.Chain' (fun b c : block_meta_t => ¬ (b.is_free = true ∧ c.is_free = true))
          (pre.reverse ++ [cur]))
      (by
        intro s pre cur nxt rest h _ _ _
        obtain ⟨h1, h2⟩ := merge_step_partitioned s pre cur nxt rest h.1 h.2.1
        exact ⟨h1, h2, chain_same_flag _ cur _ h.2.2 rfl⟩)
      (by
        intro s pre cur nxt rest h hno
        refine ⟨h.1, by rw [h.2.1]; simp, ?_⟩
        have hpp := h.1.2
        rw [h.2.1, partition_from_append] at hpp
        obtain ⟨_, _, _, hadj, _⟩ := hpp
        have hr : ¬ (cur.is_free = true ∧ nxt.is_free = true) :=
          fun hc => hno ⟨hc.1, hc.2, hadj.symm⟩
        have e2 : (cur :: pre).reverse ++ [nxt] = pre.reverse ++ cur :: [nxt] := by simp
        rw [e2, List.chain'_split, List.chain'_pair]
        exact ⟨h.2.2, hr⟩)
      rest s [] cur ⟨hp, by simpa using hl, by simp⟩
    obtain ⟨pre2, cur2, h1, h2, h3⟩ := this
    refine ⟨h1, ?_⟩
    rw [no_adjacent_free_iff, h2]
    exact h3

/-- C20. In a state whose block list partitions the region, after `free(p)` of a
granted pointer `p` no free block of the block list has a next block that is
free as well, and the list still partitions the region. The coalescing pass is
a structural recursion over the list, so it ends. -/
theorem free_leaves_no_adjacent_free (s : State) (p : Nat) (hpart : partitioned s)
    (hp : granted s p) :
    no_adjacent_free (free s p).blocks ∧ partitioned (free s p) := by
  obtain ⟨l1, b, l2, hl, _, rfl⟩ := granted_listed s p hp
  rw [free_shape s l1 l2 b hpart hl]
  have hp2 : partitioned (insert_free_block
      { s with blocks := l1 ++ { b with is_free := true, requested_size := 0 } :: l2 }
      b.addr) := by
    refine ⟨by simp, ?_⟩
    simp only [insert_free_block_heap_start, insert_free_block_blocks]
    have := hpart.2
    rw [hl] at this
    exact partition_from_replace _ _ l1 l2 b _ this rfl rfl
  exact ⟨(coalesce_no_adjacent_free _ hp2).2, (coalesce_no_adjacent_free _ hp2).1⟩

/-- C20, witness: in the state after `malloc(100)`, `malloc(200)`, `malloc(50)`
the 50-byte block at 4464 is freed and merges with the free block behind it. -/
theorem free_leaves_no_adjacent_free_witness :
    (partitioned three_blocks ∧ granted three_blocks 4496) ∧
    no_adjacent_free (free three_blocks 4496).blocks ∧
    (free three_blocks 4496).blocks =
      [⟨4096, 104, 100, false⟩, ⟨4232, 200, 200, false⟩, ⟨4464, 1052272, 0, true⟩] :=
  have hp : partitioned three_blocks :=
    (reachable_well_formed sbrk_ok any_call _ _ (fresh_heap_well_formed 4096 zero_bytes)
      (exec_reachable _ _ _ _ _ reachable.start (by decide))).2.1
  ⟨⟨hp, by decide⟩, (free_leaves_no_adjacent_free three_blocks 4496 hp (by decide)).1,
    by decide⟩

end MyMalloc

namespace MyMalloc

/-! ## C12: `realloc` when nothing fits -/

/-- C12 (as amended). In a well-formed state, for an in-use block `b` with payload
pointer `p` and a request `n` with `b.size < n ≤ 2^64 - 8`: if no free block of
the block list has size `≥ n`, then `realloc(p, n)` returns `NULL` and the state
it was given, so `b` is still in use with the same size, `requested_size` and
payload bytes, and the block list and the free index are unchanged. -/
theorem realloc_fails_without_fit (os : sbrk_t) (s : State) (b : block_meta_t) (n : Nat)
    (hwf : well_formed s) (hb : b ∈ s.blocks) (hu : b.is_free = false)
    (hlt : b.size < n) (hn : n ≤ SIZE_MODULUS - 8)
    (hnone : ∀ c ∈ s.blocks, c.is_free = true → c.size < n) :
    realloc os s (b.addr + META_SIZE) n = some (0, s) := by
  have hn0 : n ≠ 0 := by omega
  obtain ⟨_, hle, _⟩ := align8_spec n hn
  have hm : malloc os s n = (0, s) := by
    rcases malloc_shape os s n hn0 hwf with ⟨_, h⟩ | ⟨l1, f, l2, hl, hfree, _, hsz, _, _⟩
    · exact h
    · exfalso
      have := hnone f (by rw [hl]; simp) hfree
      omega
  rw [realloc_move os s n hn0 b hwf hb hu hlt, hm]
  simp

/-- C12, witness: after `malloc(100)` the only free block has 1052504 bytes, and
the 104-byte block is to grow to 2000000 bytes. -/
theorem realloc_fails_without_fit_witness :
    ((⟨4096, 104, 100, false⟩ : block_meta_t) ∈ after_malloc_100.blocks ∧
      104 < 2000000 ∧ 2000000 ≤ SIZE_MODULUS - 8 ∧
      ∀ c ∈ after_malloc_100.blocks, c.is_free = true → c.size < 2000000) ∧
    realloc sbrk_ok after_malloc_100 (4096 + META_SIZE) 2000000 = some (0, after_malloc_100) :=
  ⟨⟨by decide, by decide, by decide, by decide⟩,
    realloc_fails_without_fit sbrk_ok after_malloc_100 ⟨4096, 104, 100, false⟩ 2000000
      (reachable_well_formed sbrk_ok any_call _ _ (fresh_heap_well_formed 4096 zero_bytes)
        (exec_reachable _ _ _ _ _ reachable.start (by decide)))
      (by decide) rfl (by decide) (by decide) (by decide)⟩

/-- C12 (counterexample). After `malloc(100)` the pointer 4128 is granted, its
block has 104 bytes, and the only free block has 1052504 bytes, so for
`n = 2^64 - 1` no free block has size `≥ n`. The `malloc(n)` inside
`realloc(4128, n)` nevertheless rounds `n` to 0 and returns the non-null pointer
4264, which is what `realloc` returns: the result is not `NULL` with the state
unchanged. -/
theorem realloc_huge_request_is_granted :
    granted after_malloc_100 4128 ∧
    block_size after_malloc_100.blocks (get_block_meta 4128) = 104 ∧
    104 < 2 ^ 64 - 1 ∧
    (∀ c ∈ after_malloc_100.blocks, c.is_free = true → c.size < 2 ^ 64 - 1) ∧
    (malloc sbrk_ok after_malloc_100 (2 ^ 64 - 1)).1 = 4264 ∧
    realloc sbrk_ok after_malloc_100 4128 (2 ^ 64 - 1) ≠ some (0, after_malloc_100) := by
  refine ⟨by decide, by decide, by decide, by decide, by decide, ?_⟩
  intro h
  have hnone : (realloc sbrk_ok after_malloc_100 4128 (2 ^ 64 - 1)).isSome = false := by
    decide
  rw [h] at hnone
  exact absurd hnone (by simp)

/-! ## C13: growing moves the payload -/

theorem merge_step_bytes (s : State) (pre : List block_meta_t) (cur nxt : block_meta_t)
    (rest : List block_meta_t) : (merge_step s pre cur nxt rest).bytes = s.bytes := by
  simp [merge_step, insert_free_block_bytes]

theorem coalesce_loop_bytes :
    ∀ (rest : List block_meta_t) (s : State) (pre : List block_meta_t) (cur : block_meta_t),
      (coalesce_loop s pre cur rest).bytes = s.bytes := by
  intro rest
  induction rest with
  | nil => intro s pre cur; rfl
  | cons nxt rest ih =>
    intro s pre cur
    simp only [coalesce_loop]
    split_ifs
    · rw [ih, merge_step_bytes]
    · rw [ih]
    · rw [ih]

theorem coalesce_bytes (s : State) : (coalesce s).bytes = s.bytes := by
  unfold coalesce
  split
  · rfl
  · rw [coalesce_loop_bytes]

theorem free_bytes (s : State) (p : Nat) : (free s p).bytes = s.bytes := by
  simp only [free]
  split_ifs
  · rfl
  · rfl
  · rw [coalesce_bytes, insert_free_block_bytes]

theorem coalesce_covers (s0 : State) (hp : partitioned s0) (x : block_meta_t)
    (hx : x ∈ s0.blocks) :
    ∃ c ∈ (coalesce s0).blocks, c.is_free = x.is_free ∧ c.addr ≤ x.addr ∧
      x.addr + META_SIZE + x.size ≤ c.addr + META_SIZE + c.size := by
  cases hl : s0.blocks with
  | nil => exact absurd hl hp.1
  | cons cur0 rest0 =>
    have e : coalesce s0 = coalesce_loop s0 [] cur0 rest0 := by simp [coalesce, hl]
    rw [e]
    have := coalesce_loop_rule
      (fun s pre cur rest => partitioned s ∧ s.blocks = pre.reverse ++ cur :: rest ∧
        ∃ c ∈ s.blocks, c.is_free = x.is_free ∧ c.addr ≤ x.addr ∧
          x.addr + META_SIZE + x.size ≤ c.addr + META_SIZE + c.size)
      (by
        intro s pre cur nxt rest h hfree hfree2 hadj
        obtain ⟨h1, h2⟩ := merge_step_partitioned s pre cur nxt rest h.1 h.2.1
        refine ⟨h1, h2, ?_⟩
        obtain ⟨c, hc, hcf, hca, hce⟩ := h.2.2
        have hpp := h.1.2
        rw [h.2.1] at hpp
        have hsz := merged_block_size _ _ _ _ cur nxt hpp (le_refl _)
        have hma : (merged_block cur nxt).addr = cur.addr := rfl
        have hmf : (merged_block cur nxt).is_free = cur.is_free := rfl
        rw [h.2.1] at hc
        rw [h2]
        simp only [List.mem_append, List.mem_cons] at hc ⊢
        rcases hc with hc | hc | hc | hc
        · exact ⟨c, Or.inl hc, hcf, hca, hce⟩
        · refine ⟨merged_block cur nxt, Or.inr (Or.inl rfl), ?_, ?_, ?_⟩
          · rw [hmf, ← hc, hcf]
          · rw [hma, ← hc]; exact hca
          · rw [hma, hsz]
            rw [hc] at hce
            omega
        · refine ⟨merged_block cur nxt, Or.inr (Or.inl rfl), ?_, ?_, ?_⟩
          · rw [hmf, hfree, ← hcf, hc, hfree2]
          · rw [hma]
            rw [hc] at hca
            omega
          · rw [hma, hsz]
            rw [hc] at hce
            omega
        · exact ⟨c, Or.inr (Or.inr hc), hcf, hca, hce⟩)
      (by
        intro s pre cur nxt rest h _
        exact ⟨h.1, by rw [h.2.1]; simp, h.2.2⟩)
      rest0 s0 [] cur0 ⟨hp, by simpa using hl, x, hx, rfl, le_refl _, le_refl _⟩
    obtain ⟨_, _, _, _, h3⟩ := this
    exact h3

/-- C13 (as amended). In a well-formed state, for an in-use block `b` with payload
pointer `p` and a request `n` with `b.size < n ≤ 2^64 - 8`, `realloc(p, n)`
returns; if the pointer `q` it returns is not null, then `q ≠ p`, `q` is a
granted pointer of the new state, the first `b.size` bytes at `q` are the bytes
that were at `p` before the call, and the bytes of `b` lie in a free block of
the new block list. -/
theorem realloc_grow_keeps_old_bytes (os : sbrk_t) (s : State) (b : block_meta_t) (n : Nat)
    (hwf : well_formed s) (hb : b ∈ s.blocks) (hu : b.is_free = false)
    (hlt : b.size < n) (hn : n ≤ SIZE_MODULUS - 8) :
    ∃ q t, realloc os s (b.addr + META_SIZE) n = some (q, t) ∧
      (q ≠ 0 →
        q ≠ b.addr + META_SIZE ∧ granted t q ∧
        (∀ i, i < b.size → t.bytes (q + i) = s.bytes (b.addr + META_SIZE + i)) ∧
        ∃ c ∈ t.blocks, c.is_free = true ∧ c.addr ≤ b.addr ∧
          b.addr + META_SIZE + b.size ≤ c.addr + META_SIZE + c.size) := by
  have hn0 : n ≠ 0 := by omega
  have hM := META_SIZE_eq
  rw [realloc_move os s n hn0 b hwf hb hu hlt]
  by_cases hq : (malloc os s n).1 = 0
  · rw [if_pos hq]
    exact ⟨0, _, rfl, fun h => absurd rfl h⟩
  rw [if_neg hq]
  have hsz := malloc_initialized_size os s n (by omega) hn hwf.1 hq
  rw [if_neg (by omega)]
  refine ⟨_, _, rfl, fun _ => ?_⟩
  obtain ⟨hng, hg, _⟩ := malloc_used_cases os s n hwf hq
  have hwf1 := malloc_well_formed os s n hwf
  have hb1 := malloc_keeps_used os s n hwf b hb hu
  obtain ⟨l1, l2, hl⟩ := List.append_of_mem hb1
  have hwf2 : well_formed { (malloc os s n).2 with
      bytes := memcpy (malloc os s n).2.bytes (malloc os s n).1 (b.addr + META_SIZE) b.size } :=
    well_formed_bytes _ _ hwf1
  refine ⟨?_, ?_, ?_, ?_⟩
  · intro e
    rw [e] at hng
    exact hng ⟨b, hb, hu, rfl⟩
  · obtain ⟨c, hc, hcu, hce⟩ := hg
    refine ⟨c, ?_, hcu, hce⟩
    rw [free_used_iff _ l1 l2 b hwf2 hl hu c hcu]
    refine ⟨hc, ?_⟩
    intro e
    apply hng
    rw [hce, e]
    exact ⟨b, hb, hu, rfl⟩
  · intro i hi
    rw [free_bytes]
    simp only [memcpy]
    rw [if_pos (by omega), malloc_bytes]
    congr 1
    omega
  · rw [free_shape _ l1 l2 b hwf2.2.1 hl]
    have hp3 : partitioned (insert_free_block
        { ({ (malloc os s n).2 with
              bytes := memcpy (malloc os s n).2.bytes (malloc os s n).1
                (b.addr + META_SIZE) b.size } : State) with
          blocks := l1 ++ { b with is_free := true, requested_size := 0 } :: l2 }
        b.addr) := by
      refine ⟨by simp, ?_⟩
      simp only [insert_free_block_heap_start, insert_free_block_blocks]
      have := hwf1.2.1.2
      rw [hl] at this
      exact partition_from_replace _ _ l1 l2 b _ this rfl rfl
    obtain ⟨c, hc, hcf, hca, hce⟩ := coalesce_covers _ hp3
      { b with is_free := true, requested_size := 0 } (by simp)
    exact ⟨c, hc, hcf, hca, hce⟩

/-- C13, witness: the run of `test4_realloc`. The 56-byte block of `malloc(50)`,
filled with `0xCC`, grows to 100 bytes: `realloc` returns 4216, and the byte
at offset 49 of the new payload holds `0xCC`. -/
theorem realloc_grow_keeps_old_bytes_witness :
    ((⟨4096, 56, 50, false⟩ : block_meta_t) ∈ after_fill_50.blocks ∧ 56 < 100 ∧
      100 ≤ SIZE_MODULUS - 8) ∧
    (∃ q t, realloc sbrk_ok after_fill_50 (4096 + META_SIZE) 100 = some (q, t) ∧
      (q ≠ 0 →
        q ≠ 4096 + META_SIZE ∧ granted t q ∧
        (∀ i, i < 56 → t.bytes (q + i) = after_fill_50.bytes (4096 + META_SIZE + i)) ∧
        ∃ c ∈ t.blocks, c.is_free = true ∧ c.addr ≤ 4096 ∧
          4096 + META_SIZE + 56 ≤ c.addr + META_SIZE + c.size)) ∧
    (realloc sbrk_ok after_fill_50 4128 100).map (fun r => (r.1, r.2.bytes (r.1 + 49))) =
      some (4216, 204) :=
  ⟨⟨by decide, by decide, by decide⟩,
    realloc_grow_keeps_old_bytes sbrk_ok after_fill_50 ⟨4096, 56, 50, false⟩ 100
      (well_formed_bytes _ _
        (reachable_well_formed sbrk_ok any_call _ _ (fresh_heap_well_formed 4096 zero_bytes)
          (exec_reachable _ _ _ [call.malloc 50] _ reachable.start (by decide))))
      (by decide) rfl (by decide) (by decide),
    by decide⟩

/-- C13 (counterexample). In `after_headers_50`, the state of `test4_realloc` with
the payload at 4128 filled by the caller, the pointer 4128 is granted and its
block has 56 bytes. For `n = 2^64 - 1` the `malloc(n)` inside `realloc(4128, n)`
rounds `n` to 0, carves a block of size 0 at 4184 and returns the non-null
pointer 4216, which is the address of the header of the last block of the list
and which `realloc` returns. The 56 bytes that `memcpy` writes at 4216 replace
that header, so the call has no result in which these bytes are payload. They
make the list continue with a free block of size 0 at 4216 and a free block of
size 0 at 4248 (`after_headers_overrun`); the `free(4128)` that ends the call
merges the two and stores the size 32 in the header at 4216: the first eight
bytes at the returned pointer now hold 32, while the first eight bytes at 4128
held 0. -/
theorem realloc_grow_overruns_new_block :
    granted after_headers_50 4128 ∧
    block_size after_headers_50.blocks (get_block_meta 4128) = 56 ∧
    56 < 2 ^ 64 - 1 ∧
    (malloc sbrk_ok after_headers_50 (2 ^ 64 - 1)).1 = 4216 ∧
    (malloc sbrk_ok after_headers_50 (2 ^ 64 - 1)).2.blocks =
      [⟨4096, 56, 50, false⟩, ⟨4184, 0, 2 ^ 64 - 1, false⟩, ⟨4216, 1052520, 0, true⟩] ∧
    (realloc sbrk_ok after_headers_50 4128 (2 ^ 64 - 1)).isSome = false ∧
    after_headers_overrun.blocks =
      [⟨4096, 56, 50, false⟩, ⟨4184, 0, 2 ^ 64 - 1, false⟩, ⟨4216, 0, 0, true⟩,
       ⟨4248, 0, 0, true⟩] ∧
    le64 after_headers_50.bytes 4272 = 0 ∧
    (free after_headers_overrun 4128).blocks =
      [⟨4096, 56, 0, true⟩, ⟨4184, 0, 2 ^ 64 - 1, false⟩, ⟨4216, 32, 0, true⟩] ∧
    block_size (free after_headers_overrun 4128).blocks 4216 = 32 ∧
    le64 after_headers_50.bytes 4128 = 0 := by
  refine ⟨by decide, by decide, by decide, by decide, by decide, by decide, by decide,
    by decide, by decide, by decide, by decide⟩

end MyMalloc

namespace MyMalloc

/-! ## C15: live payloads do not overlap -/

theorem partition_from_order (stop a : Nat) (l1 l2 : List block_meta_t) (b : block_meta_t)
    (h : partition_from stop a (l1 ++ b :: l2)) :
    (∀ x ∈ l1, x.addr + META_SIZE + x.size ≤ b.addr) ∧
      (∀ x ∈ l2, b.addr + META_SIZE + b.size ≤ x.addr) := by
  obtain ⟨m, h1, h2, h3⟩ := (partition_from_append stop l1 (b :: l2) a).1 h
  constructor
  · intro x hx
    have := (partition_from_bounds m l1 a h1).2 x hx
    omega
  · intro x hx
    have := (partition_from_bounds stop l2 _ h3).2 x hx
    omega

theorem partitioned_payloads_separate (s : State) (hp : partitioned s) :
    payloads_separate s := by
  have hM := META_SIZE_eq
  refine ⟨?_, ?_, ?_⟩
  · intro b hb _
    have := (partition_from_bounds _ _ _ hp.2).2 b hb
    omega
  · intro b hb c hc _ _ hne
    obtain ⟨l1, l2, hl⟩ := List.append_of_mem hb
    have hpp := hp.2
    rw [hl] at hpp hc
    obtain ⟨h1, h2⟩ := partition_from_order _ _ l1 l2 b hpp
    rcases List.mem_append.1 hc with h | h
    · have := h1 c h
      omega
    · rcases List.mem_cons.1 h with h | h
      · exact absurd h.symm hne
      · have := h2 c h
        omega
  · intro b hb d hd _
    obtain ⟨l1, l2, hl⟩ := List.append_of_mem hb
    have hpp := hp.2
    rw [hl] at hpp hd
    obtain ⟨h1, h2⟩ := partition_from_order _ _ l1 l2 b hpp
    rcases List.mem_append.1 hd with h | h
    · have := h1 d h
      omega
    · rcases List.mem_cons.1 h with h | h
      · rw [h]
        omega
      · have := h2 d h
        omega

/-- C15 (as amended). In every state reachable from the freshly initialised heap
by `malloc`/`free`/`realloc` calls in which every pointer passed to `free` or
`realloc` is null or currently granted and every `realloc` size is at most
`2^64 - 8`: the usable ranges of the in-use blocks lie inside the region, are
pairwise disjoint and contain no byte of a block header; every further such
call has a successor state, in which the same holds; and a byte written into
the usable range of one in-use block leaves every byte of the usable range of
every other in-use block as it was. -/
theorem live_payloads_are_separate (os : sbrk_t) (hs : Nat) (bytes : Nat → Nat) (s : State)
    (h : reachable os realloc_bounded (fresh_heap hs bytes) s) :
    payloads_separate s ∧
    (∀ c, realloc_bounded c = true → valid_call s c →
      ∃ t, step os s c = some t ∧ payloads_separate t) ∧
    ∀ b ∈ s.blocks, b.is_free = false → ∀ a v, b.addr + META_SIZE ≤ a →
      a < b.addr + META_SIZE + b.size →
      ∀ c ∈ s.blocks, c.is_free = false → c ≠ b →
        ∀ x, c.addr + META_SIZE ≤ x → x < c.addr + META_SIZE + c.size →
          (store s a v).bytes x = s.bytes x := by
  have hwf := reachable_well_formed os _ _ s (fresh_heap_well_formed hs bytes) h
  have hsep := partitioned_payloads_separate s hwf.2.1
  refine ⟨hsep, ?_, ?_⟩
  · intro c hadm hv
    obtain ⟨t, ht⟩ := step_defined os s c hwf hadm hv
    exact ⟨t, ht, partitioned_payloads_separate t (step_well_formed os s t c hwf hv ht).2.1⟩
  · intro b hb hbu a v ha1 ha2 c hc hcu hne x hx1 hx2
    have := hsep.2.1 b hb c hc hbu hcu (fun e => hne e.symm)
    simp only [store]
    rw [if_neg (by omega)]

/-- C15, witness: the five live allocations of `test2_multiple_allocations`. -/
theorem live_payloads_are_separate_witness :
    reachable sbrk_ok realloc_bounded (fresh_heap 4096 zero_bytes) five_live ∧
    five_live.blocks =
      [⟨4096, 16, 10, false⟩, ⟨4144, 24, 20, false⟩, ⟨4200, 32, 30, false⟩,
       ⟨4264, 40, 40, false⟩, ⟨4336, 56, 50, false⟩, ⟨4424, 1052312, 0, true⟩] ∧
    payloads_separate five_live :=
  ⟨exec_reachable _ _ _ _ _ reachable.start (by decide), by decide,
    (live_payloads_are_separate sbrk_ok 4096 zero_bytes five_live
      (exec_reachable _ _ _ _ _ reachable.start (by decide))).1⟩

/-- C15 (counterexample). In `five_live_sized`, the state with the five live
allocations of `test2_multiple_allocations`, `realloc(4128, 2^64 - 1)` is a call
with a granted pointer, whose block has 16 bytes. Its inner `malloc` rounds the
size to 0, grants a block of size 0 and returns 4456, which is the address of the
header of the next block of the list; `memcpy` then writes the 16 payload bytes
of the old block over the fields `size` and `requested_size` of that header. The
call has no successor state in which the usable ranges of the in-use blocks
contain no header. The 16 bytes hold the numbers 2000000 and 0; with these in
the two fields (`five_live_overrun`), the `free(4128)` that ends the call and a
following `malloc(2000000)` grant the block at 4456 whole, and its usable range
`[4488, 2004488)` does not lie inside the region, which ends at 1056768. -/
theorem realloc_copies_payload_over_header :
    reachable sbrk_ok any_call (fresh_heap 4096 sized_bytes) five_live_sized ∧
    valid_call five_live_sized (call.realloc 4128 (2 ^ 64 - 1)) ∧
    block_size five_live_sized.blocks (get_block_meta 4128) = 16 ∧
    (malloc sbrk_ok five_live_sized (2 ^ 64 - 1)).1 = 4456 ∧
    (malloc sbrk_ok five_live_sized (2 ^ 64 - 1)).2.blocks =
      [⟨4096, 16, 10, false⟩, ⟨4144, 24, 20, false⟩, ⟨4200, 32, 30, false⟩,
       ⟨4264, 40, 40, false⟩, ⟨4336, 56, 50, false⟩, ⟨4424, 0, 2 ^ 64 - 1, false⟩,
       ⟨4456, 1052280, 0, true⟩] ∧
    (¬ ∃ t, step sbrk_ok five_live_sized (call.realloc 4128 (2 ^ 64 - 1)) = some t ∧
        payloads_separate t) ∧
    le64 five_live_sized.bytes 4128 = 2000000 ∧ le64 five_live_sized.bytes 4136 = 0 ∧
    (malloc sbrk_ok (free five_live_overrun 4128) 2000000).1 = 4488 ∧
    (malloc sbrk_ok (free five_live_overrun 4128) 2000000).2.blocks =
      [⟨4096, 16, 0, true⟩, ⟨4144, 24, 20, false⟩, ⟨4200, 32, 30, false⟩,
       ⟨4264, 40, 40, false⟩, ⟨4336, 56, 50, false⟩, ⟨4424, 0, 2 ^ 64 - 1, false⟩,
       ⟨4456, 2000000, 2000000, false⟩] ∧
    ¬ payloads_separate (malloc sbrk_ok (free five_live_overrun 4128) 2000000).2 := by
  have hb : (malloc sbrk_ok (free five_live_overrun 4128) 2000000).2.blocks =
      [⟨4096, 16, 0, true⟩, ⟨4144, 24, 20, false⟩, ⟨4200, 32, 30, false⟩,
       ⟨4264, 40, 40, false⟩, ⟨4336, 56, 50, false⟩, ⟨4424, 0, 2 ^ 64 - 1, false⟩,
       ⟨4456, 2000000, 2000000, false⟩] := by decide
  have hh : (malloc sbrk_ok (free five_live_overrun 4128) 2000000).2.heap_start = 4096 := by
    decide
  refine ⟨exec_reachable _ _ _ _ _ reachable.start (by decide), by decide, by decide,
    by decide, by decide, ?_, by decide, by decide, by decide, hb, ?_⟩
  · rintro ⟨t, ht, _⟩
    have hnone :
        (step sbrk_ok five_live_sized (call.realloc 4128 (2 ^ 64 - 1))).isSome = false := by
      decide
    rw [ht] at hnone
    exact absurd hnone (by simp)
  · intro h
    have := (h.1 ⟨4456, 2000000, 2000000, false⟩ (by rw [hb]; simp) rfl).2
    rw [hh] at this
    simp only [META_SIZE, HEAP_SIZE] at this
    omega

end MyMalloc

namespace MyMalloc

/-! ## C18: insertion keeps the heap order -/

theorem swap_blocks_getD (h : List Nat) (i j x : Nat) (hi : i < h.length) (hj : j < h.length) :
    (swap_blocks h i j).getD x 0 =
      if x = j then h.getD i 0 else if x = i then h.getD j 0 else h.getD x 0 := by
  simp only [swap_blocks, List.getD_eq_getElem?_getD, List.getElem?_set, List.length_set]
  by_cases h1 : x = j
  · subst h1
    simp [hj]
  · by_cases h2 : x = i
    · subst h2
      simp [hi, Ne.symm h1, h1]
    · simp [h1, h2, Ne.symm h1, Ne.symm h2]

theorem heapify_up_loop_length (blocks : List block_meta_t) (fuel : Nat) (h : List Nat)
    (index : Nat) (hi : index < h.length) :
    (heapify_up_loop blocks fuel h index).length = h.length :=
  (heapify_up_loop_perm blocks fuel h index hi).length_eq

/-- The loop of `heapify_up` restores the heap order when the only entry that
may be smaller than its parent is the one at `idx`, and the children of `idx`
are not smaller than the parent of `idx`. -/
theorem heapify_up_loop_ordered (blocks : List block_meta_t) :
    ∀ (fuel : Nat) (h : List Nat) (idx : Nat), idx ≤ fuel → idx < h.length →
      (∀ i, 0 < i → i < h.length → i ≠ idx →
        block_size blocks (h.getD ((i - 1) / 2) 0) ≤ block_size blocks (h.getD i 0)) →
      (∀ i, 0 < i → i < h.length → (i - 1) / 2 = idx → 0 < idx →
        block_size blocks (h.getD ((idx - 1) / 2) 0) ≤ block_size blocks (h.getD i 0)) →
      ∀ i, 0 < i → i < h.length →
        block_size blocks ((heapify_up_loop blocks fuel h idx).getD ((i - 1) / 2) 0) ≤
          block_size blocks ((heapify_up_loop blocks fuel h idx).getD i 0) := by
  intro fuel
  induction fuel with
  | zero =>
    intro h idx hf _ inv1 _ i hi0 hil
    simp only [heapify_up_loop]
    exact inv1 i hi0 hil (by omega)
  | succ fuel ih =>
    intro h idx hf hidx inv1 inv2 i hi0 hil
    simp only [heapify_up_loop]
    by_cases hpos : idx > 0
    · rw [if_pos hpos]
      by_cases hgt : block_size blocks (h.getD ((idx - 1) / 2) 0) >
          block_size blocks (h.getD idx 0)
      · rw [if_pos hgt]
        have hp : (idx - 1) / 2 < h.length := by omega
        have hlen : (swap_blocks h ((idx - 1) / 2) idx).length = h.length :=
          swap_blocks_length h _ _
        refine ih (swap_blocks h ((idx - 1) / 2) idx) ((idx - 1) / 2) (by omega)
          (by rw [hlen]; exact hp) ?_ ?_ i hi0 (by rw [hlen]; exact hil)
        · intro k hk0 hkl hkne
          rw [hlen] at hkl
          rw [swap_blocks_getD h _ _ _ hp hidx, swap_blocks_getD h _ _ _ hp hidx]
          by_cases hk : k = idx
          · subst hk
            rw [if_neg (by omega), if_pos rfl, if_pos rfl]
            omega
          · rw [if_neg hk, if_neg hkne]
            by_cases hpk : (k - 1) / 2 = idx
            · rw [if_pos hpk]
              exact inv2 k hk0 hkl hpk hpos
            · rw [if_neg hpk]
              have h1 := inv1 k hk0 hkl hk
              by_cases hpp : (k - 1) / 2 = (idx - 1) / 2
              · rw [if_pos hpp]
                rw [hpp] at h1
                omega
              · rw [if_neg hpp]
                exact h1
        · intro k hk0 hkl hkp hp0
          rw [hlen] at hkl
          rw [swap_blocks_getD h _ _ _ hp hidx, swap_blocks_getD h _ _ _ hp hidx]
          have h1 := inv1 ((idx - 1) / 2) hp0 hp (by omega)
          rw [if_neg (by omega), if_neg (by omega)]
          by_cases hk : k = idx
          · rw [if_pos hk]
            exact h1
          · rw [if_neg hk, if_neg (by omega)]
            have h2 := inv1 k hk0 hkl hk
            rw [hkp] at h2
            omega
      · rw [if_neg hgt]
        by_cases hk : i = idx
        · subst hk
          omega
        · exact inv1 i hi0 hil hk
    · rw [if_neg hpos]
      exact inv1 i hi0 hil (by omega)

theorem heap_root_min (blocks : List block_meta_t) (h : List Nat)
    (hord : ∀ i, 0 < i → i < h.length →
      block_size blocks (h.getD ((i - 1) / 2) 0) ≤ block_size blocks (h.getD i 0)) :
    ∀ i, i < h.length → block_size blocks (h.getD 0 0) ≤ block_size blocks (h.getD i 0) := by
  intro i
  induction i using Nat.strong_induction_on with
  | _ i ih =>
    intro hi
    by_cases h0 : i = 0
    · subst h0
      exact le_refl _
    · have h1 := ih ((i - 1) / 2) (by omega) (by omega)
      have h2 := hord i (by omega) hi
      omega

/-- C18. For every state whose free index satisfies the min-heap order and holds
fewer than `MAX_FREE_BLOCKS` entries, after `insert_free_block(b)` the index
again satisfies the min-heap order, its entries are the previous entries plus
`b`, its size has grown by one, and slot 0 holds an entry of minimum size. -/
theorem insert_free_block_keeps_heap_order (s : State) (b : Nat) (hord : heap_ordered s)
    (hsz : s.free_heap.size < MAX_FREE_BLOCKS) :
    heap_ordered (insert_free_block s b) ∧
    (insert_free_block s b).free_heap.blocks.Perm (b :: s.free_heap.blocks) ∧
    (insert_free_block s b).free_heap.size = s.free_heap.size + 1 ∧
    ∀ p ∈ (insert_free_block s b).free_heap.blocks,
      block_size (insert_free_block s b).blocks
          ((insert_free_block s b).free_heap.blocks.getD 0 0) ≤
        block_size (insert_free_block s b).blocks p := by
  have hperm := (insert_free_block_index s b hsz).1
  have hlen : (insert_free_block s b).free_heap.blocks.length = s.free_heap.blocks.length + 1 := by
    rw [hperm.length_eq]
    rfl
  have hidx : (insert_free_block s b).free_heap.blocks =
      heapify_up_loop s.blocks s.free_heap.blocks.length (s.free_heap.blocks ++ [b])
        s.free_heap.blocks.length := by
    unfold insert_free_block
    rw [if_neg (by omega)]
    rfl
  have hall : ∀ i, 0 < i → i < (insert_free_block s b).free_heap.blocks.length →
      block_size s.blocks ((insert_free_block s b).free_heap.blocks.getD ((i - 1) / 2) 0) ≤
        block_size s.blocks ((insert_free_block s b).free_heap.blocks.getD i 0) := by
    intro i hi0 hil
    rw [hlen] at hil
    rw [hidx]
    refine heapify_up_loop_ordered s.blocks _ _ _ (le_refl _) (by simp) ?_ ?_ i hi0
      (by simpa using hil)
    · intro k hk0 hkl hkne
      simp only [List.length_append, List.length_singleton] at hkl
      have hk : k < s.free_heap.blocks.length := by omega
      have hkp : (k - 1) / 2 < s.free_heap.blocks.length := by omega
      have := hord k hk0 hk
      simpa [List.getD_eq_getElem?_getD, List.getElem?_append_left hk,
        List.getElem?_append_left hkp] using this
    · intro k _ hkl hkp _
      simp only [List.length_append, List.length_singleton] at hkl
      omega
  refine ⟨?_, hperm, hlen, ?_⟩
  · intro i hi0 hil
    rw [insert_free_block_blocks]
    exact hall i hi0 hil
  · intro p hp
    rw [insert_free_block_blocks]
    obtain ⟨i, hi, rfl⟩ := List.getElem_of_mem hp
    have := heap_root_min s.blocks _ hall i hi
    rw [List.getD_eq_getElem _ _ hi] at this
    exact this

/-- C18, witness: after `malloc(500)`, `malloc(100)`, `malloc(300)` the index
holds the remainder block at 5104; inserting the 104-byte block at 4632 puts it
at the root, and so does `free` of its pointer 4664. -/
theorem insert_free_block_keeps_heap_order_witness :
    (heap_ordered after_test8_first ∧
      after_test8_first.free_heap.size < MAX_FREE_BLOCKS) ∧
    heap_ordered (insert_free_block after_test8_first 4632) ∧
    (insert_free_block after_test8_first 4632).free_heap.blocks = [4632, 5104] ∧
    (free after_test8_first 4664).free_heap.blocks = [4632, 5104] ∧
    block_size (free after_test8_first 4664).blocks 4632 = 104 :=
  have hsz : after_test8_first.free_heap.size = 1 := by decide
  have hord : heap_ordered after_test8_first := by
    intro i h0 h1
    rw [hsz] at h1
    omega
  ⟨⟨hord, by decide⟩,
    (insert_free_block_keeps_heap_order after_test8_first 4632 hord (by decide)).1,
    by decide, by decide, by decide⟩

end MyMalloc

namespace MyMalloc

/-! ## C21: the split policy -/

theorem free_pair_addrs_lt (n a p : Nat) (h : p ∈ free_pair_addrs n a) : p < a + 80 * n := by
  rw [← free_addrs_pairs, mem_free_addrs] at h
  obtain ⟨b, hb, _, e⟩ := h
  have := free_used_pairs_bounds n a b hb
  omega

/-- C21 (as amended). Let `b` be a block of the list, found through its address,
and let `s + META_SIZE + 16` not exceed the range of `size_t`. If
`b.size ≥ s + META_SIZE + 16`, `split_block` sets `b.size` to `s` and links
behind `b`, before the old successors of `b`, a free block at
`b + META_SIZE + s` with size `b.size - s - META_SIZE`, which is at least 16,
and `requested_size` 0; it calls `insert_free_block` on that block, which adds
it to the free index when the index holds fewer than `MAX_FREE_BLOCKS` entries,
and otherwise leaves the index as it is and reports that the heap is full.
If `b.size < s + META_SIZE + 16`, `split_block` returns the state it was given. -/
theorem split_block_policy (s : State) (l1 l2 : List block_meta_t) (b : block_meta_t) (a : Nat)
    (hs : s.blocks = l1 ++ b :: l2) (h1 : ∀ x ∈ l1, x.addr ≠ b.addr)
    (hb : b.size < SIZE_MODULUS) (ha : a + META_SIZE + 16 < SIZE_MODULUS) :
    (a + META_SIZE + 16 ≤ b.size →
      (split_block s b.addr a).blocks =
        l1 ++ { b with size := a } ::
          ⟨b.addr + META_SIZE + a, b.size - a - META_SIZE, 0, true⟩ :: l2 ∧
      16 ≤ b.size - a - META_SIZE ∧
      (split_block s b.addr a).heap_start = s.heap_start ∧
      (split_block s b.addr a).is_initialized = s.is_initialized ∧
      (split_block s b.addr a).bytes = s.bytes ∧
      (s.free_heap.size < MAX_FREE_BLOCKS →
        (split_block s b.addr a).free_heap.blocks.Perm
          ((b.addr + META_SIZE + a) :: s.free_heap.blocks) ∧
        (split_block s b.addr a).stderr = s.stderr) ∧
      (MAX_FREE_BLOCKS ≤ s.free_heap.size →
        (split_block s b.addr a).free_heap = s.free_heap ∧
        (split_block s b.addr a).stderr = s.stderr ++ [diag.heap_full])) ∧
    (b.size < a + META_SIZE + 16 → split_block s b.addr a = s) := by
  have hM := META_SIZE_eq
  constructor
  · intro hle
    have e := split_block_split s l1 l2 b a hs h1 hb hle
    rw [e]
    refine ⟨by rw [insert_free_block_blocks], by omega, by simp, by simp,
      by rw [insert_free_block_bytes], ?_, ?_⟩
    · intro hsz
      exact insert_free_block_index _ _ hsz
    · intro hsz
      exact insert_free_block_full _ _ hsz
  · intro hlt
    exact split_block_no_split s l1 l2 b a hs h1 ha hlt

/-- C21, witness: the initial block of the fresh heap at 4096 is split at 104
bytes. -/
theorem split_block_policy_witness :
    ((fresh_heap 4096 zero_bytes).blocks = [] ++ ⟨4096, 1052640, 0, true⟩ :: [] ∧
      (1052640 : Nat) < SIZE_MODULUS ∧ 104 + META_SIZE + 16 < SIZE_MODULUS ∧
      104 + META_SIZE + 16 ≤ 1052640 ∧
      (fresh_heap 4096 zero_bytes).free_heap.size < MAX_FREE_BLOCKS) ∧
    (split_block (fresh_heap 4096 zero_bytes) 4096 104).blocks =
      [⟨4096, 104, 0, true⟩, ⟨4232, 1052504, 0, true⟩] ∧
    (split_block (fresh_heap 4096 zero_bytes) 4096 104).free_heap.blocks.Perm [4232, 4096] :=
  ⟨⟨rfl, by decide, by decide, by decide, by decide⟩,
    ((split_block_policy (fresh_heap 4096 zero_bytes) [] [] ⟨4096, 1052640, 0, true⟩ 104 rfl
      (by simp) (by decide) (by decide)).1 (by decide)).1,
    (((split_block_policy (fresh_heap 4096 zero_bytes) [] [] ⟨4096, 1052640, 0, true⟩ 104 rfl
      (by simp) (by decide) (by decide)).1 (by decide)).2.2.2.2.2.1 (by decide)).1⟩

/-- C21 (counterexample). In `full_index_state`, which is reachable and whose
index holds `MAX_FREE_BLOCKS` entries, `realloc(86128, 8)` is a call with a
granted pointer that shrinks the block of 970640 bytes at 86096 in place. Its
`split_block` sets the size to 8 and links the free remainder of 970600 bytes at
86136 behind it, but `insert_free_block` finds the index full: the remainder is
not in the free index. Second, for the block of 104 bytes at 4096 and
`s = 2^64 - 8`, `104 ≥ s + META_SIZE + 16` does not hold, but the sum wraps to 40
in `size_t`, and `split_block` sets the size of the block to `s` and links a new
block. -/
theorem split_remainder_not_indexed :
    reachable sbrk_ok any_call (fresh_heap 4096 zero_bytes) full_index_state ∧
    valid_call full_index_state (call.realloc 86128 8) ∧
    full_index_state.free_heap.size = MAX_FREE_BLOCKS ∧
    8 + META_SIZE + 16 ≤ 970640 ∧
    (∃ t, realloc sbrk_ok full_index_state 86128 8 = some (86128, t) ∧
      t.blocks = free_used_pairs 1024 4096 ++
        [⟨86016, 8, 8, false⟩, ⟨86056, 8, 8, false⟩, ⟨86096, 8, 8, false⟩,
         ⟨86136, 970600, 0, true⟩] ∧
      t.free_heap = full_index_state.free_heap ∧
      86136 ∉ t.free_heap.blocks ∧
      diag.heap_full ∈ t.stderr) ∧
    ¬ (2 ^ 64 - 8 + META_SIZE + 16 ≤ 104) ∧
    add64 (add64 (2 ^ 64 - 8) META_SIZE) 16 = 40 ∧
    block_size after_malloc_100.blocks 4096 = 104 ∧
    block_size (split_block after_malloc_100 4096 (2 ^ 64 - 8)).blocks 4096 = 2 ^ 64 - 8 ∧
    (split_block after_malloc_100 4096 (2 ^ 64 - 8)).blocks.length =
      after_malloc_100.blocks.length + 1 := by
  have hM := META_SIZE_eq
  have hlen : full_index_state.free_heap.size = MAX_FREE_BLOCKS := by
    simp [full_index_state, free_block_heap_t.size, free_pair_addrs_length, MAX_FREE_BLOCKS]
  have hl : full_index_state.blocks =
      (free_used_pairs 1024 4096 ++ [⟨86016, 8, 8, false⟩, ⟨86056, 8, 8, false⟩]) ++
        (⟨86096, 970640, 970640, false⟩ : block_meta_t) :: [] := by
    simp [full_index_state]
  have h1 : ∀ x ∈ free_used_pairs 1024 4096 ++
      [(⟨86016, 8, 8, false⟩ : block_meta_t), ⟨86056, 8, 8, false⟩],
      x.addr ≠ (⟨86096, 970640, 8, false⟩ : block_meta_t).addr := by
    intro x hx
    simp only [List.mem_append, List.mem_cons, List.mem_singleton, List.not_mem_nil,
      or_false] at hx
    rcases hx with hx | hx | hx
    · have := free_used_pairs_bounds 1024 4096 x hx
      simp only
      omega
    · rw [hx]; decide
    · rw [hx]; decide
  have hr := realloc_in_place sbrk_ok full_index_state 8 (by decide) _ _ _
    full_index_state_well_formed hl (by decide)
  have hsp := split_block_split
    { full_index_state with
      blocks := (free_used_pairs 1024 4096 ++ [⟨86016, 8, 8, false⟩, ⟨86056, 8, 8, false⟩]) ++
        (⟨86096, 970640, 8, false⟩ : block_meta_t) :: [] }
    _ [] ⟨86096, 970640, 8, false⟩ 8 rfl h1 (by decide) (by decide)
  have hfull := insert_free_block_full
    { ({ full_index_state with
        blocks := (free_used_pairs 1024 4096 ++
          [⟨86016, 8, 8, false⟩, ⟨86056, 8, 8, false⟩]) ++
          (⟨86096, 970640, 8, false⟩ : block_meta_t) :: [] } : State) with
      blocks := (free_used_pairs 1024 4096 ++ [⟨86016, 8, 8, false⟩, ⟨86056, 8, 8, false⟩]) ++
        { (⟨86096, 970640, 8, false⟩ : block_meta_t) with size := 8 } ::
          ⟨86096 + META_SIZE + 8, 970640 - 8 - META_SIZE, 0, true⟩ :: [] }
    (86096 + META_SIZE + 8) (by rw [← hlen])
  refine ⟨full_index_state_reachable, ?_, hlen, by decide, ?_, by decide, by decide,
    by decide, by decide, by decide⟩
  · right
    exact ⟨⟨86096, 970640, 970640, false⟩, by simp [full_index_state], rfl, rfl⟩
  · refine ⟨_, hr, ?_, ?_, ?_, ?_⟩
    · rw [hsp, insert_free_block_blocks]
      simp [META_SIZE]
    · rw [hsp]
      exact hfull.1
    · rw [hsp, hfull.1]
      intro hin
      have := free_pair_addrs_lt 1024 4096 86136 hin
      omega
    · rw [hsp, hfull.2]
      simp

end MyMalloc
